import Mathlib

/-!
# Pandigital search: embedding and verification

A shallow embedding of the pandigital search programs (`pandigital_simple.cpp`,
`pandigital_simd.cpp`, `pandigital_avx2.cpp`, `pandigital_avx512.cpp`,
`pandigital_avx2_advanced.cpp`) and of the consistency check of the harness (`main.cpp`),
together with theorems about them.

Conventions of the embedding

* A C++ `int` that is never negative in the program is a `Nat`.  Scalar signed
  arithmetic whose exact result does not fit in 31 bits is undefined behaviour
  in C++ and is modelled by `none`; so is an array access outside its bounds.
* A 32-bit vector lane is a `Nat` bit pattern below `2 ^ 32`; lane-wise
  arithmetic reduces modulo `2 ^ 32`, signed lane comparisons look at bit 31.
  Reading a lane back into an `int` gives `none` when the pattern has bit 31
  set (a negative value, outside the modelled range).
* `std::string` / `char[]` contents are `List Char`.
* Every loop with a data-dependent trip count is a structurally recursive
  function on a fuel argument; the theorems show the fuel suffices.
-/

namespace impl

/-- The record `struct CalcResult { int maxVal; int bestK; int bestN; }`. -/
structure CalcResult where
  maxVal : Nat
  bestK : Nat
  bestN : Nat
deriving DecidableEq

/-- Counted loop `for (i = start; i < stop; i += stride) s = body(s, i)`, where the
body may fail.  The first argument is fuel; `none` is returned when it runs out
before the loop condition becomes false. -/
def forLoop {σ : Type} (stop stride : Nat) (body : σ → Nat → Option σ) :
    Nat → Nat → σ → Option σ
  | 0, i, s => if i < stop then none else some s
  | fuel + 1, i, s =>
    if i < stop then
      match body s i with
      | none => none
      | some s' => forLoop stop stride body fuel (i + stride) s'
    else some s

/-! ## Standard library functions used by the sources -/

/-- The function `std::to_string(int)` on a non-negative argument: the decimal digits,
most significant first (`"0"` for zero). -/
def to_string (n : Nat) : List Char := Nat.toDigits 10 n

/-- Value of a decimal digit string read left to right. -/
def digitsValue (s : List Char) : Nat :=
  s.foldl (fun acc c => acc * 10 + (c.toNat - 48)) 0

/-- The function `std::stoi` on a string without sign or leading blanks: the value
of the leading digits; `none` when there is no digit (`std::invalid_argument`) or the
value does not fit an `int` (`std::out_of_range`). -/
def stoi (s : List Char) : Option Nat :=
  let ds := s.takeWhile Char.isDigit
  if ds = [] then none
  else if digitsValue ds < 2 ^ 31 then some (digitsValue ds) else none

/-- The function `std::atoi` on a string without sign or leading blanks: the value of
the leading digits (0 when there is none); `none` when the value does not fit an `int`. -/
def atoi (s : List Char) : Option Nat :=
  let ds := s.takeWhile Char.isDigit
  if digitsValue ds < 2 ^ 31 then some (digitsValue ds) else none

/-- The call `std::snprintf(s, size, "%d%d", p1, p2)` for non-negative `p1`, `p2` and `size ≥ 1`:
the returned length is that of the full text, the buffer holds at most `size - 1` of its
characters (followed by a terminating NUL, which the list leaves implicit). -/
def snprintf (size p1 p2 : Nat) : Nat × List Char :=
  let full := to_string p1 ++ to_string p2
  (full.length, full.take (size - 1))

/-! ## `pandigital_simple.cpp` -/

namespace simple

/-- The two loops of `isPandigital` after the length test: the first walks the
characters, the second (reached at the end of the string) checks `used[1..9]`.
`none` is an index outside `used[10]`. -/
def isPandigitalFrom : List Char → List Bool → Option Bool
  | [], used => some ((List.range' 1 9).all fun i => used.getD i false)
  | c :: cs, used =>
    let digit : Int := (c.toNat : Int) - 48
    if digit = 0 then some false
    else if digit < 0 ∨ 9 < digit then none
    else if used.getD digit.toNat false then some false
    else isPandigitalFrom cs (used.set digit.toNat true)

/-- The function `bool isPandigital(const std::string& s)`. -/
def isPandigital (s : List Char) : Option Bool :=
  if s.length ≠ 9 then some false
  else isPandigitalFrom s (List.replicate 10 false)

/-- Body of the loop of `calc` for one `k`. -/
def step (result : CalcResult) (k : Nat) : Option CalcResult :=
  let p1 := k
  let p2 := k * 2
  let concat := to_string p1 ++ to_string p2
  if concat.length ≠ 9 then some result
  else
    match isPandigital concat with
    | none => none
    | some false => some result
    | some true =>
      match stoi concat with
      | none => none
      | some val =>
        if val > result.maxVal then some { result with maxVal := val, bestK := k }
        else some result

/-- The loop of `calc` with the bound `10000` as a parameter:
`for (int k = 1; k < bound; ++k)`. -/
def calcBelow (bound : Nat) : Option CalcResult :=
  forLoop bound 1 step bound 1 ⟨0, 0, 2⟩

/-- The function `CalcResult calc()` (`calc` is a reserved word, hence the underscore). -/
def calc_ : Option CalcResult := calcBelow 10000

end simple

/-! ## Vector intrinsics, lane-wise -/

/-- Wrapping 32-bit lane product (`_mm256_mullo_epi32`, `_mm512_mullo_epi32`). -/
def mullo_epi32 (a b : List Nat) : List Nat :=
  List.zipWith (fun x y => (x * y) % 2 ^ 32) a b

/-- Wrapping 32-bit lane sum (`_mm256_add_epi32`, `_mm512_add_epi32`). -/
def add_epi32 (a b : List Nat) : List Nat :=
  List.zipWith (fun x y => (x + y) % 2 ^ 32) a b

/-- Wrapping 32-bit lane difference (`_mm256_sub_epi32`). -/
def sub_epi32 (a b : List Nat) : List Nat :=
  List.zipWith (fun x y => (x + 2 ^ 32 - y) % 2 ^ 32) a b

/-- Signed comparison `x < y` of two 32-bit lane patterns. -/
def slt32 (x y : Nat) : Bool :=
  if x < 2 ^ 31 then (if y < 2 ^ 31 then decide (x < y) else false)
  else (if y < 2 ^ 31 then true else decide (x < y))

/-- Reading a lane as an `int`: defined on the non-negative patterns. -/
def laneToInt (x : Nat) : Option Nat := if x < 2 ^ 31 then some x else none

/-! ## `pandigital_simd.cpp` -/

namespace base_simd

/-- The loop of `isPandigital(const char *s)`: `n` iterations remain, `i` is the index.
Reading at or past the end of the text meets the terminating NUL. -/
def isPandigitalLoop (s : List Char) : Nat → Nat → List Bool → Bool
  | 0, _, _ => true
  | n + 1, i, seen =>
    let d : Int := ((s.getD i (Char.ofNat 0)).toNat : Int) - 48
    if d ≤ 0 ∨ d > 9 ∨ seen.getD d.toNat false then false
    else isPandigitalLoop s n (i + 1) (seen.set d.toNat true)

/-- The function `bool isPandigital(const char *s)`. -/
def isPandigital (s : List Char) : Bool :=
  isPandigitalLoop s 9 0 (List.replicate 10 false)

/-- Body of the scalar check loop of `calc` for lane `i` of a batch. -/
def lane (kArr prod1 prod2 : List Nat) (result : CalcResult) (i : Nat) : Option CalcResult :=
  match prod1[i]?, prod2[i]?, kArr[i]? with
  | some x1, some x2, some k =>
    match laneToInt x1, laneToInt x2 with
    | some p1, some p2 =>
      let (len, s) := snprintf 10 p1 p2
      if len ≥ 10 then some result
      else if len ≠ 9 then some result
      else if isPandigital s then
        match atoi s with
        | none => none
        | some val =>
          if val > result.maxVal then some { result with maxVal := val, bestK := k }
          else some result
      else some result
    | _, _ => none
  | _, _, _ => none

/-- Body of the batch loop of `calc` for the batch starting at `k`. -/
def batch (MAX_K : Nat) (result : CalcResult) (k : Nat) : Option CalcResult :=
  let batchSize := min 8 (MAX_K - k + 1)
  let kArr := (List.range 8).map fun i => if i < batchSize then k + i else 0
  let two := List.replicate 8 2
  let kVec := kArr
  let prodVec1 := kVec
  let prodVec2 := mullo_epi32 kVec two
  forLoop batchSize 1 (lane kArr prodVec1 prodVec2) batchSize 0 result

/-- The loop of `calc` with `MAX_K` as a parameter. -/
def calcUpTo (MAX_K : Nat) : Option CalcResult :=
  forLoop (MAX_K + 1) 8 (batch MAX_K) (MAX_K + 1) 1 ⟨0, 0, 2⟩

/-- The function `CalcResult calc()` (`calc` is a reserved word, hence the underscore). -/
def calc_ : Option CalcResult := calcUpTo 9999

end base_simd

/-! ## The digit-mask loops shared by `avx2::isPandigitalMask` and `avx512::maskPandigitalScalar`

Both functions contain the same two `while` loops, character for character. -/

/-- First loop, `while (p1) { d = p1 % 10; if (d == 0 || (mask & (1 << d))) return false;
mask |= (1 << d); p1 /= 10; }`.  The result is the mask after the loop, or `none` when the
loop executed `return false`. -/
def maskLoopP1 : Nat → Nat → Nat → Option Nat
  | 0, _, mask => some mask
  | fuel + 1, p1, mask =>
    if p1 ≠ 0 then
      let d := p1 % 10
      if d = 0 ∨ mask &&& (1 <<< d) ≠ 0 then none
      else maskLoopP1 fuel (p1 / 10) (mask ||| (1 <<< d))
    else some mask

/-- Second loop, `while (p2) { d = p2 % 10; if (mask & (1 << d)) return false;
mask |= (1 << d); p2 /= 10; }`, with the same convention. -/
def maskLoopP2 : Nat → Nat → Nat → Option Nat
  | 0, _, mask => some mask
  | fuel + 1, p2, mask =>
    if p2 ≠ 0 then
      let d := p2 % 10
      if mask &&& (1 <<< d) ≠ 0 then none
      else maskLoopP2 fuel (p2 / 10) (mask ||| (1 <<< d))
    else some mask

/-! ## `pandigital_avx2.cpp` -/

namespace avx2

/-- The table `static constexpr int POW10[10]`. -/
def POW10 : List Nat :=
  [1, 10, 100, 1000, 10000, 100000, 1000000, 10000000, 100000000, 1000000000]

/-- The loop `do { ++cnt; x /= 10; } while (x);`. -/
def digitCountLoop : Nat → Nat → Nat → Nat
  | 0, cnt, _ => cnt
  | fuel + 1, cnt, x =>
    let cnt := cnt + 1
    let x := x / 10
    if x ≠ 0 then digitCountLoop fuel cnt x else cnt

/-- The function `int digitCount(int x)`. -/
def digitCount (x : Nat) : Nat := digitCountLoop (x + 1) 0 x

/-- The function `int concatProducts(int p1, int p2)`; `none` when the index into `POW10`
is out of bounds or the signed arithmetic overflows. -/
def concatProducts (p1 p2 : Nat) : Option Nat :=
  let d2 := digitCount p2
  match POW10[d2]? with
  | none => none
  | some pw => if p1 * pw + p2 < 2 ^ 31 then some (p1 * pw + p2) else none

/-- The function `bool isPandigitalMask(int p1, int p2)`. -/
def isPandigitalMask (p1 p2 : Nat) : Bool :=
  match maskLoopP1 p1 p1 0 with
  | none => false
  | some mask =>
    match maskLoopP2 p2 p2 mask with
    | none => false
    | some mask => mask == 0x3FE

/-- Body of the lane loop of `processBatch` for lane `i`.  The loop carries
`#pragma omp simd`; it is taken as the sequential loop it annotates. -/
def lane (kArr prod1 prod2 : List Nat) (result : CalcResult) (i : Nat) : Option CalcResult :=
  match prod1[i]?, prod2[i]?, kArr[i]? with
  | some x1, some x2, some k =>
    match laneToInt x1, laneToInt x2 with
    | some p1, some p2 =>
      match concatProducts p1 p2 with
      | none => none
      | some concat =>
        if concat < 100000000 ∨ concat > 999999999 then some result
        else if isPandigitalMask p1 p2 ∧ concat > result.maxVal then
          some { result with maxVal := concat, bestK := k }
        else some result
    | _, _ => none
  | _, _, _ => none

/-- The function `void processBatch(int kStart, int batchSize, CalcResult& result)`; the
updated record is returned.  The arrays have 8 entries: a larger `batchSize` writes and reads
out of bounds. -/
def processBatch (kStart batchSize : Nat) (result : CalcResult) : Option CalcResult :=
  if 8 < batchSize then none
  else
    let kArr := (List.range 8).map fun i => if i < batchSize then kStart + i else 0
    let kVec := kArr
    let two := List.replicate 8 2
    let v1 := kVec
    let v2 := mullo_epi32 kVec two
    forLoop batchSize 1 (lane kArr v1 v2) batchSize 0 result

/-- The loop of `calc` with `MAX_K` as a parameter. -/
def calcUpTo (MAX_K : Nat) : Option CalcResult :=
  forLoop (MAX_K + 1) 8
    (fun result k => processBatch k (min 8 (MAX_K - k + 1)) result) (MAX_K + 1) 1 ⟨0, 0, 2⟩

/-- The function `CalcResult calc()` (`calc` is a reserved word, hence the underscore). -/
def calc_ : Option CalcResult := calcUpTo 9999

end avx2

/-! ## `pandigital_avx512.cpp` -/

namespace avx512

/-- The constant `constexpr int FULL_MASK = 0x3FE`. -/
def FULL_MASK : Nat := 0x3FE

/-- The function `bool maskPandigitalScalar(int value, int p1, int p2)`. -/
def maskPandigitalScalar (value p1 p2 : Nat) : Bool :=
  match maskLoopP1 p1 p1 0 with
  | none => false
  | some mask =>
    match maskLoopP2 p2 p2 mask with
    | none => false
    | some mask => mask == FULL_MASK && decide (value ≥ 100000000) && decide (value ≤ 999999999)

/-- The intrinsic `_mm512_cmp_epi32_mask(a, b, _MM_CMPINT_LT)`: one bit per lane. -/
def cmp_lt_epi32_mask (a b : List Nat) : List Bool := List.zipWith slt32 a b

/-- The intrinsic `_mm512_mask_blend_epi32(k, a, b)`: lane of `b` where the bit of `k` is set,
lane of `a` elsewhere. -/
def mask_blend_epi32 (k : List Bool) (a b : List Nat) : List Nat :=
  List.zipWith (fun m (ab : Nat × Nat) => if m then ab.2 else ab.1) k (List.zip a b)

/-- The vector part of the batch loop: from `kArr` to `concatArr`. -/
def concatLanes (kArr : List Nat) : List Nat :=
  let kVec := kArr
  let two := List.replicate 16 2
  let p1 := kVec
  let p2 := mullo_epi32 kVec two
  let ten1 := List.replicate 16 10
  let ten2 := List.replicate 16 100
  let ten3 := List.replicate 16 1000
  let ten4 := List.replicate 16 10000
  let m1 := cmp_lt_epi32_mask p2 ten1
  let m2 := cmp_lt_epi32_mask p2 ten2
  let m3 := cmp_lt_epi32_mask p2 ten3
  let m4 := cmp_lt_epi32_mask p2 ten4
  let shift := List.replicate 16 100000
  let shift := mask_blend_epi32 m4 shift (List.replicate 16 10000)
  let shift := mask_blend_epi32 m3 shift (List.replicate 16 1000)
  let shift := mask_blend_epi32 m2 shift (List.replicate 16 100)
  let shift := mask_blend_epi32 m1 shift (List.replicate 16 10)
  add_epi32 (mullo_epi32 p1 shift) p2

/-- Body of the lane loop of `calc` for lane `i`. -/
def lane (kArr concatArr : List Nat) (result : CalcResult) (i : Nat) : Option CalcResult :=
  match concatArr[i]?, kArr[i]? with
  | some x, some p1s =>
    match laneToInt x with
    | none => none
    | some val =>
      if p1s * 2 < 2 ^ 31 then
        let p2s := p1s * 2
        if maskPandigitalScalar val p1s p2s ∧ val > result.maxVal then
          some { result with maxVal := val, bestK := p1s }
        else some result
      else none
  | _, _ => none

/-- Body of the batch loop of `calc` for the batch starting at `k`. -/
def batch (MAX_K : Nat) (result : CalcResult) (k : Nat) : Option CalcResult :=
  let bs := min 16 (MAX_K - k + 1)
  let kArr := (List.range 16).map fun i => if i < bs then k + i else 0
  let concatArr := concatLanes kArr
  forLoop bs 1 (lane kArr concatArr) bs 0 result

/-- The loop of `calc` with `MAX_K` as a parameter. -/
def calcUpTo (MAX_K : Nat) : Option CalcResult :=
  forLoop (MAX_K + 1) 16 (batch MAX_K) (MAX_K + 1) 1 ⟨0, 0, 2⟩

/-- The function `CalcResult calc()` (`calc` is a reserved word, hence the underscore). -/
def calc_ : Option CalcResult := calcUpTo 9999

end avx512

/-! ## `pandigital_avx2_advanced.cpp` -/

namespace avx2_advanced

/-- The constant `constexpr int FULL_MASK = 0x3FE`. -/
def FULL_MASK : Nat := 0x3FE

/-- The intrinsic `_mm256_set1_epi32`. -/
def set1_epi32 (v : Nat) : List Nat := List.replicate 8 v

/-- Signed 32-bit division, truncating toward zero, on lane patterns. -/
def sdiv32 (x y : Nat) : Nat :=
  let ax := if x < 2 ^ 31 then x else 2 ^ 32 - x
  let ay := if y < 2 ^ 31 then y else 2 ^ 32 - y
  let q := ax / ay
  if decide (x < 2 ^ 31) = decide (y < 2 ^ 31) then q % 2 ^ 32 else (2 ^ 32 - q) % 2 ^ 32

/-- The intrinsic `_mm256_div_epi32`. -/
def div_epi32 (a b : List Nat) : List Nat := List.zipWith sdiv32 a b

/-- The intrinsic `_mm256_sllv_epi32`: a count of 32 or more gives 0. -/
def sllv_epi32 (a count : List Nat) : List Nat :=
  List.zipWith (fun x c => if c < 32 then (x <<< c) % 2 ^ 32 else 0) a count

/-- The intrinsic `_mm256_or_si256`. -/
def or_si256 (a b : List Nat) : List Nat := List.zipWith (fun x y => x ||| y) a b

/-- The intrinsic `_mm256_and_si256`. -/
def and_si256 (a b : List Nat) : List Nat := List.zipWith (fun x y => x &&& y) a b

/-- The intrinsic `_mm256_cmpgt_epi32(a, b)`: all ones where `a > b` (signed), else 0. -/
def cmpgt_epi32 (a b : List Nat) : List Nat :=
  List.zipWith (fun x y => if slt32 y x then 0xFFFFFFFF else 0) a b

/-- The intrinsic `_mm256_cmpeq_epi32`. -/
def cmpeq_epi32 (a b : List Nat) : List Nat :=
  List.zipWith (fun x y => if x = y then 0xFFFFFFFF else 0) a b

/-- Byte `j` of a lane. -/
def byteOf (x j : Nat) : Nat := (x >>> (8 * j)) % 256

/-- One lane of `_mm256_blendv_epi8(a, b, mask)`: each byte comes from `b` where the top bit
of the mask byte is set, from `a` elsewhere. -/
def blendLane (a b mask : Nat) : Nat :=
  ((List.range 4).map fun j =>
    (if 128 ≤ byteOf mask j then byteOf b j else byteOf a j) <<< (8 * j)).sum

/-- The intrinsic `_mm256_blendv_epi8`. -/
def blendv_epi8 (a b mask : List Nat) : List Nat :=
  List.zipWith (fun x (bm : Nat × Nat) => blendLane x bm.1 bm.2) a (List.zip b mask)

/-- The intrinsic `_mm256_movemask_epi8`: bit `4 * i + j` of the result is the top bit of
byte `j` of lane `i`. -/
def movemask_epi8 (v : List Nat) : Nat :=
  ((List.range 32).map fun b =>
    (if 128 ≤ byteOf (v.getD (b / 4) 0) (b % 4) then 1 else 0) <<< b).sum

/-- One round of the loop of `compute_digit_mask` on the pair `(mask, v)`. -/
def digitMaskRound (st : List Nat × List Nat) : List Nat × List Nat :=
  let mask := st.1
  let v := st.2
  let quotient := div_epi32 v (set1_epi32 10)
  let product := mullo_epi32 quotient (set1_epi32 10)
  let remainder := sub_epi32 v product
  let bit := sllv_epi32 (set1_epi32 1) remainder
  (or_si256 mask bit, quotient)

/-- The function `__m256i compute_digit_mask(__m256i num)`: five rounds. -/
def compute_digit_mask (num : List Nat) : List Nat :=
  (digitMaskRound^[5] (set1_epi32 0, num)).1

/-- The vector `shift` of a batch. -/
def shiftLanes (p2 : List Nat) : List Nat :=
  let shift := set1_epi32 100000
  let cmp := cmpgt_epi32 (set1_epi32 10) p2
  let shift := blendv_epi8 shift (set1_epi32 10) cmp
  let cmp := cmpgt_epi32 (set1_epi32 100) p2
  let shift := blendv_epi8 shift (set1_epi32 100) cmp
  let cmp := cmpgt_epi32 (set1_epi32 1000) p2
  let shift := blendv_epi8 shift (set1_epi32 1000) cmp
  let cmp := cmpgt_epi32 (set1_epi32 10000) p2
  blendv_epi8 shift (set1_epi32 10000) cmp

/-- The vector part of the batch loop: from `kArr` to `(concatArr, validMask)`. -/
def vectorPart (kArr : List Nat) : List Nat × List Nat :=
  let kVec := kArr
  let p1 := kVec
  let p2 := mullo_epi32 kVec (set1_epi32 2)
  let shift := shiftLanes p2
  let concat := add_epi32 (mullo_epi32 p1 shift) p2
  let mask1 := compute_digit_mask p1
  let mask2 := compute_digit_mask p2
  let maskVec := or_si256 mask1 mask2
  let validMask := cmpeq_epi32 maskVec (set1_epi32 FULL_MASK)
  let rangeMask := and_si256 (cmpgt_epi32 (set1_epi32 1000000000) concat)
    (cmpgt_epi32 concat (set1_epi32 100000000))
  let validMask := and_si256 validMask rangeMask
  (concat, validMask)

/-- Body of the lane loop of `calc` for lane `i`. -/
def lane (kArr concatArr : List Nat) (mask : Nat) (result : CalcResult) (i : Nat) :
    Option CalcResult :=
  if mask &&& (1 <<< (i * 4)) ≠ 0 then
    match concatArr[i]?, kArr[i]? with
    | some x, some k =>
      match laneToInt x with
      | none => none
      | some val =>
        if val > result.maxVal then some { result with maxVal := val, bestK := k }
        else some result
    | _, _ => none
  else some result

/-- Body of the batch loop of `calc` for the batch starting at `k`. -/
def batch (MAX_K : Nat) (result : CalcResult) (k : Nat) : Option CalcResult :=
  let bs := min 8 (MAX_K - k + 1)
  let kArr := (List.range 8).map fun i => if i < bs then k + i else 0
  let vp := vectorPart kArr
  let concatArr := vp.1
  let mask := movemask_epi8 vp.2
  if mask ≠ 0 then forLoop bs 1 (lane kArr concatArr mask) bs 0 result
  else some result

/-- The loop of `calc` with `MAX_K` as a parameter. -/
def calcUpTo (MAX_K : Nat) : Option CalcResult :=
  forLoop (MAX_K + 1) 8 (batch MAX_K) (MAX_K + 1) 1 ⟨0, 0, 2⟩

/-- The function `CalcResult calc()` (`calc` is a reserved word, hence the underscore). -/
def calc_ : Option CalcResult := calcUpTo 9999

end avx2_advanced

/-! ## `main.cpp` -/

namespace main

/-- The lambda handed to `std::adjacent_find` in `benchmark`:
`a.maxVal != b.maxVal || a.bestK != b.bestK || a.bestN != b.bestN`. -/
def differs (a b : CalcResult) : Bool :=
  a.maxVal != b.maxVal || a.bestK != b.bestK || a.bestN != b.bestN

/-- The algorithm `std::adjacent_find(first, last, pred)`: the position of the first element
that satisfies `pred` together with its successor, the length of the sequence (`last`) when
there is none. -/
def adjacent_find {α : Type} (pred : α → α → Bool) : List α → Nat
  | [] => 0
  | [_] => 1
  | a :: b :: rest => if pred a b then 0 else adjacent_find pred (b :: rest) + 1

/-- The function template `benchmark(func, iterations)` without its timing: `func i` is what
the `i`-th call of `func()` returns, the result is the pair `(results[0], allSame)`; `none` when
`results` is empty and `results[0]` is out of bounds. -/
def benchmark (func : Nat → CalcResult) (iterations : Nat) : Option (CalcResult × Bool) :=
  let results := (List.range iterations).map func
  let allSame := adjacent_find differs results == results.length
  match results[0]? with
  | none => none
  | some first => some (first, allSame)

end main

/-! ## Auxiliary definitions for the proofs -/

/-- A list of digits that uses each of 1..9 exactly once and nothing else. -/
def PanList (ds : List Nat) : Prop := ds.Perm [1, 2, 3, 4, 5, 6, 7, 8, 9]

instance (ds : List Nat) : Decidable (PanList ds) :=
  inferInstanceAs (Decidable (ds.Perm [1, 2, 3, 4, 5, 6, 7, 8, 9]))

/-- The two mask loops on a list of digits, least significant first. -/
def maskList (rejectZero : Bool) : List Nat → Nat → Option Nat
  | [], mask => some mask
  | d :: ds, mask =>
    if (rejectZero = true ∧ d = 0) ∨ mask &&& (1 <<< d) ≠ 0 then none
    else maskList rejectZero ds (mask ||| (1 <<< d))

/-- What makes the mask loop run to its end on the digits `ds` from the mask `m`. -/
def MaskGood (rejectZero : Bool) (ds : List Nat) (m : Nat) : Prop :=
  (rejectZero = true → 0 ∉ ds) ∧ ds.Nodup ∧ ∀ d ∈ ds, m.testBit d = false

/-- What makes the first loop of `simple::isPandigital` followed by its second loop
return `true`, on the digits `ds` and from the array state `used`. -/
def UsedGood (ds : List Nat) (used : List Bool) : Prop :=
  0 ∉ ds ∧ ds.Nodup ∧ (∀ d ∈ ds, used.getD d false = false) ∧
    ∀ i, 1 ≤ i → i ≤ 9 → (used.getD i false = true ∨ i ∈ ds)

/-- What makes the loop of `base_simd::isPandigital` run to its end on the digits `l` from the
array state `seen`. -/
def SeenGood (l : List Nat) (seen : List Bool) : Prop :=
  0 ∉ l ∧ l.Nodup ∧ ∀ d ∈ l, seen.getD d false = false

/-- The decimal concatenation of `k` and `2k`, as a number. -/
def catK (k : Nat) : Nat := k * 10 ^ (Nat.digits 10 (k * 2)).length + k * 2

/-- The digits of `k` and `2k` together are a permutation of 1..9. -/
def GoodK (k : Nat) : Prop := PanList (Nat.digits 10 k ++ Nat.digits 10 (k * 2))

instance (k : Nat) : Decidable (GoodK k) :=
  inferInstanceAs (Decidable (PanList (Nat.digits 10 k ++ Nat.digits 10 (k * 2))))

/-- The update every search applies for one `k`. -/
def refStep (r : CalcResult) (k : Nat) : CalcResult :=
  if GoodK k ∧ catK k > r.maxVal then { r with maxVal := catK k, bestK := k } else r

/-- The shift that the compare/blend sequence of `avx512::calc` leaves in a lane whose
`p2` is `x`. -/
def avx512.laneShift (x : Nat) : Nat :=
  if slt32 x 10 then 10 else if slt32 x 100 then 100 else if slt32 x 1000 then 1000
  else if slt32 x 10000 then 10000 else 100000

/-- The initial record `{0, 0, 2}`. -/
def initResult : CalcResult := ⟨0, 0, 2⟩

/-- The fold of the reference step over `k = 1 .. n`. -/
def refSearch (n : Nat) : CalcResult := (List.range' 1 n).foldl refStep initResult

/-- One lane of `compute_digit_mask` after `n` rounds, from the lane mask `m` and the lane
value `x`. -/
def avx2_advanced.laneDigitMask : Nat → Nat → Nat → Nat
  | 0, m, _ => m
  | n + 1, m, x => avx2_advanced.laneDigitMask n (m ||| (1 <<< (x % 10))) (x / 10)

/-- One lane of the compare result `_mm256_cmpgt_epi32(set1(t), p2)`. -/
def avx2_advanced.laneCmpGt (t x : Nat) : Nat := if slt32 x t then 0xFFFFFFFF else 0

/-- The shift that the compare/blend sequence of `avx2_advanced::calc` leaves in a lane whose
`p2` is `x`. -/
def avx2_advanced.laneShift (x : Nat) : Nat :=
  avx2_advanced.blendLane
    (avx2_advanced.blendLane
      (avx2_advanced.blendLane
        (avx2_advanced.blendLane 100000 10 (avx2_advanced.laneCmpGt 10 x))
        100 (avx2_advanced.laneCmpGt 100 x))
      1000 (avx2_advanced.laneCmpGt 1000 x))
    10000 (avx2_advanced.laneCmpGt 10000 x)

/-- One lane of `concat` in `avx2_advanced::calc`, for the lane value `k` of `kArr`. -/
def avx2_advanced.laneConcat (k : Nat) : Nat :=
  ((k * avx2_advanced.laneShift (k * 2 % 2 ^ 32)) % 2 ^ 32 + k * 2 % 2 ^ 32) % 2 ^ 32

/-- One lane of the combined digit mask `maskVec`. -/
def avx2_advanced.laneMaskVec (k : Nat) : Nat :=
  avx2_advanced.laneDigitMask 5 0 k ||| avx2_advanced.laneDigitMask 5 0 (k * 2 % 2 ^ 32)

/-- One lane of the final `validMask`. -/
def avx2_advanced.laneValid (k : Nat) : Nat :=
  (if avx2_advanced.laneMaskVec k = avx2_advanced.FULL_MASK then 0xFFFFFFFF else 0) &&&
    ((if slt32 (avx2_advanced.laneConcat k) 1000000000 then 0xFFFFFFFF else 0) &&&
      (if slt32 100000000 (avx2_advanced.laneConcat k) then 0xFFFFFFFF else 0))

/-- The array `kArr` as the two preparation loops of a batch fill it: the `bs` values
`k, k+1, ...` followed by the sentinel 0 up to the width `W`. -/
def paddedBatch (W bs k : Nat) : List Nat :=
  (List.range W).map fun i => if i < bs then k + i else 0

/-- The vector `shift` of a batch of `avx512::calc` from the vector `p2`: the four compares and
the four blends, as they stand in `avx512.concatLanes`. -/
def avx512.shiftLanes (p2 : List Nat) : List Nat :=
  let ten1 := List.replicate 16 10
  let ten2 := List.replicate 16 100
  let ten3 := List.replicate 16 1000
  let ten4 := List.replicate 16 10000
  let m1 := avx512.cmp_lt_epi32_mask p2 ten1
  let m2 := avx512.cmp_lt_epi32_mask p2 ten2
  let m3 := avx512.cmp_lt_epi32_mask p2 ten3
  let m4 := avx512.cmp_lt_epi32_mask p2 ten4
  let shift := List.replicate 16 100000
  let shift := avx512.mask_blend_epi32 m4 shift (List.replicate 16 10000)
  let shift := avx512.mask_blend_epi32 m3 shift (List.replicate 16 1000)
  let shift := avx512.mask_blend_epi32 m2 shift (List.replicate 16 100)
  avx512.mask_blend_epi32 m1 shift (List.replicate 16 10)

/-- One record follows another in a search: `maxVal` has not decreased, `bestK` has changed
only if `maxVal` has grown, `bestN` is the same. -/
def Follows (r r' : CalcResult) : Prop :=
  r.maxVal ≤ r'.maxVal ∧ (r'.bestK ≠ r.bestK → r.maxVal < r'.maxVal) ∧ r'.bestN = r.bestN

/-! ## The notions of the specification -/

/-- The number whose decimal form is that of `a` followed by that of `b`
("the decimal concatenation of a and b"). -/
def decimalConcat (a b : Nat) : Nat := Nat.ofDigits 10 (Nat.digits 10 b ++ Nat.digits 10 a)

/-- Pandigital (1-9) number: a 9-digit decimal number using each digit 1 through 9 exactly
once, containing no 0. -/
def IsPandigital (n : Nat) : Prop :=
  (Nat.digits 10 n).length = 9 ∧ 0 ∉ Nat.digits 10 n ∧
    ∀ d ∈ List.range' 1 9, (Nat.digits 10 n).count d = 1

instance (n : Nat) : Decidable (IsPandigital n) :=
  inferInstanceAs (Decidable (_ ∧ _ ∧ _))

/-- A valid candidate of the search: `k` in `[1, 9999]` whose concatenation with `2k` is
pandigital. -/
def ValidK (k : Nat) : Prop := 1 ≤ k ∧ k ≤ 9999 ∧ IsPandigital (decimalConcat k (2 * k))

/-- The invariant of the result record: `bestN` is 2, and either nothing was found
(`maxVal = 0`, `bestK = 0`) or `maxVal ≠ 0` and `bestK` lies in `[1, 9999]`. -/
def Inv (r : CalcResult) : Prop :=
  r.bestN = 2 ∧ ((r.maxVal = 0 ∧ r.bestK = 0) ∨ (r.maxVal ≠ 0 ∧ 1 ≤ r.bestK ∧ r.bestK ≤ 9999))

instance (r : CalcResult) : Decidable (Inv r) := inferInstanceAs (Decidable (_ ∧ _))

/-! ## Decimal digits: the library functions and the digit loops -/

theorem toDigitsCore_eq_digits (fuel : Nat) : ∀ (n : Nat) (ds : List Char), 0 < n → n < fuel →
    Nat.toDigitsCore 10 fuel n ds = ((Nat.digits 10 n).reverse.map Nat.digitChar) ++ ds := by
  induction fuel with
  | zero => intro n ds _ h; omega
  | succ fuel ih =>
    intro n ds hn hlt
    rw [Nat.digits_def' (by norm_num) hn]
    unfold Nat.toDigitsCore
    by_cases h0 : n / 10 = 0
    · simp [h0]
    · simp only [h0, if_false]
      rw [ih (n / 10) _ (Nat.pos_of_ne_zero h0) (by omega)]
      simp

theorem to_string_eq_digits (n : Nat) (hn : 0 < n) :
    to_string n = (Nat.digits 10 n).reverse.map Nat.digitChar := by
  unfold to_string Nat.toDigits
  rw [toDigitsCore_eq_digits (n + 1) n [] hn (by omega)]
  simp

theorem to_string_length (n : Nat) (hn : 0 < n) :
    (to_string n).length = (Nat.digits 10 n).length := by
  rw [to_string_eq_digits n hn]; simp

theorem digitChar_toNat (d : Nat) (hd : d < 10) : (Nat.digitChar d).toNat = 48 + d := by
  interval_cases d <;> rfl

theorem digitChar_isDigit (d : Nat) (hd : d < 10) : (Nat.digitChar d).isDigit = true := by
  interval_cases d <;> rfl

theorem digitCountLoop_eq (fuel : Nat) : ∀ (cnt x : Nat), 0 < x → x < fuel →
    avx2.digitCountLoop fuel cnt x = cnt + (Nat.digits 10 x).length := by
  induction fuel with
  | zero => intro cnt x _ h; omega
  | succ fuel ih =>
    intro cnt x hx hlt
    rw [Nat.digits_def' (by norm_num) hx]
    unfold avx2.digitCountLoop
    by_cases h0 : x / 10 = 0
    · simp [h0]
    · simp only [ne_eq, h0, not_false_eq_true, if_true]
      rw [ih _ (x / 10) (Nat.pos_of_ne_zero h0) (by omega)]
      simp; omega

theorem digitCount_eq (x : Nat) (hx : 0 < x) :
    avx2.digitCount x = (Nat.digits 10 x).length := by
  unfold avx2.digitCount
  rw [digitCountLoop_eq (x + 1) 0 x hx (by omega)]; simp

theorem digitCount_zero : avx2.digitCount 0 = 1 := by decide

/-! ## Digit lists that are a permutation of 1..9 -/

theorem mem_oneToNine (i : Nat) : i ∈ [1, 2, 3, 4, 5, 6, 7, 8, 9] ↔ 1 ≤ i ∧ i ≤ 9 := by
  simp only [List.mem_cons, List.mem_singleton, List.not_mem_nil, or_false]
  omega

theorem panList_iff (ds : List Nat) :
    PanList ds ↔ ds.Nodup ∧ ∀ i, i ∈ ds ↔ (1 ≤ i ∧ i ≤ 9) := by
  unfold PanList
  constructor
  · intro h
    refine ⟨(h.nodup_iff).2 (by decide), fun i => ?_⟩
    rw [h.mem_iff, mem_oneToNine]
  · rintro ⟨hnd, hmem⟩
    rw [List.perm_ext_iff_of_nodup hnd (by decide)]
    intro a
    rw [hmem, mem_oneToNine]

theorem PanList.length_eq {ds : List Nat} (h : PanList ds) : ds.length = 9 := by
  have := List.Perm.length_eq h
  simpa using this

/-! ## The digit-mask loops -/

theorem maskLoopP1_eq_maskList (fuel : Nat) : ∀ (p mask : Nat), p ≤ fuel →
    maskLoopP1 fuel p mask = maskList true (Nat.digits 10 p) mask := by
  induction fuel with
  | zero => intro p mask h; have : p = 0 := by omega
            subst this; simp [maskLoopP1, maskList]
  | succ fuel ih =>
    intro p mask hle
    unfold maskLoopP1
    by_cases hp : p = 0
    · subst hp; simp [maskList]
    · have hpos : 0 < p := Nat.pos_of_ne_zero hp
      rw [Nat.digits_def' (by norm_num) hpos]
      simp only [ne_eq, hp, not_false_eq_true, if_true, maskList, true_and]
      rw [ih (p / 10) _ (by omega)]

theorem maskLoopP2_eq_maskList (fuel : Nat) : ∀ (p mask : Nat), p ≤ fuel →
    maskLoopP2 fuel p mask = maskList false (Nat.digits 10 p) mask := by
  induction fuel with
  | zero => intro p mask h; have : p = 0 := by omega
            subst this; simp [maskLoopP2, maskList]
  | succ fuel ih =>
    intro p mask hle
    unfold maskLoopP2
    by_cases hp : p = 0
    · subst hp; simp [maskList]
    · have hpos : 0 < p := Nat.pos_of_ne_zero hp
      rw [Nat.digits_def' (by norm_num) hpos]
      simp only [ne_eq, hp, not_false_eq_true, if_true, maskList, Bool.false_eq_true, false_and,
        false_or]
      rw [ih (p / 10) _ (by omega)]

theorem and_one_shiftLeft_ne_zero (m d : Nat) : m &&& (1 <<< d) ≠ 0 ↔ m.testBit d = true := by
  rw [Nat.one_shiftLeft]
  constructor
  · intro h
    by_contra hb
    apply h
    apply Nat.eq_of_testBit_eq
    intro i
    simp only [Nat.testBit_and, Nat.testBit_two_pow, Nat.zero_testBit]
    by_cases hi : d = i
    · subst hi; simp [hb]
    · simp [hi]
  · intro hb h0
    have := congrArg (fun x => Nat.testBit x d) h0
    simp [Nat.testBit_and, Nat.testBit_two_pow, hb] at this

theorem testBit_or_one_shiftLeft (m d i : Nat) :
    (m ||| (1 <<< d)).testBit i = (m.testBit i || decide (d = i)) := by
  rw [Nat.one_shiftLeft, Nat.testBit_or, Nat.testBit_two_pow]

theorem maskList_some_of_good (rz : Bool) : ∀ (ds : List Nat) (m : Nat), MaskGood rz ds m →
    ∃ m', maskList rz ds m = some m' ∧
      ∀ i, m'.testBit i = (m.testBit i || decide (i ∈ ds)) := by
  intro ds
  induction ds with
  | nil => intro m _; exact ⟨m, rfl, by simp⟩
  | cons d ds ih =>
    intro m ⟨hz, hnd, hbits⟩
    have hd : m.testBit d = false := hbits d (List.mem_cons_self _ _)
    have hnd' := List.nodup_cons.1 hnd
    have hgood : MaskGood rz ds (m ||| (1 <<< d)) := by
      refine ⟨fun h => fun h0 => hz h (List.mem_cons_of_mem _ h0), hnd'.2, fun e he => ?_⟩
      rw [testBit_or_one_shiftLeft, hbits e (List.mem_cons_of_mem _ he)]
      have : d ≠ e := fun h => hnd'.1 (h ▸ he)
      simp [this]
    obtain ⟨m', hm', hb'⟩ := ih _ hgood
    refine ⟨m', ?_, fun i => ?_⟩
    · unfold maskList
      have h1 : ¬ (rz = true ∧ d = 0) := fun ⟨h, h0⟩ => hz h (h0 ▸ List.mem_cons_self _ _)
      have h2 : ¬ (m &&& (1 <<< d) ≠ 0) := by
        rw [and_one_shiftLeft_ne_zero, hd]; simp
      rw [if_neg (by tauto)]
      exact hm'
    · rw [hb' i, testBit_or_one_shiftLeft]
      by_cases hi : d = i
      · subst hi; simp
      · have : ¬ i = d := fun h => hi h.symm
        simp [hi, this]

theorem maskList_good_of_some (rz : Bool) : ∀ (ds : List Nat) (m m' : Nat),
    maskList rz ds m = some m' → MaskGood rz ds m := by
  intro ds
  induction ds with
  | nil => intro m m' _; exact ⟨fun _ => by simp, List.nodup_nil, by simp⟩
  | cons d ds ih =>
    intro m m' h
    unfold maskList at h
    by_cases hc : (rz = true ∧ d = 0) ∨ m &&& (1 <<< d) ≠ 0
    · rw [if_pos hc] at h; cases h
    · rw [if_neg hc] at h
      have hc' := not_or.1 hc
      have hd : m.testBit d = false := by
        have := hc'.2
        rw [and_one_shiftLeft_ne_zero] at this
        simpa using this
      obtain ⟨hz, hnd, hbits⟩ := ih _ _ h
      refine ⟨fun hrz => ?_, ?_, ?_⟩
      · intro h0
        rcases List.mem_cons.1 h0 with h0 | h0
        · exact hc'.1 ⟨hrz, h0.symm⟩
        · exact hz hrz h0
      · refine List.nodup_cons.2 ⟨fun hmem => ?_, hnd⟩
        have := hbits d hmem
        rw [testBit_or_one_shiftLeft] at this
        simp at this
      · intro e he
        rcases List.mem_cons.1 he with he | he
        · rw [he]; exact hd
        · have := hbits e he
          rw [testBit_or_one_shiftLeft] at this
          simp at this
          exact this.1

theorem testBit_fullMask (i : Nat) : Nat.testBit 0x3FE i = decide (1 ≤ i ∧ i ≤ 9) := by
  by_cases hi : i < 10
  · interval_cases i <;> rfl
  · have h1 : (0x3FE : Nat) < 2 ^ i :=
      lt_of_lt_of_le (by norm_num : (0x3FE : Nat) < 2 ^ 10)
        (Nat.pow_le_pow_right (by norm_num) (by omega))
    rw [Nat.testBit_lt_two_pow h1]
    simp; omega

/-- The two mask loops followed by the comparison with `0x3FE` accept exactly the pairs whose
digits together are a permutation of 1..9. -/
theorem maskLoops_iff (p1 p2 : Nat) :
    (∃ m1, maskLoopP1 p1 p1 0 = some m1 ∧ maskLoopP2 p2 p2 m1 = some 0x3FE) ↔
      PanList (Nat.digits 10 p1 ++ Nat.digits 10 p2) := by
  rw [maskLoopP1_eq_maskList p1 p1 0 le_rfl, panList_iff]
  constructor
  · rintro ⟨m1, h1, h2⟩
    rw [maskLoopP2_eq_maskList p2 p2 m1 le_rfl] at h2
    have g1 := maskList_good_of_some _ _ _ _ h1
    have g2 := maskList_good_of_some _ _ _ _ h2
    obtain ⟨m1', h1', b1⟩ := maskList_some_of_good _ _ _ g1
    obtain ⟨m2', h2', b2⟩ := maskList_some_of_good _ _ _ g2
    rw [h1] at h1'; cases h1'
    rw [h2] at h2'; cases h2'
    have hb1 : ∀ i, m1.testBit i = decide (i ∈ Nat.digits 10 p1) := by
      intro i; rw [b1 i]; simp
    refine ⟨?_, fun i => ?_⟩
    · rw [List.nodup_append]
      refine ⟨g1.2.1, g2.2.1, ?_⟩
      intro a ha1 ha2
      have := g2.2.2 a ha2
      rw [hb1 a] at this
      simp at this
      exact this ha1
    · have := b2 i
      rw [testBit_fullMask, hb1 i] at this
      rw [List.mem_append]
      have h3 := congrArg (fun b => b = true) this
      simp only [decide_eq_true_eq, Bool.or_eq_true] at h3
      rw [← h3]
  · rintro ⟨hnd, hmem⟩
    rw [List.nodup_append] at hnd
    obtain ⟨hnd1, hnd2, hdisj⟩ := hnd
    have g1 : MaskGood true (Nat.digits 10 p1) 0 := by
      refine ⟨fun _ h0 => ?_, hnd1, fun d _ => Nat.zero_testBit d⟩
      have := (hmem 0).1 (List.mem_append_left _ h0)
      omega
    obtain ⟨m1, h1, b1⟩ := maskList_some_of_good _ _ _ g1
    have hb1 : ∀ i, m1.testBit i = decide (i ∈ Nat.digits 10 p1) := by
      intro i; rw [b1 i]; simp
    have g2 : MaskGood false (Nat.digits 10 p2) m1 := by
      refine ⟨fun h => Bool.noConfusion h, hnd2, fun d hd => ?_⟩
      rw [hb1 d]
      simp
      exact fun h => hdisj h hd
    obtain ⟨m2, h2, b2⟩ := maskList_some_of_good _ _ _ g2
    refine ⟨m1, h1, ?_⟩
    rw [maskLoopP2_eq_maskList p2 p2 m1 le_rfl, h2]
    congr 1
    apply Nat.eq_of_testBit_eq
    intro i
    rw [b2 i, hb1 i, testBit_fullMask]
    have := hmem i
    rw [List.mem_append] at this
    by_cases h : 1 ≤ i ∧ i ≤ 9
    · have h' := this.2 h
      simp only [h, and_self, decide_True]
      rcases h' with h' | h' <;> simp [h']
    · have h' : ¬ (i ∈ Nat.digits 10 p1 ∨ i ∈ Nat.digits 10 p2) := fun x => h (this.1 x)
      have h1' := not_or.1 h'
      simp [h, h1'.1, h1'.2]

theorem isPandigitalMask_iff (p1 p2 : Nat) :
    avx2.isPandigitalMask p1 p2 = true ↔ PanList (Nat.digits 10 p1 ++ Nat.digits 10 p2) := by
  rw [← maskLoops_iff]
  unfold avx2.isPandigitalMask
  cases h1 : maskLoopP1 p1 p1 0 with
  | none => simp
  | some m1 =>
    cases h2 : maskLoopP2 p2 p2 m1 with
    | none => simp [h2]
    | some m2 => simp [h2]

/-! ## The string validators -/

theorem getD_set_true (used : List Bool) (d i : Nat) (hd : d < used.length) :
    (used.set d true).getD i false = (decide (d = i) || used.getD i false) := by
  simp only [List.getD_eq_getElem?_getD, List.getElem?_set]
  by_cases h : d = i
  · subst h; simp [hd]
  · simp [h]

theorem digitChar_sub (d : Nat) (hd : d < 10) : ((Nat.digitChar d).toNat : Int) - 48 = (d : Int) := by
  rw [digitChar_toNat d hd]; push_cast; ring

theorem isPandigitalFrom_digits : ∀ (ds : List Nat) (used : List Bool),
    (∀ d ∈ ds, d < 10) → used.length = 10 →
    ∃ b, simple.isPandigitalFrom (ds.map Nat.digitChar) used = some b ∧
      (b = true ↔ UsedGood ds used) := by
  intro ds
  induction ds with
  | nil =>
    intro used _ _
    refine ⟨_, rfl, ?_⟩
    simp only [List.all_eq_true, List.mem_range'_1, UsedGood, List.not_mem_nil, not_false_eq_true,
      List.nodup_nil, false_implies, implies_true, or_false, true_and]
    constructor
    · intro h i h1 h9; exact h i ⟨h1, by omega⟩
    · intro h i hi; exact h i hi.1 (by omega)
  | cons d ds ih =>
    intro used hlt hlen
    have hd : d < 10 := hlt d (List.mem_cons_self _ _)
    have hlt' : ∀ e ∈ ds, e < 10 := fun e he => hlt e (List.mem_cons_of_mem _ he)
    simp only [List.map_cons, simple.isPandigitalFrom, digitChar_sub d hd]
    by_cases h0 : d = 0
    · subst h0
      refine ⟨false, by simp, ?_⟩
      simp [UsedGood]
    · have h0' : ¬ ((d : Int) = 0) := by exact_mod_cast h0
      have hr : ¬ ((d : Int) < 0 ∨ 9 < (d : Int)) := by omega
      simp only [h0', if_false, hr, Int.toNat_ofNat]
      by_cases hu : used.getD d false = true
      · refine ⟨false, by rw [if_pos hu], ?_⟩
        simp only [Bool.false_eq_true, UsedGood, false_iff]
        rintro ⟨_, _, h3, _⟩
        have := h3 d (List.mem_cons_self _ _)
        rw [hu] at this; cases this
      · have hu' : used.getD d false = false := by simpa using hu
        obtain ⟨b, hb, hiff⟩ := ih (used.set d true) hlt' (by simpa using hlen)
        refine ⟨b, by rw [if_neg hu]; exact hb, ?_⟩
        rw [hiff]
        have hdl : d < used.length := by omega
        unfold UsedGood
        constructor
        · rintro ⟨a1, a2, a3, a4⟩
          refine ⟨?_, ?_, ?_, ?_⟩
          · intro hm
            rcases List.mem_cons.1 hm with hm | hm
            · exact h0 hm.symm
            · exact a1 hm
          · refine List.nodup_cons.2 ⟨fun hm => ?_, a2⟩
            have := a3 d hm
            rw [getD_set_true used d d hdl] at this
            simp at this
          · intro e he
            rcases List.mem_cons.1 he with he | he
            · rw [he]; exact hu'
            · have := a3 e he
              rw [getD_set_true used d e hdl] at this
              simp only [Bool.or_eq_false_iff] at this
              exact this.2
          · intro i h1 h9
            rcases a4 i h1 h9 with h | h
            · rw [getD_set_true used d i hdl] at h
              simp only [Bool.or_eq_true, decide_eq_true_eq] at h
              rcases h with h | h
              · right; rw [← h]; exact List.mem_cons_self _ _
              · left; exact h
            · right; exact List.mem_cons_of_mem _ h
        · rintro ⟨a1, a2, a3, a4⟩
          have a2' := List.nodup_cons.1 a2
          refine ⟨fun hm => a1 (List.mem_cons_of_mem _ hm), a2'.2, ?_, ?_⟩
          · intro e he
            rw [getD_set_true used d e hdl, a3 e (List.mem_cons_of_mem _ he)]
            have : d ≠ e := fun h => a2'.1 (h ▸ he)
            simp [this]
          · intro i h1 h9
            rw [getD_set_true used d i hdl]
            rcases a4 i h1 h9 with h | h
            · left; rw [h]; simp
            · rcases List.mem_cons.1 h with h | h
              · left; simp [h]
              · right; exact h

theorem getD_replicate_false (n i : Nat) : (List.replicate n false).getD i false = false := by
  simp only [List.getD_eq_getElem?_getD, List.getElem?_replicate]
  split <;> rfl

/-- The function `simple::isPandigital` on a string of decimal digits returns, and returns `true`
exactly on the strings of nine digits that are a permutation of 1..9. -/
theorem simple_isPandigital_digits (ds : List Nat) (hlt : ∀ d ∈ ds, d < 10) :
    ∃ b, simple.isPandigital (ds.map Nat.digitChar) = some b ∧ (b = true ↔ PanList ds) := by
  unfold simple.isPandigital
  by_cases hlen : ds.length = 9
  · obtain ⟨b, hb, hiff⟩ := isPandigitalFrom_digits ds (List.replicate 10 false) hlt (by simp)
    refine ⟨b, ?_, ?_⟩
    · rw [if_neg (by simp [hlen])]; exact hb
    rw [hiff, panList_iff]
    unfold UsedGood
    simp only [getD_replicate_false, Bool.false_eq_true, false_or, implies_true, true_and]
    constructor
    · rintro ⟨a1, a2, a4⟩
      refine ⟨a2, fun i => ⟨fun hi => ?_, fun hi => a4 i hi.1 hi.2⟩⟩
      have := hlt i hi
      have : i ≠ 0 := fun h => a1 (h ▸ hi)
      omega
    · rintro ⟨a2, a4⟩
      refine ⟨fun h0 => ?_, a2, fun i h1 h9 => (a4 i).2 ⟨h1, h9⟩⟩
      have := (a4 0).1 h0
      omega
  · refine ⟨false, by simp [hlen], ?_⟩
    simp only [Bool.false_eq_true, false_iff]
    intro h
    exact hlen h.length_eq

theorem isDigit_toNat (c : Char) (h : c.isDigit = true) : 48 ≤ c.toNat ∧ c.toNat ≤ 57 := by
  unfold Char.isDigit at h
  simp only [Bool.and_eq_true, decide_eq_true_eq] at h
  have h1 : (48 : UInt32) ≤ c.val := h.1
  have h2 : c.val ≤ (57 : UInt32) := h.2
  rw [UInt32.le_def] at h1 h2
  constructor
  · exact h1
  · exact h2

theorem digitChar_of_isDigit (c : Char) (h : c.isDigit = true) :
    Nat.digitChar (c.toNat - 48) = c := by
  obtain ⟨h1, h2⟩ := isDigit_toNat c h
  have hc : c = Char.ofNat c.toNat := (Char.ofNat_toNat c).symm
  generalize c.toNat = n at *
  subst hc
  interval_cases n <;> rfl

/-- A string of decimal digit characters is the image of its list of digit values. -/
theorem digitString_eq_map (s : List Char) (h : ∀ c ∈ s, c.isDigit = true) :
    s = (s.map fun c => c.toNat - 48).map Nat.digitChar := by
  rw [List.map_map]
  conv_lhs => rw [← List.map_id s]
  apply List.map_congr_left
  intro c hc
  simp [digitChar_of_isDigit c (h c hc)]

theorem digitString_lt (s : List Char) (h : ∀ c ∈ s, c.isDigit = true) :
    ∀ d ∈ (s.map fun c => c.toNat - 48), d < 10 := by
  intro d hd
  obtain ⟨c, hc, rfl⟩ := List.mem_map.1 hd
  have := isDigit_toNat c (h c hc)
  omega

theorem base_isPandigitalLoop_digits (ds : List Nat) (hlt : ∀ d ∈ ds, d < 10) :
    ∀ (n i : Nat) (seen : List Bool), i + n ≤ ds.length → seen.length = 10 →
      (base_simd.isPandigitalLoop (ds.map Nat.digitChar) n i seen = true ↔
        SeenGood ((ds.drop i).take n) seen) := by
  intro n
  induction n with
  | zero => intro i seen _ _; simp [base_simd.isPandigitalLoop, SeenGood]
  | succ n ih =>
    intro i seen hi hlen
    have hil : i < ds.length := by omega
    have hdrop : (ds.drop i).take (n + 1) = ds[i] :: (ds.drop (i + 1)).take n := by
      rw [List.drop_eq_getElem_cons hil, List.take_succ_cons]
    have hd : ds[i] < 10 := hlt _ (List.getElem_mem hil)
    have hget : (ds.map Nat.digitChar).getD i (Char.ofNat 0) = Nat.digitChar ds[i] := by
      rw [List.getD_eq_getElem?_getD, List.getElem?_map, List.getElem?_eq_getElem hil]
      rfl
    rw [hdrop]
    unfold base_simd.isPandigitalLoop
    simp only [hget, digitChar_sub _ hd, Int.toNat_ofNat]
    have hdl : ds[i] < seen.length := by omega
    by_cases hc : ((ds[i] : Nat) : Int) ≤ 0 ∨ ((ds[i] : Nat) : Int) > 9 ∨
        seen.getD ds[i] false = true
    · rw [if_pos hc]
      simp only [Bool.false_eq_true, false_iff]
      rintro ⟨a1, a2, a3⟩
      rcases hc with h | h | h
      · apply a1
        have : ds[i] = 0 := by omega
        rw [← this]; exact List.mem_cons_self _ _
      · omega
      · have := a3 ds[i] (List.mem_cons_self _ _)
        rw [h] at this; cases this
    · rw [if_neg hc]
      have hc1 : ds[i] ≠ 0 := fun h => hc (Or.inl (by omega))
      have hc3 : seen.getD ds[i] false = false := by
        by_contra h
        exact hc (Or.inr (Or.inr (by simpa using h)))
      rw [ih (i + 1) (seen.set ds[i] true) (by omega) (by simpa using hlen)]
      unfold SeenGood
      constructor
      · rintro ⟨a1, a2, a3⟩
        refine ⟨?_, ?_, ?_⟩
        · intro hm
          rcases List.mem_cons.1 hm with hm | hm
          · exact hc1 hm.symm
          · exact a1 hm
        · refine List.nodup_cons.2 ⟨fun hm => ?_, a2⟩
          have := a3 _ hm
          rw [getD_set_true seen _ _ hdl] at this
          simp at this
        · intro e he
          rcases List.mem_cons.1 he with he | he
          · rw [he]; exact hc3
          · have := a3 e he
            rw [getD_set_true seen _ e hdl] at this
            simp only [Bool.or_eq_false_iff] at this
            exact this.2
      · rintro ⟨a1, a2, a3⟩
        have a2' := List.nodup_cons.1 a2
        refine ⟨fun hm => a1 (List.mem_cons_of_mem _ hm), a2'.2, ?_⟩
        intro e he
        rw [getD_set_true seen _ e hdl, a3 e (List.mem_cons_of_mem _ he)]
        have : ds[i] ≠ e := fun h => a2'.1 (h ▸ he)
        simp [this]

/-- Nine distinct digits among 1..9 are all of 1..9. -/
theorem panList_of_nodup (ds : List Nat) (hlen : ds.length = 9) (hnd : ds.Nodup)
    (hr : ∀ d ∈ ds, 1 ≤ d ∧ d ≤ 9) : PanList ds := by
  unfold PanList
  have hsub : ds ⊆ [1, 2, 3, 4, 5, 6, 7, 8, 9] := by
    intro d hd
    exact (mem_oneToNine d).2 (hr d hd)
  exact (List.subperm_of_subset hnd hsub).perm_of_length_le (by simp [hlen])

/-- The function `base_simd::isPandigital` on a string of nine decimal digits returns `true`
exactly when the digits are a permutation of 1..9. -/
theorem base_isPandigital_digits (ds : List Nat) (hlt : ∀ d ∈ ds, d < 10) (hlen : ds.length = 9) :
    base_simd.isPandigital (ds.map Nat.digitChar) = true ↔ PanList ds := by
  unfold base_simd.isPandigital
  rw [base_isPandigitalLoop_digits ds hlt 9 0 _ (by omega) (by simp)]
  have htake : (ds.drop 0).take 9 = ds := by
    rw [List.drop_zero, ← hlen, List.take_length]
  rw [htake]
  unfold SeenGood
  constructor
  · rintro ⟨a1, a2, _⟩
    refine panList_of_nodup ds hlen a2 (fun d hd => ?_)
    have := hlt d hd
    have : d ≠ 0 := fun h => a1 (h ▸ hd)
    omega
  · intro h
    have h' := (panList_iff ds).1 h
    refine ⟨fun h0 => ?_, h'.1, fun d _ => getD_replicate_false _ _⟩
    have := (h'.2 0).1 h0
    omega

/-! ## Concatenation values -/

theorem digitsValue_foldl (l : List Nat) (hlt : ∀ d ∈ l, d < 10) : ∀ acc : Nat,
    (l.map Nat.digitChar).foldl (fun acc c => acc * 10 + (c.toNat - 48)) acc =
      acc * 10 ^ l.length + Nat.ofDigits 10 l.reverse := by
  induction l with
  | nil => intro acc; simp
  | cons d l ih =>
    intro acc
    have hd : d < 10 := hlt d (List.mem_cons_self _ _)
    have hl : ∀ e ∈ l, e < 10 := fun e he => hlt e (List.mem_cons_of_mem _ he)
    simp only [List.map_cons, List.foldl_cons, List.reverse_cons, List.length_cons]
    rw [ih hl, digitChar_toNat d hd, Nat.ofDigits_append, List.length_reverse]
    simp only [Nat.ofDigits_singleton, Nat.add_sub_cancel_left]
    ring

theorem digits_lt_ten (n : Nat) : ∀ d ∈ Nat.digits 10 n, d < 10 :=
  fun _ hd => Nat.digits_lt_base (by norm_num) hd

theorem digitsValue_to_string_append (p1 p2 : Nat) (h1 : 0 < p1) (h2 : 0 < p2) :
    digitsValue (to_string p1 ++ to_string p2) = p1 * 10 ^ (Nat.digits 10 p2).length + p2 := by
  unfold digitsValue
  rw [to_string_eq_digits p1 h1, to_string_eq_digits p2 h2, List.foldl_append,
    digitsValue_foldl _ (fun d hd => digits_lt_ten p1 d (List.mem_reverse.1 hd)),
    digitsValue_foldl _ (fun d hd => digits_lt_ten p2 d (List.mem_reverse.1 hd))]
  simp [Nat.ofDigits_digits]

theorem to_string_isDigit (p : Nat) (hp : 0 < p) : ∀ c ∈ to_string p, c.isDigit = true := by
  intro c hc
  rw [to_string_eq_digits p hp] at hc
  obtain ⟨d, hd, rfl⟩ := List.mem_map.1 hc
  exact digitChar_isDigit d (digits_lt_ten p d (List.mem_reverse.1 hd))

theorem takeWhile_isDigit_concat (p1 p2 : Nat) (h1 : 0 < p1) (h2 : 0 < p2) :
    (to_string p1 ++ to_string p2).takeWhile Char.isDigit = to_string p1 ++ to_string p2 := by
  rw [List.takeWhile_eq_self_iff]
  intro c hc
  rcases List.mem_append.1 hc with h | h
  · exact to_string_isDigit p1 h1 c h
  · exact to_string_isDigit p2 h2 c h

theorem to_string_ne_nil (p : Nat) (hp : 0 < p) : to_string p ≠ [] := by
  intro h
  have := congrArg List.length h
  rw [to_string_length p hp] at this
  have h2 : Nat.digits 10 p ≠ [] := Nat.digits_ne_nil_iff_ne_zero.2 (by omega)
  exact h2 (List.length_eq_zero.1 this)

theorem stoi_concat (p1 p2 : Nat) (h1 : 0 < p1) (h2 : 0 < p2)
    (hv : p1 * 10 ^ (Nat.digits 10 p2).length + p2 < 2 ^ 31) :
    stoi (to_string p1 ++ to_string p2) = some (p1 * 10 ^ (Nat.digits 10 p2).length + p2) := by
  unfold stoi
  simp only [takeWhile_isDigit_concat p1 p2 h1 h2, digitsValue_to_string_append p1 p2 h1 h2]
  rw [if_neg (by simp [to_string_ne_nil p1 h1]), if_pos hv]

theorem atoi_concat (p1 p2 : Nat) (h1 : 0 < p1) (h2 : 0 < p2)
    (hv : p1 * 10 ^ (Nat.digits 10 p2).length + p2 < 2 ^ 31) :
    atoi (to_string p1 ++ to_string p2) = some (p1 * 10 ^ (Nat.digits 10 p2).length + p2) := by
  unfold atoi
  simp only [takeWhile_isDigit_concat p1 p2 h1 h2, digitsValue_to_string_append p1 p2 h1 h2]
  rw [if_pos hv]

theorem POW10_get (d : Nat) (hd : d < 10) : avx2.POW10[d]? = some (10 ^ d) := by
  interval_cases d <;> rfl

theorem POW10_get_none (d : Nat) (hd : 10 ≤ d) : avx2.POW10[d]? = none := by
  apply List.getElem?_eq_none
  simp [avx2.POW10]; omega

/-- With `e1 + e2` digits in all, the concatenation lies in `[10^(e1+e2-1), 10^(e1+e2))`. -/
theorem concat_bounds (p1 p2 : Nat) (h1 : 0 < p1) :
    p1 * 10 ^ (Nat.digits 10 p2).length + p2 <
        10 ^ ((Nat.digits 10 p1).length + (Nat.digits 10 p2).length) ∧
      10 ^ ((Nat.digits 10 p1).length + (Nat.digits 10 p2).length) ≤
        10 * (p1 * 10 ^ (Nat.digits 10 p2).length + p2) := by
  have a1 : p1 < 10 ^ (Nat.digits 10 p1).length := Nat.lt_base_pow_length_digits (by norm_num)
  have a2 : p2 < 10 ^ (Nat.digits 10 p2).length := Nat.lt_base_pow_length_digits (by norm_num)
  have b1 : 10 ^ (Nat.digits 10 p1).length ≤ 10 * p1 :=
    Nat.base_pow_length_digits_le 10 p1 (by norm_num) (by omega)
  rw [pow_add]
  generalize 10 ^ (Nat.digits 10 p1).length = A at *
  generalize 10 ^ (Nat.digits 10 p2).length = B at *
  constructor
  · calc p1 * B + p2 < p1 * B + B := by omega
      _ = (p1 + 1) * B := by ring
      _ ≤ A * B := Nat.mul_le_mul_right B (by omega)
  · calc A * B ≤ (10 * p1) * B := Nat.mul_le_mul_right B b1
      _ = 10 * (p1 * B) := by ring
      _ ≤ 10 * (p1 * B + p2) := by omega

theorem concat_nine_digits (p1 p2 : Nat) (h1 : 0 < p1)
    (h9 : (Nat.digits 10 p1).length + (Nat.digits 10 p2).length = 9) :
    100000000 ≤ p1 * 10 ^ (Nat.digits 10 p2).length + p2 ∧
      p1 * 10 ^ (Nat.digits 10 p2).length + p2 ≤ 999999999 := by
  have := concat_bounds p1 p2 h1
  rw [h9] at this
  omega

theorem concat_not_nine_digits (p1 p2 : Nat) (h1 : 0 < p1)
    (h9 : (Nat.digits 10 p1).length + (Nat.digits 10 p2).length ≠ 9) :
    p1 * 10 ^ (Nat.digits 10 p2).length + p2 < 100000000 ∨
      999999999 < p1 * 10 ^ (Nat.digits 10 p2).length + p2 := by
  have := concat_bounds p1 p2 h1
  generalize (Nat.digits 10 p1).length + (Nat.digits 10 p2).length = e at *
  generalize p1 * 10 ^ (Nat.digits 10 p2).length + p2 = v at *
  rcases Nat.lt_or_ge e 9 with h | h
  · left
    have : 10 ^ e ≤ 10 ^ 8 := Nat.pow_le_pow_right (by norm_num) (by omega)
    omega
  · right
    have : 10 ^ 10 ≤ 10 ^ e := Nat.pow_le_pow_right (by norm_num) (by omega)
    omega

/-! ## The reference step

One loop iteration of every search, stated on `Nat.digits`. -/

theorem panList_perm {l l' : List Nat} (hp : l.Perm l') : PanList l ↔ PanList l' :=
  ⟨fun h => hp.symm.trans h, fun h => hp.trans h⟩

theorem panList_rev_append (l1 l2 : List Nat) :
    PanList (l1.reverse ++ l2.reverse) ↔ PanList (l1 ++ l2) :=
  panList_perm ((List.reverse_perm l1).append (List.reverse_perm l2))

theorem GoodK.digits_length {k : Nat} (h : GoodK k) :
    (Nat.digits 10 k).length + (Nat.digits 10 (k * 2)).length = 9 := by
  have := PanList.length_eq h
  simpa using this

theorem GoodK.pos {k : Nat} (h : GoodK k) : 0 < k := by
  rcases Nat.eq_zero_or_pos k with h0 | h0
  · subst h0
    have := h.digits_length
    simp at this
  · exact h0

theorem GoodK.bounds {k : Nat} (h : GoodK k) : 100000000 ≤ catK k ∧ catK k ≤ 999999999 :=
  concat_nine_digits k (k * 2) h.pos h.digits_length

theorem concat_string_eq (k : Nat) (hk : 0 < k) :
    to_string k ++ to_string (k * 2) =
      ((Nat.digits 10 k).reverse ++ (Nat.digits 10 (k * 2)).reverse).map Nat.digitChar := by
  rw [to_string_eq_digits k hk, to_string_eq_digits (k * 2) (by omega), List.map_append]

theorem concat_string_length (k : Nat) (hk : 0 < k) :
    (to_string k ++ to_string (k * 2)).length =
      (Nat.digits 10 k).length + (Nat.digits 10 (k * 2)).length := by
  rw [List.length_append, to_string_length k hk, to_string_length (k * 2) (by omega)]

theorem concat_digits_lt (k : Nat) :
    ∀ d ∈ (Nat.digits 10 k).reverse ++ (Nat.digits 10 (k * 2)).reverse, d < 10 := by
  intro d hd
  rcases List.mem_append.1 hd with h | h
  · exact digits_lt_ten k d (List.mem_reverse.1 h)
  · exact digits_lt_ten (k * 2) d (List.mem_reverse.1 h)

theorem refStep_of_not_good (r : CalcResult) (k : Nat) (h : ¬ GoodK k) : refStep r k = r := by
  unfold refStep
  rw [if_neg (fun hc => h hc.1)]

/-- One iteration of the loop of `simple::calc` is the reference step. -/
theorem simple_step_eq (r : CalcResult) (k : Nat) (hk : 1 ≤ k) :
    simple.step r k = some (refStep r k) := by
  unfold simple.step
  simp only []
  by_cases hlen : (to_string k ++ to_string (k * 2)).length = 9
  · rw [if_neg (by simp [hlen])]
    have hlen' := hlen
    rw [concat_string_length k hk] at hlen'
    have hb := concat_nine_digits k (k * 2) hk hlen'
    obtain ⟨b, hb1, hb2⟩ := simple_isPandigital_digits _ (concat_digits_lt k)
    rw [← concat_string_eq k hk] at hb1
    rw [panList_rev_append] at hb2
    rw [hb1]
    cases b with
    | false =>
      have hng : ¬ GoodK k := fun hg => by simpa using hb2.2 hg
      simp only [refStep_of_not_good r k hng]
    | true =>
      have hg : GoodK k := hb2.1 rfl
      simp only []
      rw [stoi_concat k (k * 2) hk (by omega) (by omega)]
      simp only [refStep, catK, hg, true_and]
      split <;> rfl
  · rw [if_pos (by simpa using hlen)]
    have hng : ¬ GoodK k := by
      intro hg
      apply hlen
      rw [concat_string_length k hk]
      exact hg.digits_length
    rw [refStep_of_not_good r k hng]

/-! ## Counted loops as folds -/

theorem foldlM_some_eq_foldl {σ : Type} (f : σ → Nat → σ) : ∀ (l : List Nat) (s : σ),
    l.foldlM (fun r k => some (f r k)) s = some (l.foldl f s) := by
  intro l
  induction l with
  | nil => intro s; rfl
  | cons a l ih => intro s; simp only [List.foldlM_cons, List.foldl_cons, Option.bind_eq_bind,
      Option.some_bind, ih]

/-- A unit-stride loop over the lanes `0 .. bs-1` of a batch starting at `k`, whose body at
lane `j` acts as `g` at `k + j`, is the fold of `g` over `k .. k+bs-1`. -/
theorem forLoop_lanes {σ : Type} (bs k : Nat) (lane g : σ → Nat → Option σ) :
    ∀ (fuel i : Nat) (s : σ), bs - i ≤ fuel →
      (∀ r j, i ≤ j → j < bs → lane r j = g r (k + j)) →
      forLoop bs 1 lane fuel i s = (List.range' (k + i) (bs - i)).foldlM g s := by
  intro fuel
  induction fuel with
  | zero =>
    intro i s hf _
    have h0 : bs - i = 0 := by omega
    have : ¬ i < bs := by omega
    simp only [forLoop, this, if_false, h0, List.range'_zero, List.foldlM_nil]
    rfl
  | succ fuel ih =>
    intro i s hf hl
    by_cases hi : i < bs
    · have hsplit : bs - i = (bs - (i + 1)) + 1 := by omega
      simp only [forLoop, hi, if_true]
      rw [hsplit, List.range'_succ, List.foldlM_cons, hl s i le_rfl hi]
      cases hg : g s (k + i) with
      | none => rfl
      | some s' =>
        simp only [Option.bind_eq_bind, Option.some_bind]
        rw [ih (i + 1) s' (by omega) (fun r j hj hjb => hl r j (by omega) hjb)]
        rfl
    · have h0 : bs - i = 0 := by omega
      simp only [forLoop, hi, if_false, h0, List.range'_zero, List.foldlM_nil]
      rfl

/-- A loop over batches of width `W`, each of which folds `g` over its own members, is the
fold of `g` over the whole range. -/
theorem forLoop_batches {σ : Type} (stop W lo : Nat) (hW : 0 < W)
    (bbody g : σ → Nat → Option σ)
    (hb : ∀ r k, lo ≤ k → k < stop →
      bbody r k = (List.range' k (min W (stop - k))).foldlM g r) :
    ∀ (fuel i : Nat) (s : σ), stop - i ≤ fuel → lo ≤ i →
      forLoop stop W bbody fuel i s = (List.range' i (stop - i)).foldlM g s := by
  intro fuel
  induction fuel with
  | zero =>
    intro i s hf _
    have h0 : stop - i = 0 := by omega
    have : ¬ i < stop := by omega
    simp only [forLoop, this, if_false, h0, List.range'_zero, List.foldlM_nil]
    rfl
  | succ fuel ih =>
    intro i s hf hlo
    by_cases hi : i < stop
    · simp only [forLoop, hi, if_true]
      rw [hb s i hlo hi]
      have hsplit : List.range' i (stop - i) =
          List.range' i (min W (stop - i)) ++
            List.range' (i + min W (stop - i)) (stop - i - min W (stop - i)) := by
        have := List.range'_append i (min W (stop - i)) (stop - i - min W (stop - i)) 1
        rw [Nat.one_mul] at this
        rw [this]
        congr 1
        omega
      rw [hsplit, List.foldlM_append]
      cases hg : (List.range' i (min W (stop - i))).foldlM g s with
      | none => rfl
      | some s' =>
        simp only [Option.bind_eq_bind, Option.some_bind]
        rw [ih (i + W) s' (by omega) (by omega)]
        rcases Nat.lt_or_ge (stop - i) W with hlt | hge
        · have e1 : stop - (i + W) = 0 := by omega
          have e2 : stop - i - min W (stop - i) = 0 := by omega
          rw [e1, e2]; rfl
        · have e1 : min W (stop - i) = W := by omega
          rw [e1]
          congr 2
          omega
    · have h0 : stop - i = 0 := by omega
      simp only [forLoop, hi, if_false, h0, List.range'_zero, List.foldlM_nil]
      rfl

/-- A unit-stride loop from `i` is the fold of its body over `i .. stop-1`. -/
theorem forLoop_unit {σ : Type} (stop : Nat) (body : σ → Nat → Option σ)
    (fuel i : Nat) (s : σ) (hf : stop - i ≤ fuel) :
    forLoop stop 1 body fuel i s = (List.range' i (stop - i)).foldlM body s := by
  apply forLoop_batches stop 1 0 (by norm_num) body body _ fuel i s hf (Nat.zero_le _)
  intro r k _ hk
  have : min 1 (stop - k) = 1 := by omega
  rw [this]
  simp only [List.range'_one, List.foldlM_cons, List.foldlM_nil]
  cases body r k <;> rfl

theorem foldlM_congr_mem {σ : Type} (f g : σ → Nat → Option σ) : ∀ (l : List Nat) (s : σ),
    (∀ k ∈ l, ∀ r, f r k = g r k) → l.foldlM f s = l.foldlM g s := by
  intro l
  induction l with
  | nil => intro s _; rfl
  | cons a l ih =>
    intro s h
    simp only [List.foldlM_cons]
    rw [h a (List.mem_cons_self _ _) s]
    cases g s a with
    | none => rfl
    | some s' =>
      simp only [Option.bind_eq_bind, Option.some_bind]
      exact ih s' (fun k hk r => h k (List.mem_cons_of_mem _ hk) r)

/-! ## Lanes of a batch -/

theorem kArr_get (W bs k i : Nat) (hi : i < bs) (hbs : bs ≤ W) :
    ((List.range W).map fun i => if i < bs then k + i else 0)[i]? = some (k + i) := by
  rw [List.getElem?_map, List.getElem?_range (by omega)]
  simp [hi]

theorem kArr_get_sentinel (W bs k i : Nat) (hi : bs ≤ i) (hW : i < W) :
    ((List.range W).map fun i => if i < bs then k + i else 0)[i]? = some 0 := by
  rw [List.getElem?_map, List.getElem?_range hW]
  have : ¬ i < bs := by omega
  simp [this]

theorem mullo_get (a : List Nat) (W c i x : Nat) (ha : a[i]? = some x) (hi : i < W) :
    (mullo_epi32 a (List.replicate W c))[i]? = some ((x * c) % 2 ^ 32) := by
  unfold mullo_epi32
  rw [List.getElem?_zipWith, ha, List.getElem?_replicate]
  simp [hi]

theorem laneToInt_of_lt (x : Nat) (h : x < 2 ^ 31) : laneToInt x = some x := by
  unfold laneToInt; rw [if_pos h]

/-- In the search range `2k` has at most five digits and the concatenation fits an `int`. -/
theorem catK_range (k : Nat) (hk : k ≤ 9999) :
    (Nat.digits 10 (k * 2)).length ≤ 5 ∧ catK k ≤ 999919998 := by
  have h5 : (Nat.digits 10 (k * 2)).length ≤ 5 := by
    rcases Nat.eq_zero_or_pos k with h0 | h0
    · subst h0; simp
    · by_contra hc
      have h6 : 10 ^ 6 ≤ 10 ^ (Nat.digits 10 (k * 2)).length :=
        Nat.pow_le_pow_right (by norm_num) (by omega)
      have := Nat.base_pow_length_digits_le 10 (k * 2) (by norm_num) (by omega)
      omega
  refine ⟨h5, ?_⟩
  unfold catK
  have hp : 10 ^ (Nat.digits 10 (k * 2)).length ≤ 10 ^ 5 :=
    Nat.pow_le_pow_right (by norm_num) h5
  calc k * 10 ^ (Nat.digits 10 (k * 2)).length + k * 2
      ≤ 9999 * 10 ^ 5 + 9999 * 2 := by
        apply Nat.add_le_add
        · exact Nat.mul_le_mul hk hp
        · omega
    _ = 999919998 := by norm_num

theorem take_of_length_eq {α : Type} (l : List α) (n : Nat) (h : l.length = n) : l.take n = l := by
  rw [← h, List.take_length]

/-- One lane of `base_simd::calc` is the reference step. -/
theorem base_simd_lane_eq (r : CalcResult) (k bs i : Nat) (hi : i < bs) (hbs : bs ≤ 8)
    (hk : 1 ≤ k) (hmax : k + i ≤ 9999) :
    base_simd.lane ((List.range 8).map fun i => if i < bs then k + i else 0)
      ((List.range 8).map fun i => if i < bs then k + i else 0)
      (mullo_epi32 ((List.range 8).map fun i => if i < bs then k + i else 0) (List.replicate 8 2))
      r i = some (refStep r (k + i)) := by
  have hK : 0 < k + i := by omega
  unfold base_simd.lane
  rw [mullo_get _ 8 2 i (k + i) (kArr_get 8 bs k i hi hbs) (by omega), kArr_get 8 bs k i hi hbs]
  have hmod : (k + i) * 2 % 2 ^ 32 = (k + i) * 2 := Nat.mod_eq_of_lt (by omega)
  simp only [hmod, laneToInt_of_lt (k + i) (by omega), laneToInt_of_lt ((k + i) * 2) (by omega),
    snprintf]
  by_cases hlen : (to_string (k + i) ++ to_string ((k + i) * 2)).length = 9
  · have hlen' := hlen
    rw [concat_string_length _ hK] at hlen'
    have hb := concat_nine_digits (k + i) ((k + i) * 2) hK hlen'
    rw [if_neg (by omega), if_neg (by simp [hlen])]
    rw [take_of_length_eq _ (10 - 1) hlen]
    have hiff := base_isPandigital_digits _ (concat_digits_lt (k + i)) (by simpa using hlen')
    rw [← concat_string_eq _ hK, panList_rev_append] at hiff
    by_cases hg : GoodK (k + i)
    · rw [if_pos (hiff.2 hg), atoi_concat _ _ hK (by omega) (by omega)]
      simp only [refStep, catK, hg, true_and]
      split <;> rfl
    · rw [if_neg (fun h => hg (hiff.1 h)), refStep_of_not_good r _ hg]
  · have hng : ¬ GoodK (k + i) := by
      intro hg
      apply hlen
      rw [concat_string_length _ hK]
      exact hg.digits_length
    rw [refStep_of_not_good r _ hng]
    split
    · rfl
    · rfl

theorem concatProducts_eq (p1 p2 : Nat) (h2 : 0 < p2)
    (hv : p1 * 10 ^ (Nat.digits 10 p2).length + p2 < 2 ^ 31)
    (hd : (Nat.digits 10 p2).length < 10) :
    avx2.concatProducts p1 p2 = some (p1 * 10 ^ (Nat.digits 10 p2).length + p2) := by
  unfold avx2.concatProducts
  simp only [digitCount_eq p2 h2, POW10_get _ hd]
  rw [if_pos hv]

/-- One lane of `avx2::processBatch` is the reference step. -/
theorem avx2_lane_eq (r : CalcResult) (k bs i : Nat) (hi : i < bs) (hbs : bs ≤ 8)
    (hk : 1 ≤ k) (hmax : k + i ≤ 9999) :
    avx2.lane ((List.range 8).map fun i => if i < bs then k + i else 0)
      ((List.range 8).map fun i => if i < bs then k + i else 0)
      (mullo_epi32 ((List.range 8).map fun i => if i < bs then k + i else 0) (List.replicate 8 2))
      r i = some (refStep r (k + i)) := by
  have hK : 0 < k + i := by omega
  have hr := catK_range (k + i) hmax
  unfold avx2.lane
  rw [mullo_get _ 8 2 i (k + i) (kArr_get 8 bs k i hi hbs) (by omega), kArr_get 8 bs k i hi hbs]
  have hmod : (k + i) * 2 % 2 ^ 32 = (k + i) * 2 := Nat.mod_eq_of_lt (by omega)
  simp only [hmod, laneToInt_of_lt (k + i) (by omega), laneToInt_of_lt ((k + i) * 2) (by omega)]
  have hcat : avx2.concatProducts (k + i) ((k + i) * 2) = some (catK (k + i)) :=
    concatProducts_eq _ _ (by omega) (by unfold catK at hr; omega) (by omega)
  rw [hcat]
  simp only []
  by_cases hg : GoodK (k + i)
  · have hb := hg.bounds
    rw [if_neg (by omega)]
    have hm : avx2.isPandigitalMask (k + i) ((k + i) * 2) = true := (isPandigitalMask_iff _ _).2 hg
    simp only [hm, true_and, refStep, hg]
    split <;> rfl
  · have hm : ¬ avx2.isPandigitalMask (k + i) ((k + i) * 2) = true :=
      fun h => hg ((isPandigitalMask_iff _ _).1 h)
    rw [refStep_of_not_good r _ hg]
    split
    · rfl
    · rw [if_neg (fun h => hm h.1)]

/-! ### Lane access for the vector operations -/

theorem replicate_get {α : Type} (n i : Nat) (c : α) (hi : i < n) :
    (List.replicate n c)[i]? = some c := by
  rw [List.getElem?_replicate, if_pos hi]

theorem zipWith_get {α β γ : Type} (f : α → β → γ) (a : List α) (b : List β) (i : Nat) (x : α)
    (y : β) (ha : a[i]? = some x) (hb : b[i]? = some y) :
    (List.zipWith f a b)[i]? = some (f x y) := by
  rw [List.getElem?_zipWith, ha, hb]

theorem zip_get {α β : Type} (a : List α) (b : List β) (i : Nat) (x : α)
    (y : β) (ha : a[i]? = some x) (hb : b[i]? = some y) :
    (List.zip a b)[i]? = some (x, y) :=
  List.getElem?_zip_eq_some.2 ⟨ha, hb⟩

theorem mullo_get2 (a b : List Nat) (i x y : Nat) (ha : a[i]? = some x) (hb : b[i]? = some y) :
    (mullo_epi32 a b)[i]? = some ((x * y) % 2 ^ 32) :=
  zipWith_get _ a b i x y ha hb

theorem add_get (a b : List Nat) (i x y : Nat) (ha : a[i]? = some x) (hb : b[i]? = some y) :
    (add_epi32 a b)[i]? = some ((x + y) % 2 ^ 32) :=
  zipWith_get _ a b i x y ha hb

theorem sub_get (a b : List Nat) (i x y : Nat) (ha : a[i]? = some x) (hb : b[i]? = some y) :
    (sub_epi32 a b)[i]? = some ((x + 2 ^ 32 - y) % 2 ^ 32) :=
  zipWith_get _ a b i x y ha hb

theorem avx512_blend_get (m : List Bool) (a b : List Nat) (i : Nat) (mb : Bool) (x y : Nat)
    (hm : m[i]? = some mb) (ha : a[i]? = some x) (hb : b[i]? = some y) :
    (avx512.mask_blend_epi32 m a b)[i]? = some (if mb then y else x) :=
  zipWith_get _ m (List.zip a b) i mb (x, y) hm (zip_get a b i x y ha hb)

theorem avx512_cmp_get (a b : List Nat) (i x y : Nat) (ha : a[i]? = some x)
    (hb : b[i]? = some y) : (avx512.cmp_lt_epi32_mask a b)[i]? = some (slt32 x y) :=
  zipWith_get _ a b i x y ha hb

/-- Lane `i` of `concatArr` in `avx512::calc`, from lane `i` of `kArr`. -/
theorem avx512_concatLanes_get (kArr : List Nat) (i K : Nat) (h : kArr[i]? = some K)
    (hi : i < 16) :
    (avx512.concatLanes kArr)[i]? =
      some ((K * avx512.laneShift (K * 2 % 2 ^ 32) % 2 ^ 32 + K * 2 % 2 ^ 32) % 2 ^ 32) := by
  unfold avx512.concatLanes
  simp only []
  have hp2 := mullo_get2 kArr (List.replicate 16 2) i K 2 h (replicate_get 16 i 2 hi)
  have m1 := avx512_cmp_get _ _ i _ _ hp2 (replicate_get 16 i 10 hi)
  have m2 := avx512_cmp_get _ _ i _ _ hp2 (replicate_get 16 i 100 hi)
  have m3 := avx512_cmp_get _ _ i _ _ hp2 (replicate_get 16 i 1000 hi)
  have m4 := avx512_cmp_get _ _ i _ _ hp2 (replicate_get 16 i 10000 hi)
  have s4 := avx512_blend_get _ _ _ i _ _ _ m4 (replicate_get 16 i 100000 hi)
    (replicate_get 16 i 10000 hi)
  have s3 := avx512_blend_get _ _ _ i _ _ _ m3 s4 (replicate_get 16 i 1000 hi)
  have s2 := avx512_blend_get _ _ _ i _ _ _ m2 s3 (replicate_get 16 i 100 hi)
  have s1 := avx512_blend_get _ _ _ i _ _ _ m1 s2 (replicate_get 16 i 10 hi)
  rw [add_get _ _ i _ _ (mullo_get2 _ _ i _ _ h s1) hp2]
  rfl

theorem maskPandigitalScalar_iff (value p1 p2 : Nat) :
    avx512.maskPandigitalScalar value p1 p2 = true ↔
      PanList (Nat.digits 10 p1 ++ Nat.digits 10 p2) ∧ 100000000 ≤ value ∧ value ≤ 999999999 := by
  rw [← maskLoops_iff]
  unfold avx512.maskPandigitalScalar avx512.FULL_MASK
  cases h1 : maskLoopP1 p1 p1 0 with
  | none => simp
  | some m1 =>
    cases h2 : maskLoopP2 p2 p2 m1 with
    | none => simp [h2]
    | some m2 => simp [h2, and_assoc]

theorem slt32_of_lt (x y : Nat) (hx : x < 2 ^ 31) (hy : y < 2 ^ 31) :
    slt32 x y = decide (x < y) := by
  unfold slt32
  rw [if_pos hx, if_pos hy]

/-- The power of ten just above a number below 100000, by thresholds. -/
theorem pow_digits_length_cases (n : Nat) (h1 : 1 ≤ n) (h5 : n < 100000) :
    10 ^ (Nat.digits 10 n).length =
      if n < 10 then 10 else if n < 100 then 100 else if n < 1000 then 1000
      else if n < 10000 then 10000 else 100000 := by
  have a1 : n < 10 ^ (Nat.digits 10 n).length := Nat.lt_base_pow_length_digits (by norm_num)
  have b1 : 10 ^ (Nat.digits 10 n).length ≤ 10 * n :=
    Nat.base_pow_length_digits_le 10 n (by norm_num) (by omega)
  have hL : (Nat.digits 10 n).length ≤ 5 := by
    by_contra hc
    have h6 : 10 ^ 6 ≤ 10 ^ (Nat.digits 10 n).length :=
      Nat.pow_le_pow_right (by norm_num) (by omega)
    omega
  generalize (Nat.digits 10 n).length = L at *
  interval_cases L <;> norm_num at a1 b1 ⊢ <;> split_ifs <;> omega

theorem avx512_laneShift_eq (n : Nat) (h1 : 1 ≤ n) (h5 : n < 100000) :
    avx512.laneShift n = 10 ^ (Nat.digits 10 n).length := by
  rw [pow_digits_length_cases n h1 h5]
  unfold avx512.laneShift
  have h31 : n < 2 ^ 31 := by omega
  simp only [slt32_of_lt n _ h31 (by norm_num : (10 : Nat) < 2 ^ 31),
    slt32_of_lt n _ h31 (by norm_num : (100 : Nat) < 2 ^ 31),
    slt32_of_lt n _ h31 (by norm_num : (1000 : Nat) < 2 ^ 31),
    slt32_of_lt n _ h31 (by norm_num : (10000 : Nat) < 2 ^ 31), decide_eq_true_eq]

/-- One lane of `avx512::calc` is the reference step. -/
theorem avx512_lane_eq (r : CalcResult) (k bs i : Nat) (hi : i < bs) (hbs : bs ≤ 16)
    (hk : 1 ≤ k) (hmax : k + i ≤ 9999) :
    avx512.lane ((List.range 16).map fun i => if i < bs then k + i else 0)
      (avx512.concatLanes ((List.range 16).map fun i => if i < bs then k + i else 0))
      r i = some (refStep r (k + i)) := by
  have hK : 0 < k + i := by omega
  have hr := catK_range (k + i) hmax
  have hget := kArr_get 16 bs k i hi hbs
  unfold avx512.lane
  rw [avx512_concatLanes_get _ i (k + i) hget (by omega), hget]
  have hmod : (k + i) * 2 % 2 ^ 32 = (k + i) * 2 := Nat.mod_eq_of_lt (by omega)
  rw [hmod, avx512_laneShift_eq _ (by omega) (by omega)]
  have hcat : (k + i) * 10 ^ (Nat.digits 10 ((k + i) * 2)).length = catK (k + i) - (k + i) * 2 := by
    unfold catK; omega
  have hle : (k + i) * 2 ≤ catK (k + i) := by unfold catK; omega
  have hval : ((k + i) * 10 ^ (Nat.digits 10 ((k + i) * 2)).length % 2 ^ 32 + (k + i) * 2) % 2 ^ 32
      = catK (k + i) := by
    rw [hcat, Nat.mod_eq_of_lt (by omega), Nat.mod_eq_of_lt (by omega)]
    omega
  rw [hval]
  simp only []
  rw [laneToInt_of_lt _ (by omega)]
  simp only []
  rw [if_pos (by omega)]
  by_cases hg : GoodK (k + i)
  · have hb := hg.bounds
    have hm : avx512.maskPandigitalScalar (catK (k + i)) (k + i) ((k + i) * 2) = true :=
      (maskPandigitalScalar_iff _ _ _).2 ⟨hg, hb⟩
    simp only [hm, true_and, refStep, hg]
    split <;> rfl
  · have hm : ¬ avx512.maskPandigitalScalar (catK (k + i)) (k + i) ((k + i) * 2) = true :=
      fun h => hg ((maskPandigitalScalar_iff _ _ _).1 h).1
    rw [refStep_of_not_good r _ hg, if_neg (fun h => hm h.1)]

/-! ## The searches as folds of the reference step -/

theorem simple_calcBelow_eq (n : Nat) : simple.calcBelow (n + 1) = some (refSearch n) := by
  unfold simple.calcBelow refSearch
  rw [forLoop_unit (n + 1) simple.step (n + 1) 1 _ (by omega)]
  rw [foldlM_congr_mem simple.step (fun r k => some (refStep r k)) _ _
    (fun k hk r => simple_step_eq r k (List.mem_range'_1.1 hk).1)]
  rw [foldlM_some_eq_foldl]
  rfl

theorem base_simd_calcUpTo_eq (n : Nat) (hn : n ≤ 9999) :
    base_simd.calcUpTo n = some (refSearch n) := by
  unfold base_simd.calcUpTo refSearch
  rw [forLoop_batches (n + 1) 8 1 (by norm_num) (base_simd.batch n)
    (fun r k => some (refStep r k)) _ (n + 1) 1 _ (by omega) le_rfl]
  · rw [foldlM_some_eq_foldl]; rfl
  · intro r k hk1 hkn
    unfold base_simd.batch
    simp only []
    have hbs : n - k + 1 = n + 1 - k := by omega
    rw [hbs]
    rw [forLoop_lanes (min 8 (n + 1 - k)) k _ (fun r k => some (refStep r k)) _ 0 r (by omega)]
    · rfl
    · intro r' j _ hj
      exact base_simd_lane_eq r' k _ j hj (by omega) hk1 (by omega)

theorem avx2_processBatch_eq (r : CalcResult) (k bs : Nat) (hbs : bs ≤ 8) (hk : 1 ≤ k)
    (hmax : k + bs ≤ 10000) :
    avx2.processBatch k bs r = (List.range' k bs).foldlM (fun r k => some (refStep r k)) r := by
  unfold avx2.processBatch
  rw [if_neg (by omega)]
  simp only []
  rw [forLoop_lanes bs k _ (fun r k => some (refStep r k)) _ 0 r (by omega)]
  · rfl
  · intro r' j _ hj
    exact avx2_lane_eq r' k _ j hj hbs hk (by omega)

theorem avx2_calcUpTo_eq (n : Nat) (hn : n ≤ 9999) :
    avx2.calcUpTo n = some (refSearch n) := by
  unfold avx2.calcUpTo refSearch
  rw [forLoop_batches (n + 1) 8 1 (by norm_num) _
    (fun r k => some (refStep r k)) _ (n + 1) 1 _ (by omega) le_rfl]
  · rw [foldlM_some_eq_foldl]; rfl
  · intro r k hk1 hkn
    have hbs : n - k + 1 = n + 1 - k := by omega
    rw [hbs]
    exact avx2_processBatch_eq r k _ (by omega) hk1 (by omega)

theorem avx512_calcUpTo_eq (n : Nat) (hn : n ≤ 9999) :
    avx512.calcUpTo n = some (refSearch n) := by
  unfold avx512.calcUpTo refSearch
  rw [forLoop_batches (n + 1) 16 1 (by norm_num) (avx512.batch n)
    (fun r k => some (refStep r k)) _ (n + 1) 1 _ (by omega) le_rfl]
  · rw [foldlM_some_eq_foldl]; rfl
  · intro r k hk1 hkn
    unfold avx512.batch
    simp only []
    have hbs : n - k + 1 = n + 1 - k := by omega
    rw [hbs]
    rw [forLoop_lanes (min 16 (n + 1 - k)) k _ (fun r k => some (refStep r k)) _ 0 r (by omega)]
    · rfl
    · intro r' j _ hj
      exact avx512_lane_eq r' k _ j hj (by omega) hk1 (by omega)

/-! ## What the fold of the reference step computes -/

theorem refStep_cases (r : CalcResult) (k : Nat) :
    (refStep r k = r ∧ ¬ (GoodK k ∧ catK k > r.maxVal)) ∨
      (refStep r k = ⟨catK k, k, r.bestN⟩ ∧ GoodK k ∧ catK k > r.maxVal) := by
  unfold refStep
  by_cases h : GoodK k ∧ catK k > r.maxVal
  · right; rw [if_pos h]; exact ⟨rfl, h⟩
  · left; rw [if_neg h]; exact ⟨rfl, h⟩

/-- The record reached from `r0` along `l` is either `r0` untouched or the candidate of a
member of `l`; it dominates `r0` and every candidate of `l`; `bestN` never changes. -/
theorem foldl_refStep_spec : ∀ (l : List Nat) (r0 : CalcResult),
    (l.foldl refStep r0).bestN = r0.bestN ∧
    r0.maxVal ≤ (l.foldl refStep r0).maxVal ∧
    (∀ k ∈ l, GoodK k → catK k ≤ (l.foldl refStep r0).maxVal) ∧
    (l.foldl refStep r0 = r0 ∨
      ((l.foldl refStep r0).bestK ∈ l ∧ GoodK (l.foldl refStep r0).bestK ∧
        (l.foldl refStep r0).maxVal = catK (l.foldl refStep r0).bestK ∧
        r0.maxVal < (l.foldl refStep r0).maxVal)) := by
  intro l
  induction l with
  | nil => intro r0; simp
  | cons a l ih =>
    intro r0
    rw [List.foldl_cons]
    obtain ⟨i1, i2, i3, i4⟩ := ih (refStep r0 a)
    rcases refStep_cases r0 a with ⟨he, hn⟩ | ⟨he, hg, hgt⟩
    · rw [he] at i1 i2 i3 i4 ⊢
      refine ⟨i1, i2, ?_, ?_⟩
      · intro k hk hgk
        rcases List.mem_cons.1 hk with hk | hk
        · subst hk
          have : ¬ catK k > r0.maxVal := fun h => hn ⟨hgk, h⟩
          omega
        · exact i3 k hk hgk
      · rcases i4 with h | ⟨h1, h2, h3, h4⟩
        · left; exact h
        · right; exact ⟨List.mem_cons_of_mem _ h1, h2, h3, h4⟩
    · rw [he] at i1 i2 i3 i4 ⊢
      simp only at i1 i2
      refine ⟨i1, by omega, ?_, ?_⟩
      · intro k hk hgk
        rcases List.mem_cons.1 hk with hk | hk
        · subst hk; exact i2
        · exact i3 k hk hgk
      · right
        rcases i4 with h | ⟨h1, h2, h3, h4⟩
        · rw [h]
          exact ⟨List.mem_cons_self _ _, hg, rfl, hgt⟩
        · exact ⟨List.mem_cons_of_mem _ h1, h2, h3, by simp only at h4; omega⟩

/-! ## The concrete answer -/

theorem goodK_9327 : GoodK 9327 := (isPandigitalMask_iff 9327 (9327 * 2)).1 (by decide)

theorem catK_eq_of_concatProducts (k v : Nat) (hk : 1 ≤ k) (hmax : k ≤ 9999)
    (h : avx2.concatProducts k (k * 2) = some v) : catK k = v := by
  have hr := catK_range k hmax
  have hv : catK k < 2 ^ 31 := lt_of_le_of_lt hr.2 (by norm_num)
  have h' := concatProducts_eq k (k * 2) (by omega) hv (by omega)
  rw [h] at h'
  exact (Option.some.inj h').symm

theorem catK_9327 : catK 9327 = 932718654 :=
  catK_eq_of_concatProducts 9327 932718654 (by norm_num) (by norm_num) (by decide)

theorem not_goodK_above : ∀ k ∈ List.range' 9328 672, avx2.isPandigitalMask k (k * 2) = false := by
  decide!

theorem catK_le_of_le (k : Nat) (hk : k ≤ 9326) : catK k ≤ 932618652 := by
  have h5 := (catK_range k (by omega)).1
  unfold catK
  have hp : 10 ^ (Nat.digits 10 (k * 2)).length ≤ 10 ^ 5 :=
    Nat.pow_le_pow_right (by norm_num) h5
  calc k * 10 ^ (Nat.digits 10 (k * 2)).length + k * 2
      ≤ 9326 * 10 ^ 5 + 9326 * 2 := by
        apply Nat.add_le_add
        · exact Nat.mul_le_mul hk hp
        · omega
    _ = 932618652 := by norm_num

theorem foldl_refStep_of_not_good : ∀ (l : List Nat) (r : CalcResult),
    (∀ k ∈ l, ¬ GoodK k) → l.foldl refStep r = r := by
  intro l
  induction l with
  | nil => intro r _; rfl
  | cons a l ih =>
    intro r h
    rw [List.foldl_cons, refStep_of_not_good r a (h a (List.mem_cons_self _ _))]
    exact ih r (fun k hk => h k (List.mem_cons_of_mem _ hk))

theorem foldl_refStep_maxVal_le : ∀ (l : List Nat) (r : CalcResult) (M : Nat),
    r.maxVal ≤ M → (∀ k ∈ l, catK k ≤ M) → (l.foldl refStep r).maxVal ≤ M := by
  intro l
  induction l with
  | nil => intro r M h _; exact h
  | cons a l ih =>
    intro r M h hl
    rw [List.foldl_cons]
    apply ih _ M _ (fun k hk => hl k (List.mem_cons_of_mem _ hk))
    rcases refStep_cases r a with ⟨he, _⟩ | ⟨he, _, _⟩
    · rw [he]; exact h
    · rw [he]; exact hl a (List.mem_cons_self _ _)

theorem range_split_9327 :
    List.range' 1 9999 = List.range' 1 9326 ++ (9327 :: List.range' 9328 672) := by
  have h1 := List.range'_append 1 9326 673 1
  have h2 : List.range' 9327 673 = 9327 :: List.range' 9328 672 := List.range'_succ 9327 672 1
  norm_num at h1
  rw [← h2, h1]

theorem foldl_refStep_tail (r1 : CalcResult) (hle : r1.maxVal ≤ 932618652) (hN : r1.bestN = 2) :
    (9327 :: List.range' 9328 672).foldl refStep r1 = ⟨932718654, 9327, 2⟩ := by
  have hstep : refStep r1 9327 = ⟨932718654, 9327, 2⟩ := by
    unfold refStep
    rw [if_pos ⟨goodK_9327, by rw [catK_9327]; omega⟩, catK_9327, hN]
  rw [List.foldl_cons, hstep]
  apply foldl_refStep_of_not_good
  intro k hk hg
  have := not_goodK_above k hk
  rw [(isPandigitalMask_iff k (k * 2)).2 hg] at this
  cases this

/-- The fold of the reference step over `1 .. 9999` ends in `{932718654, 9327, 2}`. -/
theorem refSearch_9999 : refSearch 9999 = ⟨932718654, 9327, 2⟩ := by
  unfold refSearch
  rw [range_split_9327, List.foldl_append]
  exact foldl_refStep_tail _
    (foldl_refStep_maxVal_le (List.range' 1 9326) initResult 932618652 (Nat.zero_le _)
      (fun k hk => catK_le_of_le k (by have := (List.mem_range'_1.1 hk).2; omega)))
    (foldl_refStep_spec (List.range' 1 9326) initResult).1

/-! ## `avx2_advanced`: lanes of the vector part -/

theorem sdiv32_ten (x : Nat) (hx : x < 2 ^ 31) : avx2_advanced.sdiv32 x 10 = x / 10 := by
  unfold avx2_advanced.sdiv32
  simp only [hx, if_true, (by norm_num : (10 : Nat) < 2 ^ 31), decide_True]
  apply Nat.mod_eq_of_lt
  have : x / 10 ≤ x := Nat.div_le_self x 10
  omega

theorem set1_get (c i : Nat) (hi : i < 8) : (avx2_advanced.set1_epi32 c)[i]? = some c :=
  replicate_get 8 i c hi

theorem digitMaskRound_get (mask v : List Nat) (i m x : Nat) (hi : i < 8)
    (hm : mask[i]? = some m) (hv : v[i]? = some x) (hx : x < 2 ^ 31) :
    (avx2_advanced.digitMaskRound (mask, v)).1[i]? = some (m ||| (1 <<< (x % 10))) ∧
      (avx2_advanced.digitMaskRound (mask, v)).2[i]? = some (x / 10) := by
  unfold avx2_advanced.digitMaskRound
  simp only []
  have hq : (avx2_advanced.div_epi32 v (avx2_advanced.set1_epi32 10))[i]? = some (x / 10) := by
    have := zipWith_get avx2_advanced.sdiv32 v (avx2_advanced.set1_epi32 10) i x 10 hv
      (set1_get 10 i hi)
    rw [sdiv32_ten x hx] at this
    exact this
  refine ⟨?_, hq⟩
  have hprod := mullo_get2 _ _ i _ _ hq (set1_get 10 i hi)
  have hrem := sub_get _ _ i _ _ hv hprod
  have hremv : (x + 2 ^ 32 - x / 10 * 10 % 2 ^ 32) % 2 ^ 32 = x % 10 := by
    have h1 : x / 10 * 10 % 2 ^ 32 = x / 10 * 10 := Nat.mod_eq_of_lt (by omega)
    rw [h1]
    omega
  rw [hremv] at hrem
  have hbit := zipWith_get (fun x c => if c < 32 then (x <<< c) % 2 ^ 32 else 0)
    (avx2_advanced.set1_epi32 1) _ i 1 (x % 10) (set1_get 1 i hi) hrem
  have hbitv : (if x % 10 < 32 then (1 <<< (x % 10)) % 2 ^ 32 else 0) = 1 <<< (x % 10) := by
    have h10 : x % 10 < 10 := Nat.mod_lt _ (by norm_num)
    rw [if_pos (by omega), Nat.one_shiftLeft]
    apply Nat.mod_eq_of_lt
    exact Nat.pow_lt_pow_right (by norm_num) (by omega)
  simp only [hbitv] at hbit
  exact zipWith_get (fun x y => x ||| y) mask _ i m _ hm hbit

theorem digitMaskRound_iterate_get (i : Nat) (hi : i < 8) : ∀ (n : Nat) (mask v : List Nat)
    (m x : Nat), mask[i]? = some m → v[i]? = some x → x < 2 ^ 31 →
    (avx2_advanced.digitMaskRound^[n] (mask, v)).1[i]? =
      some (avx2_advanced.laneDigitMask n m x) := by
  intro n
  induction n with
  | zero => intro mask v m x hm _ _; simpa [avx2_advanced.laneDigitMask] using hm
  | succ n ih =>
    intro mask v m x hm hv hx
    rw [Function.iterate_succ_apply]
    obtain ⟨h1, h2⟩ := digitMaskRound_get mask v i m x hi hm hv hx
    have hx' : x / 10 < 2 ^ 31 := lt_of_le_of_lt (Nat.div_le_self x 10) hx
    have := ih (avx2_advanced.digitMaskRound (mask, v)).1 (avx2_advanced.digitMaskRound (mask, v)).2
      _ _ h1 h2 hx'
    simpa [avx2_advanced.laneDigitMask] using this

/-- Lane `i` of `compute_digit_mask(num)` from lane `i` of `num`. -/
theorem compute_digit_mask_get (num : List Nat) (i x : Nat) (hi : i < 8)
    (hv : num[i]? = some x) (hx : x < 2 ^ 31) :
    (avx2_advanced.compute_digit_mask num)[i]? = some (avx2_advanced.laneDigitMask 5 0 x) :=
  digitMaskRound_iterate_get i hi 5 _ num 0 x (set1_get 0 i hi) hv hx

theorem cmpgt_get (a b : List Nat) (i x y : Nat) (ha : a[i]? = some x) (hb : b[i]? = some y) :
    (avx2_advanced.cmpgt_epi32 a b)[i]? = some (if slt32 y x then 0xFFFFFFFF else 0) :=
  zipWith_get _ a b i x y ha hb

theorem blendv_get (a b m : List Nat) (i x y z : Nat) (ha : a[i]? = some x)
    (hb : b[i]? = some y) (hm : m[i]? = some z) :
    (avx2_advanced.blendv_epi8 a b m)[i]? = some (avx2_advanced.blendLane x y z) :=
  zipWith_get _ a (List.zip b m) i x (y, z) ha (zip_get b m i y z hb hm)

/-- Lane `i` of `shift` from lane `i` of `p2`. -/
theorem shiftLanes_get (p2 : List Nat) (i x : Nat) (hi : i < 8) (hp : p2[i]? = some x) :
    (avx2_advanced.shiftLanes p2)[i]? = some (avx2_advanced.laneShift x) := by
  unfold avx2_advanced.shiftLanes avx2_advanced.laneShift avx2_advanced.laneCmpGt
  simp only []
  have c1 := cmpgt_get _ _ i _ _ (set1_get 10 i hi) hp
  have s1 := blendv_get _ _ _ i _ _ _ (set1_get 100000 i hi) (set1_get 10 i hi) c1
  have c2 := cmpgt_get _ _ i _ _ (set1_get 100 i hi) hp
  have s2 := blendv_get _ _ _ i _ _ _ s1 (set1_get 100 i hi) c2
  have c3 := cmpgt_get _ _ i _ _ (set1_get 1000 i hi) hp
  have s3 := blendv_get _ _ _ i _ _ _ s2 (set1_get 1000 i hi) c3
  have c4 := cmpgt_get _ _ i _ _ (set1_get 10000 i hi) hp
  exact blendv_get _ _ _ i _ _ _ s3 (set1_get 10000 i hi) c4

theorem cmpeq_get (a b : List Nat) (i x y : Nat) (ha : a[i]? = some x) (hb : b[i]? = some y) :
    (avx2_advanced.cmpeq_epi32 a b)[i]? = some (if x = y then 0xFFFFFFFF else 0) :=
  zipWith_get _ a b i x y ha hb

theorem and_get (a b : List Nat) (i x y : Nat) (ha : a[i]? = some x) (hb : b[i]? = some y) :
    (avx2_advanced.and_si256 a b)[i]? = some (x &&& y) :=
  zipWith_get _ a b i x y ha hb

theorem or_get (a b : List Nat) (i x y : Nat) (ha : a[i]? = some x) (hb : b[i]? = some y) :
    (avx2_advanced.or_si256 a b)[i]? = some (x ||| y) :=
  zipWith_get _ a b i x y ha hb

/-- Lane `i` of `concat` and of `validMask` from lane `i` of `kArr`. -/
theorem vectorPart_get (kArr : List Nat) (i k : Nat) (hi : i < 8) (hk : kArr[i]? = some k)
    (hlt : k < 2 ^ 30) :
    (avx2_advanced.vectorPart kArr).1[i]? = some (avx2_advanced.laneConcat k) ∧
      (avx2_advanced.vectorPart kArr).2[i]? = some (avx2_advanced.laneValid k) := by
  unfold avx2_advanced.vectorPart avx2_advanced.laneValid avx2_advanced.laneMaskVec
  simp only []
  have hp2 := mullo_get2 kArr _ i k 2 hk (set1_get 2 i hi)
  have hshift := shiftLanes_get _ i _ hi hp2
  have hconcat := add_get _ _ i _ _ (mullo_get2 _ _ i _ _ hk hshift) hp2
  refine ⟨hconcat, ?_⟩
  have hm1 := compute_digit_mask_get kArr i k hi hk (by omega)
  have hm2 := compute_digit_mask_get _ i _ hi hp2 (by omega)
  have hmv := or_get _ _ i _ _ hm1 hm2
  have hvalid := cmpeq_get _ _ i _ _ hmv (set1_get avx2_advanced.FULL_MASK i hi)
  have hr1 := cmpgt_get _ _ i _ _ (set1_get 1000000000 i hi) hconcat
  have hr2 := cmpgt_get _ _ i _ _ hconcat (set1_get 100000000 i hi)
  exact and_get _ _ i _ _ hvalid (and_get _ _ i _ _ hr1 hr2)

/-- Five rounds on a value below 10000 meet a leading zero: bit 0 of the lane mask is set. -/
theorem laneDigitMask_bit0 (x : Nat) (hx : x < 10000) :
    (avx2_advanced.laneDigitMask 5 0 x).testBit 0 = true := by
  have h0 : x / 10 / 10 / 10 / 10 = 0 := by omega
  simp only [avx2_advanced.laneDigitMask, h0, Nat.zero_mod, Nat.shiftLeft_zero, Nat.testBit_or]
  simp

theorem laneValid_eq_zero (k : Nat) (hk : k < 10000) : avx2_advanced.laneValid k = 0 := by
  unfold avx2_advanced.laneValid avx2_advanced.laneMaskVec avx2_advanced.FULL_MASK
  have hne : ¬ (avx2_advanced.laneDigitMask 5 0 k |||
      avx2_advanced.laneDigitMask 5 0 (k * 2 % 2 ^ 32)) = 0x3FE := by
    intro h
    have := congrArg (fun m => Nat.testBit m 0) h
    simp only [Nat.testBit_or, laneDigitMask_bit0 k hk, Bool.true_or] at this
    revert this
    decide
  rw [if_neg hne]
  exact Nat.zero_and _

theorem byteOf_zero (j : Nat) : avx2_advanced.byteOf 0 j = 0 := by
  simp [avx2_advanced.byteOf]

theorem movemask_eq_zero (v : List Nat) (h : ∀ i, i < 8 → v.getD i 0 = 0) :
    avx2_advanced.movemask_epi8 v = 0 := by
  unfold avx2_advanced.movemask_epi8
  apply List.sum_eq_zero
  intro x hx
  obtain ⟨b, hb, rfl⟩ := List.mem_map.1 hx
  have hb' : b < 32 := List.mem_range.1 hb
  rw [h (b / 4) (by omega), byteOf_zero]
  simp

/-- No batch of `avx2_advanced::calc` inside the search range changes the record. -/
theorem avx2_advanced_batch_eq (n : Nat) (hn : n ≤ 9999) (r : CalcResult) (k : Nat)
    (hk : k ≤ n) : avx2_advanced.batch n r k = some r := by
  unfold avx2_advanced.batch
  simp only []
  have hmask : avx2_advanced.movemask_epi8 (avx2_advanced.vectorPart
      ((List.range 8).map fun i => if i < min 8 (n - k + 1) then k + i else 0)).2 = 0 := by
    apply movemask_eq_zero
    intro i hi
    rw [List.getD_eq_getElem?_getD]
    by_cases hib : i < min 8 (n - k + 1)
    · have hg := kArr_get 8 (min 8 (n - k + 1)) k i hib (by omega)
      rw [(vectorPart_get _ i (k + i) hi hg (by omega)).2, laneValid_eq_zero _ (by omega)]
      rfl
    · have hg := kArr_get_sentinel 8 (min 8 (n - k + 1)) k i (by omega) hi
      rw [(vectorPart_get _ i 0 hi hg (by norm_num)).2, laneValid_eq_zero _ (by norm_num)]
      rfl
  rw [hmask]
  rfl

theorem avx2_advanced_calcUpTo_eq (n : Nat) (hn : n ≤ 9999) :
    avx2_advanced.calcUpTo n = some initResult := by
  unfold avx2_advanced.calcUpTo
  rw [forLoop_batches (n + 1) 8 1 (by norm_num) (avx2_advanced.batch n)
    (fun r _ => some r) _ (n + 1) 1 _ (by omega) le_rfl]
  · rw [foldlM_some_eq_foldl (fun (r : CalcResult) _ => r)]
    congr 1
    generalize List.range' 1 (n + 1 - 1) = l
    induction l with
    | nil => rfl
    | cons a l ih => exact ih
  · intro r k _ hkn
    rw [avx2_advanced_batch_eq n hn r k (by omega),
      foldlM_some_eq_foldl (fun (r : CalcResult) _ => r)]
    congr 1
    generalize List.range' k (min 8 (n + 1 - k)) = l
    induction l with
    | nil => rfl
    | cons a l ih => exact ih

/-! ## The notions of the specification and the reference step -/

theorem isPandigital_iff_panList (n : Nat) : IsPandigital n ↔ PanList (Nat.digits 10 n) := by
  unfold IsPandigital PanList
  constructor
  · rintro ⟨hlen, _, hcount⟩
    have hsub : List.Subperm [1, 2, 3, 4, 5, 6, 7, 8, 9] (Nat.digits 10 n) := by
      rw [List.subperm_ext_iff]
      intro x hx
      have hx' : x ∈ List.range' 1 9 := by
        rw [List.mem_range'_1]
        have := (mem_oneToNine x).1 hx
        omega
      rw [hcount x hx']
      have h19 := (mem_oneToNine x).1 hx
      have hx9 : x ≤ 9 := h19.2
      have hx1 : 1 ≤ x := h19.1
      interval_cases x <;> decide
    exact (hsub.perm_of_length_le (by simp [hlen])).symm
  · intro h
    refine ⟨by simpa using h.length_eq, ?_, ?_⟩
    · rw [h.mem_iff]; decide
    · intro d hd
      rw [h.count_eq]
      have := List.mem_range'_1.1 hd
      have hd9 : d ≤ 9 := by omega
      have hd1 : 1 ≤ d := this.1
      interval_cases d <;> decide

theorem decimalConcat_eq (a b : Nat) :
    decimalConcat a b = a * 10 ^ (Nat.digits 10 b).length + b := by
  unfold decimalConcat
  rw [Nat.ofDigits_digits_append_digits]
  ring

theorem decimalConcat_double (k : Nat) : decimalConcat k (2 * k) = catK k := by
  rw [decimalConcat_eq, Nat.mul_comm 2 k]
  rfl

theorem digits_decimalConcat (a b : Nat) :
    Nat.digits 10 (decimalConcat a b) = Nat.digits 10 b ++ Nat.digits 10 a := by
  rw [decimalConcat_eq, Nat.digits_append_digits (by norm_num)]
  congr 1
  ring

theorem digits_catK (k : Nat) :
    Nat.digits 10 (catK k) = Nat.digits 10 (k * 2) ++ Nat.digits 10 k := by
  rw [← decimalConcat_double, digits_decimalConcat, Nat.mul_comm 2 k]

theorem isPandigital_catK_iff (k : Nat) : IsPandigital (catK k) ↔ GoodK k := by
  rw [isPandigital_iff_panList, digits_catK]
  exact panList_perm List.perm_append_comm

theorem validK_iff (k : Nat) : ValidK k ↔ 1 ≤ k ∧ k ≤ 9999 ∧ GoodK k := by
  unfold ValidK
  rw [decimalConcat_double, isPandigital_catK_iff]

theorem to_string_catK (k : Nat) (hk : 0 < k) :
    to_string (catK k) = to_string k ++ to_string (k * 2) := by
  have hpos : 0 < catK k := by unfold catK; omega
  rw [to_string_eq_digits _ hpos, digits_catK, concat_string_eq k hk]
  simp

/-- The record a search returns: the fold of the reference step over `1 .. 9999`. -/
theorem refSearch_spec (n : Nat) :
    (refSearch n).bestN = 2 ∧
    (∀ k, 1 ≤ k → k ≤ n → GoodK k → catK k ≤ (refSearch n).maxVal) ∧
    (refSearch n = initResult ∨
      (1 ≤ (refSearch n).bestK ∧ (refSearch n).bestK ≤ n ∧ GoodK (refSearch n).bestK ∧
        (refSearch n).maxVal = catK (refSearch n).bestK)) := by
  unfold refSearch
  obtain ⟨i1, _, i3, i4⟩ := foldl_refStep_spec (List.range' 1 n) initResult
  refine ⟨i1, fun k h1 hn hg => i3 k (List.mem_range'_1.2 ⟨h1, by omega⟩) hg, ?_⟩
  rcases i4 with h | ⟨h1, h2, h3, _⟩
  · left; exact h
  · right
    have := List.mem_range'_1.1 h1
    exact ⟨this.1, by omega, h2, h3⟩

theorem refSearch_maxVal_ne_zero {n : Nat} (h : (refSearch n).maxVal ≠ 0) :
    1 ≤ (refSearch n).bestK ∧ (refSearch n).bestK ≤ n ∧ GoodK (refSearch n).bestK ∧
      (refSearch n).maxVal = catK (refSearch n).bestK := by
  rcases (refSearch_spec n).2.2 with h0 | h1
  · exfalso; apply h; rw [h0]; rfl
  · exact h1

theorem simple_calc_eq : simple.calc_ = some (refSearch 9999) := simple_calcBelow_eq 9999

theorem base_simd_calc_eq : base_simd.calc_ = some (refSearch 9999) :=
  base_simd_calcUpTo_eq 9999 le_rfl

theorem avx2_calc_eq : avx2.calc_ = some (refSearch 9999) := avx2_calcUpTo_eq 9999 le_rfl

theorem avx512_calc_eq : avx512.calc_ = some (refSearch 9999) := avx512_calcUpTo_eq 9999 le_rfl

theorem avx2_advanced_calc_eq : avx2_advanced.calc_ = some initResult :=
  avx2_advanced_calcUpTo_eq 9999 le_rfl

/-- A record returned by one of the four registered searches is the reference fold. -/
theorem registered_eq_refSearch (r : CalcResult)
    (h : simple.calc_ = some r ∨ base_simd.calc_ = some r ∨ avx2.calc_ = some r ∨
      avx512.calc_ = some r) : r = refSearch 9999 := by
  rcases h with h | h | h | h
  · rw [simple_calc_eq] at h; exact (Option.some.inj h).symm
  · rw [base_simd_calc_eq] at h; exact (Option.some.inj h).symm
  · rw [avx2_calc_eq] at h; exact (Option.some.inj h).symm
  · rw [avx512_calc_eq] at h; exact (Option.some.inj h).symm

theorem pandigital_of_catK (v k : Nat) (hg : GoodK k) (hv : v = catK k) :
    (Nat.digits 10 v).length = 9 ∧ 0 ∉ Nat.digits 10 v ∧
      ∀ d ∈ List.range' 1 9, (Nat.digits 10 v).count d = 1 := by
  have : IsPandigital v := by
    rw [hv, isPandigital_catK_iff]; exact hg
  exact this

theorem reconstruction_of_catK (v k : Nat) (hk : 1 ≤ k) (hv : v = catK k) :
    (to_string v).take (avx2.digitCount k) = to_string k ∧
      (to_string v).drop (avx2.digitCount k) = to_string (2 * k) ∧
      v = k * 10 ^ avx2.digitCount (2 * k) + 2 * k := by
  have hlen : (to_string k).length = avx2.digitCount k := by
    rw [to_string_length k (by omega), digitCount_eq k (by omega)]
  rw [hv, to_string_catK k (by omega), List.take_left' hlen, List.drop_left' hlen,
    Nat.mul_comm 2 k, digitCount_eq (k * 2) (by omega)]
  exact ⟨rfl, rfl, rfl⟩

/-! ## The claims -/

/-- C1: the four searches that `main` registers, `simple::calc`, `base_simd::calc`, `avx2::calc`
and `avx512::calc`, all return, and return one and the same `(maxVal, bestK, bestN)` record for
the range `k` in `[1, 9999]`. -/
theorem registered_searches_agree :
    (∃ r, simple.calc_ = some r) ∧ simple.calc_ = base_simd.calc_ ∧
      base_simd.calc_ = avx2.calc_ ∧ avx2.calc_ = avx512.calc_ := by
  rw [simple_calc_eq, base_simd_calc_eq, avx2_calc_eq, avx512_calc_eq]
  exact ⟨⟨_, rfl⟩, rfl, rfl, rfl⟩

/-- C2 (what the code does): `avx2_advanced::calc()` returns `{0, 0, 2}` while `simple::calc()`
and `avx2::calc()` return `{932718654, 9327, 2}`; already for the lane `k = 9327` the five
fixed rounds give the combined digit mask `0x3FF`, not `0x3FE`. -/
theorem avx2_advanced_calc_differs :
    avx2_advanced.calc_ = some ⟨0, 0, 2⟩ ∧ simple.calc_ = some ⟨932718654, 9327, 2⟩ ∧
      avx2.calc_ = some ⟨932718654, 9327, 2⟩ ∧ avx2_advanced.calc_ ≠ simple.calc_ ∧
      avx2_advanced.calc_ ≠ avx2.calc_ ∧ avx2_advanced.laneMaskVec 9327 = 0x3FF := by
  rw [avx2_advanced_calc_eq, simple_calc_eq, avx2_calc_eq, refSearch_9999]
  refine ⟨rfl, rfl, rfl, by decide, by decide, by decide⟩

/-- C3: the scalar search returns the maximum: `simple::calc()` returns a record whose `maxVal`
bounds the concatenation of every valid `k` in `[1, 9999]`; if a valid `k` exists, `bestK` is
a valid `k` and `maxVal` is the concatenation of `bestK` and `2 * bestK`; and `maxVal = 0` only
if no valid `k` exists. -/
theorem simple_calc_is_maximum :
    ∃ r, simple.calc_ = some r ∧
      (∀ k, ValidK k → decimalConcat k (2 * k) ≤ r.maxVal) ∧
      ((∃ k, ValidK k) → ValidK r.bestK ∧ r.maxVal = decimalConcat r.bestK (2 * r.bestK)) ∧
      (r.maxVal = 0 → ¬ ∃ k, ValidK k) := by
  refine ⟨refSearch 9999, simple_calc_eq, ?_, ?_, ?_⟩
  · intro k hk
    rw [validK_iff] at hk
    rw [decimalConcat_double]
    exact (refSearch_spec 9999).2.1 k hk.1 hk.2.1 hk.2.2
  · rintro ⟨k, hk⟩
    rw [validK_iff] at hk
    have hle := (refSearch_spec 9999).2.1 k hk.1 hk.2.1 hk.2.2
    have hb := hk.2.2.bounds
    obtain ⟨h1, h2, h3, h4⟩ := refSearch_maxVal_ne_zero (n := 9999) (by omega)
    rw [validK_iff, decimalConcat_double]
    exact ⟨⟨h1, h2, h3⟩, h4⟩
  · rintro h0 ⟨k, hk⟩
    rw [validK_iff] at hk
    have hle := (refSearch_spec 9999).2.1 k hk.1 hk.2.1 hk.2.2
    have hb := hk.2.2.bounds
    omega

/-- C4: validity shape: for the record `r` returned by each registered search, whenever
`r.maxVal ≠ 0` the decimal representation of `r.maxVal` has exactly 9 digits, contains no digit
0, and contains each of the digits 1 through 9 exactly once. -/
theorem registered_maxVal_pandigital (r : CalcResult)
    (h : simple.calc_ = some r ∨ base_simd.calc_ = some r ∨ avx2.calc_ = some r ∨
      avx512.calc_ = some r) (hne : r.maxVal ≠ 0) :
    (Nat.digits 10 r.maxVal).length = 9 ∧ 0 ∉ Nat.digits 10 r.maxVal ∧
      ∀ d ∈ List.range' 1 9, (Nat.digits 10 r.maxVal).count d = 1 := by
  have hr := registered_eq_refSearch r h
  rw [hr] at hne ⊢
  obtain ⟨_, _, h3, h4⟩ := refSearch_maxVal_ne_zero hne
  exact pandigital_of_catK _ _ h3 h4

theorem registered_maxVal_pandigital_witness :
    (simple.calc_ = some ⟨932718654, 9327, 2⟩ ∨ base_simd.calc_ = some ⟨932718654, 9327, 2⟩ ∨
        avx2.calc_ = some ⟨932718654, 9327, 2⟩ ∨ avx512.calc_ = some ⟨932718654, 9327, 2⟩) ∧
      (932718654 : Nat) ≠ 0 ∧
      ((Nat.digits 10 932718654).length = 9 ∧ 0 ∉ Nat.digits 10 932718654 ∧
        ∀ d ∈ List.range' 1 9, (Nat.digits 10 932718654).count d = 1) :=
  have h : simple.calc_ = some ⟨932718654, 9327, 2⟩ := by rw [simple_calc_eq, refSearch_9999]
  ⟨Or.inl h, by norm_num,
    registered_maxVal_pandigital ⟨932718654, 9327, 2⟩ (Or.inl h) (by norm_num)⟩

/-- C5: reconstruction: for the record `r` returned by each registered search, whenever
`r.maxVal ≠ 0`, the decimal string of `r.maxVal` split after `digitCount(bestK)` characters is
the decimal string of `bestK` followed by that of `2 * bestK`; and
`maxVal = bestK * 10 ^ digitCount(2 * bestK) + 2 * bestK`. -/
theorem registered_reconstruction (r : CalcResult)
    (h : simple.calc_ = some r ∨ base_simd.calc_ = some r ∨ avx2.calc_ = some r ∨
      avx512.calc_ = some r) (hne : r.maxVal ≠ 0) :
    (to_string r.maxVal).take (avx2.digitCount r.bestK) = to_string r.bestK ∧
      (to_string r.maxVal).drop (avx2.digitCount r.bestK) = to_string (2 * r.bestK) ∧
      r.maxVal = r.bestK * 10 ^ avx2.digitCount (2 * r.bestK) + 2 * r.bestK := by
  have hr := registered_eq_refSearch r h
  rw [hr] at hne ⊢
  obtain ⟨h1, _, _, h4⟩ := refSearch_maxVal_ne_zero hne
  exact reconstruction_of_catK _ _ h1 h4

theorem registered_reconstruction_witness :
    (simple.calc_ = some ⟨932718654, 9327, 2⟩ ∨ base_simd.calc_ = some ⟨932718654, 9327, 2⟩ ∨
        avx2.calc_ = some ⟨932718654, 9327, 2⟩ ∨ avx512.calc_ = some ⟨932718654, 9327, 2⟩) ∧
      (932718654 : Nat) ≠ 0 ∧
      ((to_string 932718654).take (avx2.digitCount 9327) = to_string 9327 ∧
        (to_string 932718654).drop (avx2.digitCount 9327) = to_string (2 * 9327) ∧
        932718654 = 9327 * 10 ^ avx2.digitCount (2 * 9327) + 2 * 9327) :=
  have h : avx512.calc_ = some ⟨932718654, 9327, 2⟩ := by rw [avx512_calc_eq, refSearch_9999]
  ⟨Or.inr (Or.inr (Or.inr h)), by norm_num,
    registered_reconstruction ⟨932718654, 9327, 2⟩ (Or.inr (Or.inr (Or.inr h))) (by norm_num)⟩

theorem pair_string_eq (p1 p2 : Nat) (h1 : 0 < p1) (h2 : 0 < p2) :
    to_string p1 ++ to_string p2 =
      ((Nat.digits 10 p1).reverse ++ (Nat.digits 10 p2).reverse).map Nat.digitChar := by
  rw [to_string_eq_digits p1 h1, to_string_eq_digits p2 h2, List.map_append]

theorem pair_digits_lt (p1 p2 : Nat) :
    ∀ d ∈ (Nat.digits 10 p1).reverse ++ (Nat.digits 10 p2).reverse, d < 10 := by
  intro d hd
  rcases List.mem_append.1 hd with h | h
  · exact digits_lt_ten p1 d (List.mem_reverse.1 h)
  · exact digits_lt_ten p2 d (List.mem_reverse.1 h)

theorem to_string_pair (p1 p2 : Nat) (h1 : 0 < p1) (h2 : 0 < p2) :
    to_string (p1 * 10 ^ (Nat.digits 10 p2).length + p2) = to_string p1 ++ to_string p2 := by
  have hpos : 0 < p1 * 10 ^ (Nat.digits 10 p2).length + p2 := by omega
  have hd : Nat.digits 10 (p1 * 10 ^ (Nat.digits 10 p2).length + p2) =
      Nat.digits 10 p2 ++ Nat.digits 10 p1 := by
    rw [Nat.digits_append_digits (by norm_num)]
    congr 1
    ring
  rw [to_string_eq_digits _ hpos, hd, pair_string_eq p1 p2 h1 h2]
  simp

theorem digitCount_bounds (x : Nat) (hx : 1 ≤ x) :
    10 ^ (avx2.digitCount x - 1) ≤ x ∧ x < 10 ^ avx2.digitCount x := by
  rw [digitCount_eq x (by omega)]
  have a1 : x < 10 ^ (Nat.digits 10 x).length := Nat.lt_base_pow_length_digits (by norm_num)
  have b1 : 10 ^ (Nat.digits 10 x).length ≤ 10 * x :=
    Nat.base_pow_length_digits_le 10 x (by norm_num) (by omega)
  refine ⟨?_, a1⟩
  have hpos : 0 < (Nat.digits 10 x).length := by
    rcases Nat.eq_zero_or_pos (Nat.digits 10 x).length with h | h
    · rw [h] at a1; simp at a1; omega
    · exact h
  obtain ⟨e, he⟩ : ∃ e, (Nat.digits 10 x).length = e + 1 := ⟨_, (Nat.succ_pred_eq_of_pos hpos).symm⟩
  rw [he] at b1 ⊢
  rw [pow_succ] at b1
  simp only [Nat.add_sub_cancel]
  omega

theorem string_count_iff (ds : List Nat) (hlt : ∀ d ∈ ds, d < 10) (hlen : ds.length = 9) :
    PanList ds ↔
      ∀ c ∈ ['1', '2', '3', '4', '5', '6', '7', '8', '9'], (ds.map Nat.digitChar).count c = 1 := by
  constructor
  · intro h c hc
    have hp : (ds.map Nat.digitChar).Perm ['1', '2', '3', '4', '5', '6', '7', '8', '9'] :=
      List.Perm.map Nat.digitChar h
    rw [hp.count_eq]
    revert c
    decide
  · intro h
    have hsub : List.Subperm ['1', '2', '3', '4', '5', '6', '7', '8', '9']
        (ds.map Nat.digitChar) := by
      rw [List.subperm_ext_iff]
      intro x hx
      rw [h x hx]
      revert x
      decide
    have hp : (ds.map Nat.digitChar).Perm ['1', '2', '3', '4', '5', '6', '7', '8', '9'] :=
      (hsub.perm_of_length_le (by simp [hlen])).symm
    have hp2 := List.Perm.map (fun c : Char => c.toNat - 48) hp
    rw [List.map_map] at hp2
    have hid : List.map ((fun c : Char => c.toNat - 48) ∘ Nat.digitChar) ds = ds := by
      conv_rhs => rw [← List.map_id ds]
      apply List.map_congr_left
      intro d hd
      simp [digitChar_toNat d (hlt d hd)]
    rw [hid] at hp2
    exact hp2

/-! ## Claims on the validators and the concatenation -/

/-- C6: the bit-mask validator agrees with the string validator: for all positive `p1`, `p2`,
`avx2::isPandigitalMask(p1, p2)` returns true if and only if `simple::isPandigital` applied to
`to_string(p1) + to_string(p2)` returns true (and the latter always returns). -/
theorem mask_validator_agrees_with_string (p1 p2 : Nat) (h1 : 0 < p1) (h2 : 0 < p2) :
    (∃ b, simple.isPandigital (to_string p1 ++ to_string p2) = some b) ∧
      (avx2.isPandigitalMask p1 p2 = true ↔
        simple.isPandigital (to_string p1 ++ to_string p2) = some true) := by
  obtain ⟨b, hb1, hb2⟩ := simple_isPandigital_digits _ (pair_digits_lt p1 p2)
  rw [← pair_string_eq p1 p2 h1 h2] at hb1
  rw [panList_rev_append] at hb2
  refine ⟨⟨b, hb1⟩, ?_⟩
  rw [isPandigitalMask_iff, hb1, ← hb2]
  simp

theorem mask_validator_agrees_with_string_witness :
    (0 < 9327 ∧ 0 < 18654) ∧
      ((∃ b, simple.isPandigital (to_string 9327 ++ to_string 18654) = some b) ∧
      (avx2.isPandigitalMask 9327 18654 = true ↔
        simple.isPandigital (to_string 9327 ++ to_string 18654) = some true)) :=
  ⟨⟨by decide, by decide⟩,
    mask_validator_agrees_with_string 9327 18654 (by decide) (by decide)⟩

/-- C7: the character-array validator agrees with the string validator: for every string `s` of
exactly 9 decimal-digit characters, `base_simd::isPandigital(s)` equals
`simple::isPandigital(s)`, and it is true exactly when each of the digits 1-9 occurs once. -/
theorem char_array_validator_agrees_with_string (s : List Char) (hlen : s.length = 9)
    (hdig : ∀ c ∈ s, c.isDigit = true) :
    simple.isPandigital s = some (base_simd.isPandigital s) ∧
      (base_simd.isPandigital s = true ↔
        ∀ c ∈ ['1', '2', '3', '4', '5', '6', '7', '8', '9'], s.count c = 1) := by
  have hs := digitString_eq_map s hdig
  have hlt := digitString_lt s hdig
  have hlen' : (s.map fun c => c.toNat - 48).length = 9 := by simpa using hlen
  generalize (s.map fun c => c.toNat - 48) = ds at hs hlt hlen'
  subst hs
  obtain ⟨b, hb1, hb2⟩ := simple_isPandigital_digits ds hlt
  have hbase := base_isPandigital_digits ds hlt hlen'
  refine ⟨?_, ?_⟩
  · rw [hb1]
    congr 1
    rw [Bool.eq_iff_iff, hb2, hbase]
  · rw [hbase]
    exact string_count_iff ds hlt hlen'

theorem char_array_validator_agrees_with_string_witness :
    (['9', '3', '2', '7', '1', '8', '6', '5', '4'].length = 9 ∧
      ∀ c ∈ ['9', '3', '2', '7', '1', '8', '6', '5', '4'], c.isDigit = true) ∧
    (simple.isPandigital ['9', '3', '2', '7', '1', '8', '6', '5', '4'] =
        some (base_simd.isPandigital ['9', '3', '2', '7', '1', '8', '6', '5', '4']) ∧
      (base_simd.isPandigital ['9', '3', '2', '7', '1', '8', '6', '5', '4'] = true ↔
        ∀ c ∈ ['1', '2', '3', '4', '5', '6', '7', '8', '9'],
          ['9', '3', '2', '7', '1', '8', '6', '5', '4'].count c = 1)) :=
  ⟨⟨by decide, by decide⟩,
    char_array_validator_agrees_with_string _ (by decide) (by decide)⟩

/-- C8: arithmetic concatenation equals string concatenation: for positive `p1`, `p2` with
`p1 * 10 ^ digitCount(p2) + p2 < 2 ^ 31`, `avx2::concatProducts(p1, p2)` is that number, which
is the value `stoi` reads from `to_string(p1) + to_string(p2)` and whose decimal string is that
text; and `digitCount(x)` is the number of decimal digits of `x` for every `x ≥ 1`. -/
theorem concatProducts_eq_string_concat (p1 p2 : Nat) (h1 : 0 < p1) (h2 : 0 < p2)
    (hv : p1 * 10 ^ avx2.digitCount p2 + p2 < 2 ^ 31) :
    avx2.concatProducts p1 p2 = some (p1 * 10 ^ avx2.digitCount p2 + p2) ∧
      stoi (to_string p1 ++ to_string p2) = some (p1 * 10 ^ avx2.digitCount p2 + p2) ∧
      to_string (p1 * 10 ^ avx2.digitCount p2 + p2) = to_string p1 ++ to_string p2 ∧
      ∀ x, 1 ≤ x → avx2.digitCount x = (Nat.digits 10 x).length ∧
        avx2.digitCount x = (to_string x).length ∧
        10 ^ (avx2.digitCount x - 1) ≤ x ∧ x < 10 ^ avx2.digitCount x := by
  rw [digitCount_eq p2 h2] at hv ⊢
  have hd : (Nat.digits 10 p2).length < 10 := by
    by_contra hc
    have h10 : 10 ^ 10 ≤ 10 ^ (Nat.digits 10 p2).length :=
      Nat.pow_le_pow_right (by norm_num) (by omega)
    have : 1 * 10 ^ (Nat.digits 10 p2).length ≤ p1 * 10 ^ (Nat.digits 10 p2).length :=
      Nat.mul_le_mul_right _ h1
    omega
  refine ⟨concatProducts_eq p1 p2 h2 hv hd, stoi_concat p1 p2 h1 h2 hv,
    to_string_pair p1 p2 h1 h2, fun x hx => ?_⟩
  have hb := digitCount_bounds x hx
  exact ⟨digitCount_eq x (by omega), by rw [to_string_length x (by omega), digitCount_eq x (by omega)],
    hb.1, hb.2⟩

theorem concatProducts_eq_string_concat_witness :
    (0 < 9327 ∧ 0 < 18654 ∧ 9327 * 10 ^ avx2.digitCount 18654 + 18654 < 2 ^ 31) ∧
    (avx2.concatProducts 9327 18654 = some (9327 * 10 ^ avx2.digitCount 18654 + 18654) ∧
      stoi (to_string 9327 ++ to_string 18654) =
        some (9327 * 10 ^ avx2.digitCount 18654 + 18654) ∧
      to_string (9327 * 10 ^ avx2.digitCount 18654 + 18654) =
        to_string 9327 ++ to_string 18654 ∧
      ∀ x, 1 ≤ x → avx2.digitCount x = (Nat.digits 10 x).length ∧
        avx2.digitCount x = (to_string x).length ∧
        10 ^ (avx2.digitCount x - 1) ≤ x ∧ x < 10 ^ avx2.digitCount x) :=
  ⟨⟨by decide, by decide, by decide⟩,
    concatProducts_eq_string_concat 9327 18654 (by decide) (by decide) (by decide)⟩

/-! ## Sentinel lanes -/

theorem foldl_const {σ : Type} : ∀ (l : List Nat) (s : σ), l.foldl (fun r _ => r) s = s := by
  intro l
  induction l with
  | nil => intro s; rfl
  | cons a l ih => intro s; exact ih s

/-- Lanes that leave the state alone can be dropped from the end of a lane loop. -/
theorem forLoop_skip_tail {σ : Type} (W bs : Nat) (lane : σ → Nat → Option σ) (hbs : bs ≤ W)
    (htail : ∀ r i, bs ≤ i → i < W → lane r i = some r) (r : σ) :
    forLoop W 1 lane W 0 r = forLoop bs 1 lane bs 0 r := by
  rw [forLoop_unit W lane W 0 r (by omega), forLoop_unit bs lane bs 0 r (by omega)]
  have hsplit : List.range' 0 (W - 0) = List.range' 0 (bs - 0) ++ List.range' bs (W - bs) := by
    have := List.range'_append 0 bs (W - bs) 1
    simp only [Nat.one_mul, Nat.zero_add] at this
    rw [Nat.sub_zero, Nat.sub_zero, this]
    congr 1
    omega
  rw [hsplit, List.foldlM_append]
  cases (List.range' 0 (bs - 0)).foldlM lane r with
  | none => rfl
  | some s =>
    simp only [Option.bind_eq_bind, Option.some_bind]
    rw [foldlM_congr_mem lane (fun r _ => some r) _ s
      (fun k hk r' => htail r' k (List.mem_range'_1.1 hk).1 (by
        have := (List.mem_range'_1.1 hk).2; omega)),
      foldlM_some_eq_foldl (fun (r : σ) _ => r), foldl_const]

theorem to_string_zero : to_string 0 = ['0'] := by decide

theorem base_simd_lane_sentinel (kArr : List Nat) (r : CalcResult) (i : Nat)
    (hk : kArr[i]? = some 0) (hi : i < 8) :
    base_simd.lane kArr kArr (mullo_epi32 kArr (List.replicate 8 2)) r i = some r := by
  unfold base_simd.lane
  rw [mullo_get kArr 8 2 i 0 hk hi, hk]
  simp only [Nat.zero_mul, Nat.zero_mod, laneToInt_of_lt 0 (by norm_num), snprintf,
    to_string_zero]
  rfl

theorem avx2_lane_sentinel (kArr : List Nat) (r : CalcResult) (i : Nat)
    (hk : kArr[i]? = some 0) (hi : i < 8) :
    avx2.lane kArr kArr (mullo_epi32 kArr (List.replicate 8 2)) r i = some r := by
  unfold avx2.lane
  rw [mullo_get kArr 8 2 i 0 hk hi, hk]
  simp only [Nat.zero_mul, Nat.zero_mod, laneToInt_of_lt 0 (by norm_num)]
  have h0 : avx2.concatProducts 0 0 = some 0 := by decide
  rw [h0]
  rfl

theorem avx512_lane_sentinel (kArr : List Nat) (r : CalcResult) (i : Nat)
    (hk : kArr[i]? = some 0) (hi : i < 16) :
    avx512.lane kArr (avx512.concatLanes kArr) r i = some r := by
  unfold avx512.lane
  rw [avx512_concatLanes_get kArr i 0 hk hi, hk]
  simp only [Nat.zero_mul, Nat.zero_mod, Nat.add_zero, laneToInt_of_lt 0 (by norm_num)]
  have h0 : avx512.maskPandigitalScalar 0 0 0 = false := by decide
  rw [if_pos (by norm_num), h0]
  simp

/-- Bits of a sum of distinct shifted 0/1 values. -/
theorem sum_bits_lt_and_testBit (c : Nat → Nat) (hc : ∀ b, c b ≤ 1) : ∀ n : Nat,
    ((List.range n).map fun b => c b <<< b).sum < 2 ^ n ∧
      ∀ p, (((List.range n).map fun b => c b <<< b).sum).testBit p =
        decide (p < n ∧ c p = 1) := by
  intro n
  induction n with
  | zero => simp
  | succ n ih =>
    obtain ⟨hlt, hbit⟩ := ih
    have hsum : ((List.range (n + 1)).map fun b => c b <<< b).sum =
        2 ^ n * c n + ((List.range n).map fun b => c b <<< b).sum := by
      rw [List.range_succ, List.map_append, List.sum_append]
      simp only [List.map_cons, List.map_nil, List.sum_cons, List.sum_nil, Nat.add_zero,
        Nat.shiftLeft_eq]
      ring
    rw [hsum]
    generalize ((List.range n).map fun b => c b <<< b).sum = S at *
    have hcn := hc n
    constructor
    · have : 2 ^ n * c n ≤ 2 ^ n * 1 := Nat.mul_le_mul_left _ hcn
      rw [pow_succ]
      omega
    · intro p
      rw [Nat.testBit_mul_pow_two_add (c n) hlt p]
      by_cases hp : p < n
      · rw [if_pos hp, hbit p]
        have : p < n + 1 := by omega
        simp [hp, this]
      · rw [if_neg hp]
        by_cases hpn : p = n
        · subst hpn
          simp only [Nat.sub_self, Nat.testBit_zero]
          have : p < p + 1 := by omega
          simp only [this, true_and]
          congr 1
          apply propext
          constructor <;> intro h <;> omega
        · have h1 : c n < 2 ^ (p - n) :=
            lt_of_le_of_lt hcn (Nat.one_lt_two_pow (by omega))
          rw [Nat.testBit_lt_two_pow h1]
          have : ¬ p < n + 1 := by omega
          simp [this]

/-- Bit `b` of `_mm256_movemask_epi8(v)` is the top bit of byte `b % 4` of lane `b / 4`. -/
theorem movemask_testBit (v : List Nat) (b : Nat) (hb : b < 32) :
    (avx2_advanced.movemask_epi8 v).testBit b =
      decide (128 ≤ avx2_advanced.byteOf (v.getD (b / 4) 0) (b % 4)) := by
  unfold avx2_advanced.movemask_epi8
  have h := (sum_bits_lt_and_testBit
    (fun b => if 128 ≤ avx2_advanced.byteOf (v.getD (b / 4) 0) (b % 4) then 1 else 0)
    (fun b => by dsimp only; split <;> omega) 32).2 b
  rw [h]
  by_cases hc : 128 ≤ avx2_advanced.byteOf (v.getD (b / 4) 0) (b % 4)
  · rw [if_pos hc]
    simp only [hb, and_self, hc]
  · rw [if_neg hc]
    simp only [hc, and_false, zero_ne_one]

theorem avx2_advanced_lane_sentinel (kArr : List Nat) (r : CalcResult) (i : Nat)
    (hk : kArr[i]? = some 0) (hi : i < 8) :
    avx2_advanced.lane kArr (avx2_advanced.vectorPart kArr).1
      (avx2_advanced.movemask_epi8 (avx2_advanced.vectorPart kArr).2) r i = some r := by
  unfold avx2_advanced.lane
  have hbit : ¬ (avx2_advanced.movemask_epi8 (avx2_advanced.vectorPart kArr).2 &&&
      (1 <<< (i * 4)) ≠ 0) := by
    rw [and_one_shiftLeft_ne_zero, movemask_testBit _ _ (by omega)]
    have h4 : i * 4 / 4 = i := by omega
    have h5 : i * 4 % 4 = 0 := by omega
    rw [h4, h5, List.getD_eq_getElem?_getD, (vectorPart_get kArr i 0 hi hk (by norm_num)).2,
      laneValid_eq_zero 0 (by norm_num)]
    simp [byteOf_zero]
  rw [if_neg hbit]

theorem paddedBatch_sentinel (W bs k i : Nat) (hi : bs ≤ i) (hW : i < W) :
    (paddedBatch W bs k)[i]? = some 0 := kArr_get_sentinel W bs k i hi hW

theorem paddedBatch_get (W bs k i : Nat) (hi : i < bs) (hbs : bs ≤ W) :
    (paddedBatch W bs k)[i]? = some (k + i) := kArr_get W bs k i hi hbs

/-- C9: padding safety.  The sentinel `k = 0` fails every validity test
(`isPandigitalMask(0,0)` is false, `concatProducts(0,0)` is 0, `maskPandigitalScalar(0,0,0)` is
false, the text of `base_simd` is `"00"` of length 2, the five-round digit mask of 0 is 1, not
`0x3FE`); in each batch variant the lane update on a lane holding the sentinel leaves every record
`r` unchanged; and on the final, partial batch (`9993..9999` padded to 8 lanes, `9985..9999`
padded to 16) running the lane update over all lanes, sentinels included, gives what the batch
gives. -/
theorem padding_safety :
    (avx2.isPandigitalMask 0 0 = false ∧ avx2.concatProducts 0 0 = some 0 ∧
      avx512.maskPandigitalScalar 0 0 0 = false ∧ snprintf 10 0 0 = (2, ['0', '0']) ∧
      avx2_advanced.compute_digit_mask (List.replicate 8 0) = List.replicate 8 1) ∧
    (∀ (kArr : List Nat) (r : CalcResult) (i : Nat), kArr[i]? = some 0 →
      (i < 8 → base_simd.lane kArr kArr (mullo_epi32 kArr (List.replicate 8 2)) r i = some r) ∧
      (i < 8 → avx2.lane kArr kArr (mullo_epi32 kArr (List.replicate 8 2)) r i = some r) ∧
      (i < 16 → avx512.lane kArr (avx512.concatLanes kArr) r i = some r) ∧
      (i < 8 → avx2_advanced.lane kArr (avx2_advanced.vectorPart kArr).1
        (avx2_advanced.movemask_epi8 (avx2_advanced.vectorPart kArr).2) r i = some r)) ∧
    (paddedBatch 8 7 9993 = [9993, 9994, 9995, 9996, 9997, 9998, 9999, 0] ∧
      paddedBatch 16 15 9985 = [9985, 9986, 9987, 9988, 9989, 9990, 9991, 9992, 9993, 9994,
        9995, 9996, 9997, 9998, 9999, 0]) ∧
    (∀ r : CalcResult,
      forLoop 8 1 (base_simd.lane (paddedBatch 8 7 9993) (paddedBatch 8 7 9993)
          (mullo_epi32 (paddedBatch 8 7 9993) (List.replicate 8 2))) 8 0 r =
        base_simd.batch 9999 r 9993 ∧
      forLoop 8 1 (avx2.lane (paddedBatch 8 7 9993) (paddedBatch 8 7 9993)
          (mullo_epi32 (paddedBatch 8 7 9993) (List.replicate 8 2))) 8 0 r =
        avx2.processBatch 9993 7 r ∧
      forLoop 16 1 (avx512.lane (paddedBatch 16 15 9985)
          (avx512.concatLanes (paddedBatch 16 15 9985))) 16 0 r =
        avx512.batch 9999 r 9985 ∧
      forLoop 8 1 (avx2_advanced.lane (paddedBatch 8 7 9993)
          (avx2_advanced.vectorPart (paddedBatch 8 7 9993)).1
          (avx2_advanced.movemask_epi8 (avx2_advanced.vectorPart (paddedBatch 8 7 9993)).2))
          8 0 r =
        avx2_advanced.batch 9999 r 9993) := by
  refine ⟨⟨by decide, by decide, by decide, by decide, by decide⟩, ?_, ⟨by decide, by decide⟩, ?_⟩
  · intro kArr r i hk
    exact ⟨base_simd_lane_sentinel kArr r i hk, avx2_lane_sentinel kArr r i hk,
      avx512_lane_sentinel kArr r i hk, avx2_advanced_lane_sentinel kArr r i hk⟩
  · intro r
    refine ⟨?_, ?_, ?_, ?_⟩
    · rw [forLoop_skip_tail 8 7 _ (by norm_num) (fun r i h1 h2 =>
        base_simd_lane_sentinel _ r i (paddedBatch_sentinel 8 7 9993 i h1 h2) h2)]
      rfl
    · rw [forLoop_skip_tail 8 7 _ (by norm_num) (fun r i h1 h2 =>
        avx2_lane_sentinel _ r i (paddedBatch_sentinel 8 7 9993 i h1 h2) h2)]
      rfl
    · rw [forLoop_skip_tail 16 15 _ (by norm_num) (fun r i h1 h2 =>
        avx512_lane_sentinel _ r i (paddedBatch_sentinel 16 15 9985 i h1 h2) h2)]
      rfl
    · rw [avx2_advanced_batch_eq 9999 le_rfl r 9993 (by norm_num)]
      have hmask : avx2_advanced.movemask_epi8
          (avx2_advanced.vectorPart (paddedBatch 8 7 9993)).2 = 0 := by
        apply movemask_eq_zero
        intro i hi
        rw [List.getD_eq_getElem?_getD]
        by_cases hib : i < 7
        · rw [(vectorPart_get _ i (9993 + i) hi (paddedBatch_get 8 7 9993 i hib (by norm_num))
            (by omega)).2, laneValid_eq_zero _ (by omega)]
          rfl
        · rw [(vectorPart_get _ i 0 hi (paddedBatch_sentinel 8 7 9993 i (by omega) hi)
            (by norm_num)).2, laneValid_eq_zero _ (by norm_num)]
          rfl
      rw [hmask, forLoop_unit 8 _ 8 0 r (by norm_num),
        foldlM_congr_mem _ (fun r _ => some r) _ r (fun k _ r' => by
          unfold avx2_advanced.lane
          rw [if_neg (by simp)]),
        foldlM_some_eq_foldl (fun (r : CalcResult) _ => r), foldl_const]

/-! ## Tie-break -/

/-- Folding the strict update over an ascending list keeps the first `k` that reaches the
final `maxVal`. -/
theorem foldl_refStep_first : ∀ (l : List Nat) (r0 : CalcResult), l.Pairwise (· < ·) →
    r0.maxVal < (l.foldl refStep r0).maxVal →
    ∀ k ∈ l, GoodK k → catK k = (l.foldl refStep r0).maxVal → (l.foldl refStep r0).bestK ≤ k := by
  intro l
  induction l with
  | nil => intro r0 _ _ k hk; cases hk
  | cons a l ih =>
    intro r0 hpw hlt k hk hg hcat
    rw [List.foldl_cons] at hlt hcat ⊢
    have hpw' := List.pairwise_cons.1 hpw
    obtain ⟨_, i2, _, i4⟩ := foldl_refStep_spec l (refStep r0 a)
    rcases refStep_cases r0 a with ⟨he, hn⟩ | ⟨he, hga, hgt⟩
    · rw [he] at hlt hcat ⊢
      rcases List.mem_cons.1 hk with hk | hk
      · subst hk
        exfalso
        exact hn ⟨hg, by omega⟩
      · exact ih r0 hpw'.2 hlt k hk hg hcat
    · rw [he] at hlt hcat i2 i4 ⊢
      rcases i4 with h | ⟨_, _, _, h4⟩
      · rw [h]
        rcases List.mem_cons.1 hk with hk | hk
        · rw [hk]
        · exact Nat.le_of_lt (hpw'.1 k hk)
      · simp only at h4
        rcases List.mem_cons.1 hk with hk | hk
        · subst hk
          omega
        · exact ih _ hpw'.2 h4 k hk hg hcat

theorem refSearch_first (n k : Nat) (h1 : 1 ≤ k) (hn : k ≤ n) (hg : GoodK k)
    (hcat : catK k = (refSearch n).maxVal) : (refSearch n).bestK ≤ k := by
  unfold refSearch at hcat ⊢
  have hb := hg.bounds
  exact foldl_refStep_first (List.range' 1 n) initResult (List.pairwise_lt_range' 1 n)
    (by rw [← hcat]; exact lt_of_lt_of_le (by norm_num [initResult]) hb.1) k
    (List.mem_range'_1.2 ⟨h1, by omega⟩) hg hcat

theorem refStep_of_le (r : CalcResult) (k : Nat) (h : catK k ≤ r.maxVal) : refStep r k = r := by
  unfold refStep
  rw [if_neg (fun hc => by omega)]

/-- C10: tie-break stability.  In `simple::calc`, `avx2::processBatch` and `avx512::calc` a valid
candidate `k` whose concatenation equals the current `maxVal` leaves the record unchanged (the
comparison is strict); each search folds `k` in ascending order, and the `bestK` it returns is
the smallest valid `k` in `[1, 9999]` whose concatenation equals the returned `maxVal` (it is such
a `k` whenever `maxVal ≠ 0`). -/
theorem tie_break_stability :
    (∀ (r : CalcResult) (k : Nat), ValidK k → decimalConcat k (2 * k) = r.maxVal →
      simple.step r k = some r ∧
      (∀ kStart bs i, 1 ≤ kStart → i < bs → bs ≤ 8 → k = kStart + i →
        avx2.lane (paddedBatch 8 bs kStart) (paddedBatch 8 bs kStart)
          (mullo_epi32 (paddedBatch 8 bs kStart) (List.replicate 8 2)) r i = some r) ∧
      (∀ kStart bs i, 1 ≤ kStart → i < bs → bs ≤ 16 → k = kStart + i →
        avx512.lane (paddedBatch 16 bs kStart) (avx512.concatLanes (paddedBatch 16 bs kStart))
          r i = some r)) ∧
    (∀ r : CalcResult, simple.calc_ = some r ∨ avx2.calc_ = some r ∨ avx512.calc_ = some r →
      r = (List.range' 1 9999).foldl refStep initResult ∧
      (r.maxVal ≠ 0 → ValidK r.bestK ∧ decimalConcat r.bestK (2 * r.bestK) = r.maxVal) ∧
      ∀ k, ValidK k → decimalConcat k (2 * k) = r.maxVal → r.bestK ≤ k) := by
  constructor
  · intro r k hv hcat
    rw [validK_iff] at hv
    rw [decimalConcat_double] at hcat
    have hstep : refStep r k = r := refStep_of_le r k (by omega)
    refine ⟨?_, ?_, ?_⟩
    · rw [simple_step_eq r k hv.1, hstep]
    · intro kStart bs i hks hi hbs hk
      subst hk
      have := avx2_lane_eq r kStart bs i hi hbs hks hv.2.1
      rw [hstep] at this
      exact this
    · intro kStart bs i hks hi hbs hk
      subst hk
      have := avx512_lane_eq r kStart bs i hi hbs hks hv.2.1
      rw [hstep] at this
      exact this
  · intro r h
    have hr : r = refSearch 9999 := by
      rcases h with h | h | h
      · exact registered_eq_refSearch r (Or.inl h)
      · exact registered_eq_refSearch r (Or.inr (Or.inr (Or.inl h)))
      · exact registered_eq_refSearch r (Or.inr (Or.inr (Or.inr h)))
    clear h
    rw [hr]
    refine ⟨rfl, ?_, ?_⟩
    · intro hne
      obtain ⟨h1, h2, h3, h4⟩ := refSearch_maxVal_ne_zero hne
      rw [validK_iff, decimalConcat_double]
      exact ⟨⟨h1, h2, h3⟩, h4.symm⟩
    · intro k hv hcat
      rw [validK_iff] at hv
      rw [decimalConcat_double] at hcat
      exact refSearch_first 9999 k hv.1 hv.2.1 hv.2.2 hcat

/-! ## The record invariant -/

theorem refStep_inv (r : CalcResult) (k : Nat) (h1 : 1 ≤ k) (h2 : k ≤ 9999) (hr : Inv r) :
    Inv (refStep r k) := by
  rcases refStep_cases r k with ⟨he, _⟩ | ⟨he, _, hgt⟩
  · rw [he]; exact hr
  · rw [he]
    exact ⟨hr.1, Or.inr ⟨by simp only; omega, h1, h2⟩⟩

theorem foldl_refStep_inv : ∀ (l : List Nat) (r : CalcResult),
    (∀ k ∈ l, 1 ≤ k ∧ k ≤ 9999) → Inv r → Inv (l.foldl refStep r) := by
  intro l
  induction l with
  | nil => intro r _ h; exact h
  | cons a l ih =>
    intro r hl hr
    rw [List.foldl_cons]
    have ha := hl a (List.mem_cons_self _ _)
    exact ih _ (fun k hk => hl k (List.mem_cons_of_mem _ hk)) (refStep_inv r a ha.1 ha.2 hr)

theorem inv_initResult : Inv initResult := ⟨rfl, Or.inl ⟨rfl, rfl⟩⟩

theorem inv_refSearch (n : Nat) (hn : n ≤ 9999) : Inv (refSearch n) := by
  unfold refSearch
  apply foldl_refStep_inv _ _ _ inv_initResult
  intro k hk
  have := List.mem_range'_1.1 hk
  omega

theorem inv_bestK_zero_iff (r : CalcResult) (h : Inv r) : r.bestK = 0 ↔ r.maxVal = 0 := by
  rcases h.2 with ⟨h1, h2⟩ | ⟨h1, h2, _⟩
  · simp [h1, h2]
  · constructor
    · intro h0; omega
    · intro h0; exact absurd h0 h1

/-- C11: the result-record invariant `Inv` holds for the initial record `{0, 0, 2}`, is
preserved by every loop iteration of `simple::calc` (`k` in `[1, 9999]`) and by every call
`avx2::processBatch(kStart, batchSize, r)` with `1 ≤ kStart`, `batchSize ≤ 8` and
`kStart + batchSize - 1 ≤ 9999` (both of which return), and holds for the record every search
returns, for which `bestK = 0` exactly when `maxVal = 0`. -/
theorem result_record_invariant :
    Inv ⟨0, 0, 2⟩ ∧
    (∀ (r : CalcResult) (k : Nat), 1 ≤ k → k ≤ 9999 → Inv r →
      ∃ r', simple.step r k = some r' ∧ Inv r') ∧
    (∀ (r : CalcResult) (kStart batchSize : Nat), 1 ≤ kStart → batchSize ≤ 8 →
      kStart + batchSize - 1 ≤ 9999 → Inv r →
      ∃ r', avx2.processBatch kStart batchSize r = some r' ∧ Inv r') ∧
    (∀ r : CalcResult, (simple.calc_ = some r ∨ base_simd.calc_ = some r ∨ avx2.calc_ = some r ∨
        avx512.calc_ = some r ∨ avx2_advanced.calc_ = some r) →
      Inv r ∧ (r.bestK = 0 ↔ r.maxVal = 0)) := by
  refine ⟨inv_initResult, ?_, ?_, ?_⟩
  · intro r k h1 h2 hr
    exact ⟨refStep r k, simple_step_eq r k h1, refStep_inv r k h1 h2 hr⟩
  · intro r kStart bs h1 h8 hmax hr
    refine ⟨(List.range' kStart bs).foldl refStep r, ?_, ?_⟩
    · rw [avx2_processBatch_eq r kStart bs h8 h1 (by omega), foldlM_some_eq_foldl]
    · apply foldl_refStep_inv _ _ _ hr
      intro k hk
      have := List.mem_range'_1.1 hk
      omega
  · intro r h
    have hinv : Inv r := by
      rcases h with h | h | h | h | h
      · rw [registered_eq_refSearch r (Or.inl h)]; exact inv_refSearch 9999 le_rfl
      · rw [registered_eq_refSearch r (Or.inr (Or.inl h))]; exact inv_refSearch 9999 le_rfl
      · rw [registered_eq_refSearch r (Or.inr (Or.inr (Or.inl h)))]
        exact inv_refSearch 9999 le_rfl
      · rw [registered_eq_refSearch r (Or.inr (Or.inr (Or.inr h)))]
        exact inv_refSearch 9999 le_rfl
      · rw [avx2_advanced_calc_eq] at h
        rw [← Option.some.inj h]; exact inv_initResult
    exact ⟨hinv, inv_bestK_zero_iff r hinv⟩

/-! ## Boundary, digit counts, range check, concrete answer -/

theorem not_goodK_upto_ten : ∀ k ∈ List.range' 1 10, avx2.isPandigitalMask k (k * 2) = false := by
  decide

theorem refSearch_ten : refSearch 10 = initResult := by
  unfold refSearch
  apply foldl_refStep_of_not_good
  intro k hk hg
  have := not_goodK_upto_ten k hk
  rw [(isPandigitalMask_iff k (k * 2)).2 hg] at this
  cases this

/-- C12: boundary, no candidate possible: with the upper bound `maxK = 10` in place of 9999 the
loop of `simple::calc` and the batch loops of `base_simd::calc`, `avx2::calc` and `avx512::calc`
return `{maxVal = 0, bestK = 0, bestN = 2}`; for every `k` in `[1, 10]` the concatenation of `k`
and `2k` has at most 4 digits. -/
theorem boundary_no_candidate :
    simple.calcBelow 11 = some ⟨0, 0, 2⟩ ∧ base_simd.calcUpTo 10 = some ⟨0, 0, 2⟩ ∧
      avx2.calcUpTo 10 = some ⟨0, 0, 2⟩ ∧ avx512.calcUpTo 10 = some ⟨0, 0, 2⟩ ∧
      (∀ k, 1 ≤ k → k ≤ 10 →
        (to_string k ++ to_string (k * 2)).length ≤ 4 ∧
          avx2.digitCount k + avx2.digitCount (k * 2) ≤ 4) ∧
      avx2.digitCount 10 + avx2.digitCount 20 = 4 := by
  refine ⟨?_, ?_, ?_, ?_, ?_, by decide⟩
  · rw [simple_calcBelow_eq 10, refSearch_ten]; rfl
  · rw [base_simd_calcUpTo_eq 10 (by norm_num), refSearch_ten]; rfl
  · rw [avx2_calcUpTo_eq 10 (by norm_num), refSearch_ten]; rfl
  · rw [avx512_calcUpTo_eq 10 (by norm_num), refSearch_ten]; rfl
  · intro k h1 h10
    interval_cases k <;> decide

theorem digitCount_sum_of_panList (p1 p2 : Nat) (h1 : 0 < p1) (h2 : 0 < p2)
    (h : PanList (Nat.digits 10 p1 ++ Nat.digits 10 p2)) :
    avx2.digitCount p1 + avx2.digitCount p2 = 9 := by
  rw [digitCount_eq p1 h1, digitCount_eq p2 h2]
  have := h.length_eq
  simpa using this

/-- C14: the validators reject unless the digit counts sum to 9: for positive `p1`, `p2`, if
`avx2::isPandigitalMask(p1, p2)` returns true, or `avx512::maskPandigitalScalar(value, p1, p2)`
returns true, then `digitCount(p1) + digitCount(p2) = 9`. -/
theorem mask_validators_force_nine_digits (value p1 p2 : Nat) (h1 : 0 < p1) (h2 : 0 < p2)
    (h : avx2.isPandigitalMask p1 p2 = true ∨ avx512.maskPandigitalScalar value p1 p2 = true) :
    avx2.digitCount p1 + avx2.digitCount p2 = 9 := by
  rcases h with h | h
  · exact digitCount_sum_of_panList p1 p2 h1 h2 ((isPandigitalMask_iff p1 p2).1 h)
  · exact digitCount_sum_of_panList p1 p2 h1 h2 ((maskPandigitalScalar_iff value p1 p2).1 h).1

theorem mask_validators_force_nine_digits_witness :
    (0 < 9327 ∧ 0 < 18654 ∧
      (avx2.isPandigitalMask 9327 18654 = true ∨
        avx512.maskPandigitalScalar 932718654 9327 18654 = true)) ∧
      avx2.digitCount 9327 + avx2.digitCount 18654 = 9 :=
  ⟨⟨by decide, by decide, Or.inl (by decide)⟩,
    mask_validators_force_nine_digits 932718654 9327 18654 (by decide) (by decide)
      (Or.inl (by decide))⟩

/-- C18: the range check is the length test: for every `k` in `[1, 9999]`,
`avx2::concatProducts(k, 2k)` returns a value `v`, and `100000000 ≤ v ≤ 999999999` holds if and
only if `digitCount(k) + digitCount(2k) = 9`, if and only if the string
`to_string(k) + to_string(2k)` has length 9. -/
theorem range_check_iff_length_test (k : Nat) (h1 : 1 ≤ k) (hmax : k ≤ 9999) :
    ∃ v, avx2.concatProducts k (k * 2) = some v ∧
      ((100000000 ≤ v ∧ v ≤ 999999999) ↔ avx2.digitCount k + avx2.digitCount (k * 2) = 9) ∧
      (avx2.digitCount k + avx2.digitCount (k * 2) = 9 ↔
        (to_string k ++ to_string (k * 2)).length = 9) := by
  have hr := catK_range k hmax
  have hv : catK k < 2 ^ 31 := lt_of_le_of_lt hr.2 (by norm_num)
  refine ⟨catK k, concatProducts_eq k (k * 2) (by omega) hv (by omega), ?_, ?_⟩
  · rw [digitCount_eq k (by omega), digitCount_eq (k * 2) (by omega)]
    constructor
    · intro hb
      by_contra hne
      have := concat_not_nine_digits k (k * 2) (by omega) hne
      unfold catK at hb
      omega
    · intro h9
      exact concat_nine_digits k (k * 2) (by omega) h9
  · rw [digitCount_eq k (by omega), digitCount_eq (k * 2) (by omega),
      concat_string_length k (by omega)]

theorem range_check_iff_length_test_witness :
    (1 ≤ 9327 ∧ 9327 ≤ 9999) ∧
    ∃ v, avx2.concatProducts 9327 (9327 * 2) = some v ∧
      ((100000000 ≤ v ∧ v ≤ 999999999) ↔
        avx2.digitCount 9327 + avx2.digitCount (9327 * 2) = 9) ∧
      (avx2.digitCount 9327 + avx2.digitCount (9327 * 2) = 9 ↔
        (to_string 9327 ++ to_string (9327 * 2)).length = 9) :=
  ⟨⟨by decide, by decide⟩, range_check_iff_length_test 9327 (by decide) (by decide)⟩

theorem validK_9327 : ValidK 9327 := (validK_iff 9327).2 ⟨by norm_num, by norm_num, goodK_9327⟩

theorem decimalConcat_9327 : decimalConcat 9327 (2 * 9327) = 932718654 := by
  rw [decimalConcat_double]; exact catK_9327

/-- C20: the concrete answer: `simple::calc()` returns exactly
`{maxVal = 932718654, bestK = 9327, bestN = 2}`; 932718654 is the concatenation of 9327 and
18654, it is 1-9 pandigital, and no valid `k` in `[1, 9999]` gives a larger concatenation. -/
theorem simple_calc_concrete :
    simple.calc_ = some ⟨932718654, 9327, 2⟩ ∧
      decimalConcat 9327 18654 = 932718654 ∧ ValidK 9327 ∧
      ∀ k, ValidK k → decimalConcat k (2 * k) ≤ 932718654 := by
  refine ⟨by rw [simple_calc_eq, refSearch_9999], decimalConcat_9327, validK_9327, ?_⟩
  intro k hk
  rw [validK_iff] at hk
  rw [decimalConcat_double]
  have h := (refSearch_spec 9999).2.1 k hk.1 hk.2.1 hk.2.2
  rw [refSearch_9999] at h
  exact h

/-! ## The harness -/

theorem differs_eq_false_iff (a b : CalcResult) : main.differs a b = false ↔ a = b := by
  unfold main.differs
  cases a with
  | mk a1 a2 a3 =>
    cases b with
    | mk b1 b2 b3 =>
      simp only [Bool.or_eq_false_iff, bne_eq_false_iff_eq, CalcResult.mk.injEq, and_assoc]

theorem adjacent_find_cons_eq_length (a : CalcResult) : ∀ l : List CalcResult,
    main.adjacent_find main.differs (a :: l) = (a :: l).length ↔ ∀ x ∈ l, x = a := by
  intro l
  induction l generalizing a with
  | nil => simp [main.adjacent_find]
  | cons b rest ih =>
    unfold main.adjacent_find
    by_cases hd : main.differs a b = true
    · rw [if_pos hd]
      have hne : a ≠ b := fun h => by
        have := (differs_eq_false_iff a b).2 h
        rw [hd] at this; cases this
      constructor
      · intro h; simp at h
      · intro h
        exact absurd (h b (List.mem_cons_self _ _)).symm hne
    · rw [if_neg hd]
      have hab : a = b := (differs_eq_false_iff a b).1 (by simpa using hd)
      subst hab
      have h1 : main.adjacent_find main.differs (a :: rest) + 1 = (a :: a :: rest).length ↔
          main.adjacent_find main.differs (a :: rest) = (a :: rest).length := by
        simp only [List.length_cons]; omega
      rw [h1, ih a]
      constructor
      · intro h x hx
        rcases List.mem_cons.1 hx with hx | hx
        · exact hx
        · exact h x hx
      · intro h x hx
        exact h x (List.mem_cons_of_mem _ hx)

theorem range_map_succ (func : Nat → CalcResult) (n : Nat) :
    (List.range (n + 1)).map func = func 0 :: (List.range n).map (fun i => func (i + 1)) := by
  rw [List.range_succ_eq_map, List.map_cons, List.map_map]
  rfl

/-- C13: the harness consistency flag: for every `N ≥ 1` and every sequence `func 0, ...,
func (N-1)` of records collected by `benchmark`, `benchmark` returns the first run's record
together with the flag `allSame`; the flag is true if and only if all `N` records are pairwise
equal in `(maxVal, bestK, bestN)`; and when it is true the reported record equals every run's
record. -/
theorem benchmark_flag (N : Nat) (hN : 1 ≤ N) (func : Nat → CalcResult) :
    ∃ allSame, main.benchmark func N = some (func 0, allSame) ∧
      (allSame = true ↔ ∀ i j, i < N → j < N →
        (func i).maxVal = (func j).maxVal ∧ (func i).bestK = (func j).bestK ∧
          (func i).bestN = (func j).bestN) ∧
      (allSame = true → ∀ i, i < N → func i = func 0) := by
  obtain ⟨n, rfl⟩ : ∃ n, N = n + 1 := ⟨N - 1, by omega⟩
  have hall : (main.adjacent_find main.differs ((List.range (n + 1)).map func) ==
      ((List.range (n + 1)).map func).length) = true ↔ ∀ i, i < n + 1 → func i = func 0 := by
    rw [beq_iff_eq, range_map_succ, adjacent_find_cons_eq_length]
    constructor
    · intro h i hi
      rcases Nat.eq_zero_or_pos i with h0 | h0
      · rw [h0]
      · apply h
        rw [List.mem_map]
        exact ⟨i - 1, List.mem_range.2 (by omega), by congr 1; omega⟩
    · intro h x hx
      obtain ⟨i, hi, rfl⟩ := List.mem_map.1 hx
      exact h (i + 1) (by have := List.mem_range.1 hi; omega)
  refine ⟨main.adjacent_find main.differs ((List.range (n + 1)).map func) ==
      ((List.range (n + 1)).map func).length, ?_, ?_, hall.1⟩
  · unfold main.benchmark
    simp only []
    rw [range_map_succ]
    simp only [List.getElem?_cons_zero]
  · rw [hall]
    constructor
    · intro h i j hi hj
      rw [h i hi, h j hj]
      exact ⟨rfl, rfl, rfl⟩
    · intro h i hi
      obtain ⟨e1, e2, e3⟩ := h i 0 hi (by omega)
      cases hfi : func i with
      | mk a1 a2 a3 =>
        cases hf0 : func 0 with
        | mk b1 b2 b3 =>
          rw [hfi, hf0] at e1 e2 e3
          simp only at e1 e2 e3
          rw [e1, e2, e3]

theorem benchmark_flag_witness :
    1 ≤ 5 ∧
    ∃ allSame, main.benchmark (fun _ => ⟨932718654, 9327, 2⟩) 5 =
        some ((fun _ => (⟨932718654, 9327, 2⟩ : CalcResult)) 0, allSame) ∧
      (allSame = true ↔ ∀ i j, i < 5 → j < 5 →
        ((fun _ => (⟨932718654, 9327, 2⟩ : CalcResult)) i).maxVal =
            ((fun _ => (⟨932718654, 9327, 2⟩ : CalcResult)) j).maxVal ∧
          ((fun _ => (⟨932718654, 9327, 2⟩ : CalcResult)) i).bestK =
            ((fun _ => (⟨932718654, 9327, 2⟩ : CalcResult)) j).bestK ∧
          ((fun _ => (⟨932718654, 9327, 2⟩ : CalcResult)) i).bestN =
            ((fun _ => (⟨932718654, 9327, 2⟩ : CalcResult)) j).bestN) ∧
      (allSame = true → ∀ i, i < 5 →
        (fun _ => (⟨932718654, 9327, 2⟩ : CalcResult)) i =
          (fun _ => (⟨932718654, 9327, 2⟩ : CalcResult)) 0) :=
  ⟨by decide, benchmark_flag 5 (by decide) (fun _ => ⟨932718654, 9327, 2⟩)⟩

/-! ## The shift of `avx512::calc` -/

theorem avx512_concatLanes_eq_shiftLanes (kArr : List Nat) :
    avx512.concatLanes kArr =
      add_epi32 (mullo_epi32 kArr (avx512.shiftLanes (mullo_epi32 kArr (List.replicate 16 2))))
        (mullo_epi32 kArr (List.replicate 16 2)) := rfl

theorem avx512_shiftLanes_get (p2 : List Nat) (i x : Nat) (h : p2[i]? = some x) (hi : i < 16) :
    (avx512.shiftLanes p2)[i]? = some (avx512.laneShift x) := by
  unfold avx512.shiftLanes
  simp only []
  have m1 := avx512_cmp_get _ _ i _ _ h (replicate_get 16 i 10 hi)
  have m2 := avx512_cmp_get _ _ i _ _ h (replicate_get 16 i 100 hi)
  have m3 := avx512_cmp_get _ _ i _ _ h (replicate_get 16 i 1000 hi)
  have m4 := avx512_cmp_get _ _ i _ _ h (replicate_get 16 i 10000 hi)
  have s4 := avx512_blend_get _ _ _ i _ _ _ m4 (replicate_get 16 i 100000 hi)
    (replicate_get 16 i 10000 hi)
  have s3 := avx512_blend_get _ _ _ i _ _ _ m3 s4 (replicate_get 16 i 1000 hi)
  have s2 := avx512_blend_get _ _ _ i _ _ _ m2 s3 (replicate_get 16 i 100 hi)
  rw [avx512_blend_get _ _ _ i _ _ _ m1 s2 (replicate_get 16 i 10 hi)]
  rfl

/-- C15: in `avx512::calc` the threshold/blend sequence selects the correct shift: in every lane
whose `p2` lies in `[1, 99999]` the vector `shift` holds `10 ^ d` for the number `d` of decimal
digits of `p2` (10 below 10, 100 below 100, 1000 below 1000, 10000 below 10000, else 100000); so
in every lane whose `k` lies in `[1, 9999]`, `concatArr` holds `k * 10 ^ d + 2k`, the decimal
concatenation of `k` and `2k`. -/
theorem avx512_shift_correct :
    (∀ kArr : List Nat, avx512.concatLanes kArr =
      add_epi32 (mullo_epi32 kArr (avx512.shiftLanes (mullo_epi32 kArr (List.replicate 16 2))))
        (mullo_epi32 kArr (List.replicate 16 2))) ∧
    (∀ (p2 : List Nat) (i x : Nat), p2[i]? = some x → i < 16 → 1 ≤ x → x ≤ 99999 →
      (avx512.shiftLanes p2)[i]? = some (10 ^ avx2.digitCount x) ∧
        10 ^ avx2.digitCount x =
          (if x < 10 then 10 else if x < 100 then 100 else if x < 1000 then 1000
            else if x < 10000 then 10000 else 100000)) ∧
    (∀ (kArr : List Nat) (i k : Nat), kArr[i]? = some k → i < 16 → 1 ≤ k → k ≤ 9999 →
      (avx512.concatLanes kArr)[i]? = some (k * 10 ^ avx2.digitCount (2 * k) + 2 * k) ∧
        k * 10 ^ avx2.digitCount (2 * k) + 2 * k = decimalConcat k (2 * k)) := by
  refine ⟨avx512_concatLanes_eq_shiftLanes, ?_, ?_⟩
  · intro p2 i x h hi h1 h5
    rw [avx512_shiftLanes_get p2 i x h hi, avx512_laneShift_eq x h1 (by omega),
      digitCount_eq x (by omega)]
    exact ⟨rfl, pow_digits_length_cases x h1 (by omega)⟩
  · intro kArr i k h hi h1 hmax
    have hr := catK_range k hmax
    rw [avx512_concatLanes_get kArr i k h hi, Nat.mul_comm 2 k,
      digitCount_eq (k * 2) (by omega), decimalConcat_eq]
    have hmod : k * 2 % 2 ^ 32 = k * 2 := Nat.mod_eq_of_lt (by omega)
    rw [hmod, avx512_laneShift_eq _ (by omega) (by omega)]
    have hle : k * 10 ^ (Nat.digits 10 (k * 2)).length + k * 2 ≤ 999919998 := hr.2
    generalize k * 10 ^ (Nat.digits 10 (k * 2)).length = A at hle ⊢
    refine ⟨?_, rfl⟩
    rw [Nat.mod_eq_of_lt (by omega : A < 2 ^ 32), Nat.mod_eq_of_lt (by omega)]

/-! ## The shift and the digit mask of `avx2_advanced::calc` -/

theorem avx2_advanced_laneShift_eq (x : Nat) (hx : x < 2 ^ 31) :
    avx2_advanced.laneShift x = if x < 10000 then 10000 else 100000 := by
  unfold avx2_advanced.laneShift avx2_advanced.laneCmpGt
  simp only [slt32_of_lt x _ hx (by norm_num : (10 : Nat) < 2 ^ 31),
    slt32_of_lt x _ hx (by norm_num : (100 : Nat) < 2 ^ 31),
    slt32_of_lt x _ hx (by norm_num : (1000 : Nat) < 2 ^ 31),
    slt32_of_lt x _ hx (by norm_num : (10000 : Nat) < 2 ^ 31), decide_eq_true_eq]
  by_cases h4 : x < 10000
  · by_cases h3 : x < 1000
    · by_cases h2 : x < 100
      · by_cases h1 : x < 10
        · simp only [h1, h2, h3, h4, if_true]; decide
        · simp only [h1, h2, h3, h4, if_true, if_false]; decide
      · have h1 : ¬ x < 10 := by omega
        simp only [h1, h2, h3, h4, if_true, if_false]; decide
    · have h1 : ¬ x < 10 := by omega
      have h2 : ¬ x < 100 := by omega
      simp only [h1, h2, h3, h4, if_true, if_false]; decide
  · have h1 : ¬ x < 10 := by omega
    have h2 : ¬ x < 100 := by omega
    have h3 : ¬ x < 1000 := by omega
    simp only [h1, h2, h3, h4, if_false]; decide

/-- C16 (what the code does): in `avx2_advanced::calc` the four blends run from the threshold 10
up to the threshold 10000, so the last one that applies wins: every lane with `p2 < 10000` ends
with the shift 10000 and every other non-negative lane with 100000.  For the first batch
(`k = 1..8`, `p2 = 2..16`) the vector `shift` is 10000 in every lane and the vector `concat` is
`10002, 20004, ...`, where the number of digits of `p2 = 2` asks for the shift 10 and the
concatenation of 1 and 2 is 12. -/
theorem avx2_advanced_shift_last_blend_wins :
    (∀ (p2 : List Nat) (i x : Nat), p2[i]? = some x → i < 8 → x < 2 ^ 31 →
      (avx2_advanced.shiftLanes p2)[i]? = some (if x < 10000 then 10000 else 100000)) ∧
    paddedBatch 8 8 1 = [1, 2, 3, 4, 5, 6, 7, 8] ∧
    avx2_advanced.shiftLanes (mullo_epi32 (paddedBatch 8 8 1) (avx2_advanced.set1_epi32 2)) =
      List.replicate 8 10000 ∧
    (avx2_advanced.vectorPart (paddedBatch 8 8 1)).1 =
      [10002, 20004, 30006, 40008, 50010, 60012, 70014, 80016] ∧
    10 ^ avx2.digitCount 2 = 10 ∧ decimalConcat 1 2 = 12 := by
  refine ⟨?_, by decide, by decide, by decide, by decide, ?_⟩
  · intro p2 i x h hi hx
    rw [shiftLanes_get p2 i x hi h, avx2_advanced_laneShift_eq x hx]
  · rw [decimalConcat_eq, ← digitCount_eq 2 (by norm_num)]
    decide

theorem laneDigitMask_testBit : ∀ (n m x i : Nat),
    (avx2_advanced.laneDigitMask n m x).testBit i = true ↔
      (m.testBit i = true ∨ ∃ j, j < n ∧ x / 10 ^ j % 10 = i) := by
  intro n
  induction n with
  | zero => intro m x i; simp [avx2_advanced.laneDigitMask]
  | succ n ih =>
    intro m x i
    unfold avx2_advanced.laneDigitMask
    rw [ih, testBit_or_one_shiftLeft]
    simp only [Bool.or_eq_true, decide_eq_true_eq]
    constructor
    · rintro ((h | h) | ⟨j, hj, h⟩)
      · exact Or.inl h
      · exact Or.inr ⟨0, by omega, by simpa using h⟩
      · refine Or.inr ⟨j + 1, by omega, ?_⟩
        rw [pow_succ, Nat.mul_comm, ← Nat.div_div_eq_div_mul]
        exact h
    · rintro (h | ⟨j, hj, h⟩)
      · exact Or.inl (Or.inl h)
      · rcases Nat.eq_zero_or_pos j with h0 | h0
        · subst h0
          exact Or.inl (Or.inr (by simpa using h))
        · refine Or.inr ⟨j - 1, by omega, ?_⟩
          have hj' : j = (j - 1) + 1 := by omega
          rw [hj', pow_succ, Nat.mul_comm, ← Nat.div_div_eq_div_mul] at h
          exact h

/-- C17 (what the code does): bit `i` of a lane of `compute_digit_mask(num)` is set exactly when
`i` is one of the five low-order decimal digits of the lane value, leading zeros included; so a
value below 10000 always has bit 0 set.  The lanes 1, 12, 123, 1234, 9327 contain no digit 0 and
get the masks 3, 7, 15, 31, 653, all odd; for `k = 9327` the digits of `k` and `2k` are a
permutation of 1..9 and the combined mask is `0x3FF`; for no `k` below 10000 is the combined mask
`0x3FE`. -/
theorem compute_digit_mask_counts_leading_zeros :
    (∀ (num : List Nat) (i n b : Nat), num[i]? = some n → i < 8 → n < 2 ^ 31 →
      ∃ m, (avx2_advanced.compute_digit_mask num)[i]? = some m ∧
        (m.testBit b = true ↔ ∃ j, j < 5 ∧ n / 10 ^ j % 10 = b) ∧
        (n < 10000 → m.testBit 0 = true)) ∧
    avx2_advanced.compute_digit_mask [1, 12, 123, 1234, 12345, 99999, 10203, 9327] =
      [3, 7, 15, 31, 62, 512, 15, 653] ∧
    to_string 9327 = ['9', '3', '2', '7'] ∧ Nat.testBit 653 0 = true ∧
    avx2.isPandigitalMask 9327 18654 = true ∧ avx2_advanced.laneMaskVec 9327 = 0x3FF ∧
    (∀ (kArr : List Nat) (i k : Nat), kArr[i]? = some k → i < 8 → k < 10000 →
      ∃ m, (avx2_advanced.or_si256 (avx2_advanced.compute_digit_mask kArr)
          (avx2_advanced.compute_digit_mask
            (mullo_epi32 kArr (avx2_advanced.set1_epi32 2))))[i]? = some m ∧
        m ≠ avx2_advanced.FULL_MASK) := by
  refine ⟨?_, by decide, by decide, by decide, by decide, by decide, ?_⟩
  · intro num i n b h hi hn
    refine ⟨_, compute_digit_mask_get num i n hi h hn, ?_, laneDigitMask_bit0 n⟩
    rw [laneDigitMask_testBit]
    simp
  · intro kArr i k h hi hk
    have hp2 := mullo_get2 kArr _ i k 2 h (set1_get 2 i hi)
    have hm1 := compute_digit_mask_get kArr i k hi h (by omega)
    have hm2 := compute_digit_mask_get _ i _ hi hp2 (by omega)
    refine ⟨_, or_get _ _ i _ _ hm1 hm2, ?_⟩
    intro heq
    have := congrArg (fun m => Nat.testBit m 0) heq
    simp only [Nat.testBit_or, laneDigitMask_bit0 k hk, Bool.true_or,
      avx2_advanced.FULL_MASK] at this
    revert this
    decide

/-! ## Monotone update -/

theorem Follows.refl (r : CalcResult) : Follows r r :=
  ⟨le_rfl, fun h => absurd rfl h, rfl⟩

theorem Follows.trans {a b c : CalcResult} (h1 : Follows a b) (h2 : Follows b c) :
    Follows a c := by
  obtain ⟨m1, k1, n1⟩ := h1
  obtain ⟨m2, k2, n2⟩ := h2
  refine ⟨le_trans m1 m2, fun hk => ?_, n2.trans n1⟩
  by_cases hb : b.bestK = a.bestK
  · have : c.bestK ≠ b.bestK := fun h => hk (h.trans hb)
    exact lt_of_le_of_lt m1 (k2 this)
  · exact lt_of_lt_of_le (k1 hb) m2

theorem Follows.update (r : CalcResult) (v k : Nat) (h : v > r.maxVal) :
    Follows r { r with maxVal := v, bestK := k } :=
  ⟨Nat.le_of_lt h, fun _ => h, rfl⟩

/-- A loop whose body only moves the state along a reflexive, transitive relation moves it
along that relation. -/
theorem forLoop_rel {σ : Type} (R : σ → σ → Prop) (hrefl : ∀ s, R s s)
    (htrans : ∀ a b c, R a b → R b c → R a c) (stop stride : Nat) (body : σ → Nat → Option σ)
    (hbody : ∀ s i s', body s i = some s' → R s s') :
    ∀ (fuel i : Nat) (s s' : σ), forLoop stop stride body fuel i s = some s' → R s s' := by
  intro fuel
  induction fuel with
  | zero =>
    intro i s s' h
    unfold forLoop at h
    split at h
    · cases h
    · cases h; exact hrefl s
  | succ fuel ih =>
    intro i s s' h
    unfold forLoop at h
    split at h
    · cases hb : body s i with
      | none => rw [hb] at h; cases h
      | some s1 =>
        rw [hb] at h
        exact htrans _ _ _ (hbody s i s1 hb) (ih _ _ _ h)
    · cases h; exact hrefl s

theorem simple_step_follows (r : CalcResult) (k : Nat) (r' : CalcResult)
    (h : simple.step r k = some r') : Follows r r' := by
  unfold simple.step at h
  simp only [] at h
  split at h
  · cases h; exact Follows.refl r
  · split at h
    · cases h
    · cases h; exact Follows.refl r
    · split at h
      · cases h
      · split at h
        · cases h; exact Follows.update r _ _ (by assumption)
        · cases h; exact Follows.refl r

theorem avx2_lane_follows (kArr prod1 prod2 : List Nat) (r : CalcResult) (i : Nat)
    (r' : CalcResult) (h : avx2.lane kArr prod1 prod2 r i = some r') : Follows r r' := by
  unfold avx2.lane at h
  split at h
  · split at h
    · split at h
      · cases h
      · split at h
        · cases h; exact Follows.refl r
        · split at h
          · cases h
            rename_i hc
            exact Follows.update r _ _ hc.2
          · cases h; exact Follows.refl r
    · cases h
  · cases h

theorem avx2_processBatch_follows (r : CalcResult) (kStart bs : Nat) (r' : CalcResult)
    (h : avx2.processBatch kStart bs r = some r') : Follows r r' := by
  unfold avx2.processBatch at h
  split at h
  · cases h
  · exact forLoop_rel Follows Follows.refl (fun _ _ _ => Follows.trans) _ _ _
      (fun s i s' hs => avx2_lane_follows _ _ _ s i s' hs) _ _ _ _ h

theorem avx512_lane_follows (kArr concatArr : List Nat) (r : CalcResult) (i : Nat)
    (r' : CalcResult) (h : avx512.lane kArr concatArr r i = some r') : Follows r r' := by
  unfold avx512.lane at h
  split at h
  · split at h
    · cases h
    · split at h
      · simp only [] at h
        split at h
        · cases h
          rename_i hc
          exact Follows.update r _ _ hc.2
        · cases h; exact Follows.refl r
      · cases h
  · cases h

theorem avx512_batch_follows (MAX_K : Nat) (r : CalcResult) (k : Nat) (r' : CalcResult)
    (h : avx512.batch MAX_K r k = some r') : Follows r r' := by
  unfold avx512.batch at h
  exact forLoop_rel Follows Follows.refl (fun _ _ _ => Follows.trans) _ _ _
    (fun s i s' hs => avx512_lane_follows _ _ s i s' hs) _ _ _ _ h

theorem avx512_batch_eq (n : Nat) (hn : n ≤ 9999) (r : CalcResult) (k : Nat) (hk1 : 1 ≤ k)
    (hkn : k ≤ n) :
    avx512.batch n r k = some ((List.range' k (min 16 (n - k + 1))).foldl refStep r) := by
  unfold avx512.batch
  simp only []
  rw [forLoop_lanes (min 16 (n - k + 1)) k _ (fun r k => some (refStep r k)) _ 0 r (by omega)]
  · rw [foldlM_some_eq_foldl]; rfl
  · intro r' j _ hj
    exact avx512_lane_eq r' k _ j hj (by omega) hk1 (by omega)

/-- C19: monotone update.  Whenever `avx2::processBatch(kStart, batchSize, r)` (with
`batchSize ≤ 8`), one iteration of the loop of `simple::calc`, one batch or one lane iteration of
`avx512::calc` turns the record `r` into `r'`, then `r'.maxVal ≥ r.maxVal` and `r'.bestK`
differs from `r.bestK` only if `r'.maxVal > r.maxVal`; inside the search range each of them does
return a record; and each search starts from `{maxVal = 0, bestK = 0, bestN = 2}`. -/
theorem monotone_update :
    (∀ (r : CalcResult) (kStart batchSize : Nat) (r' : CalcResult), batchSize ≤ 8 →
      avx2.processBatch kStart batchSize r = some r' →
      r'.maxVal ≥ r.maxVal ∧ (r'.bestK ≠ r.bestK → r'.maxVal > r.maxVal)) ∧
    (∀ (r : CalcResult) (k : Nat) (r' : CalcResult), simple.step r k = some r' →
      r'.maxVal ≥ r.maxVal ∧ (r'.bestK ≠ r.bestK → r'.maxVal > r.maxVal)) ∧
    (∀ (MAX_K : Nat) (r : CalcResult) (k : Nat) (r' : CalcResult),
      avx512.batch MAX_K r k = some r' →
      r'.maxVal ≥ r.maxVal ∧ (r'.bestK ≠ r.bestK → r'.maxVal > r.maxVal)) ∧
    (∀ (kArr concatArr : List Nat) (r : CalcResult) (i : Nat) (r' : CalcResult),
      avx512.lane kArr concatArr r i = some r' →
      r'.maxVal ≥ r.maxVal ∧ (r'.bestK ≠ r.bestK → r'.maxVal > r.maxVal)) ∧
    (∀ (r : CalcResult) (kStart batchSize : Nat), 1 ≤ kStart → batchSize ≤ 8 →
      kStart + batchSize ≤ 10000 → ∃ r', avx2.processBatch kStart batchSize r = some r') ∧
    (∀ (r : CalcResult) (k : Nat), 1 ≤ k → ∃ r', simple.step r k = some r') ∧
    (∀ (r : CalcResult) (k : Nat), 1 ≤ k → k ≤ 9999 → ∃ r', avx512.batch 9999 r k = some r') ∧
    (simple.calc_ = forLoop 10000 1 simple.step 10000 1 ⟨0, 0, 2⟩ ∧
      avx2.calc_ = forLoop 10000 8
        (fun result k => avx2.processBatch k (min 8 (9999 - k + 1)) result) 10000 1 ⟨0, 0, 2⟩ ∧
      avx512.calc_ = forLoop 10000 16 (avx512.batch 9999) 10000 1 ⟨0, 0, 2⟩) := by
  refine ⟨?_, ?_, ?_, ?_, ?_, ?_, ?_, ⟨rfl, rfl, rfl⟩⟩
  · intro r kStart bs r' _ h
    have := avx2_processBatch_follows r kStart bs r' h
    exact ⟨this.1, this.2.1⟩
  · intro r k r' h
    have := simple_step_follows r k r' h
    exact ⟨this.1, this.2.1⟩
  · intro n r k r' h
    have := avx512_batch_follows n r k r' h
    exact ⟨this.1, this.2.1⟩
  · intro kArr concatArr r i r' h
    have := avx512_lane_follows kArr concatArr r i r' h
    exact ⟨this.1, this.2.1⟩
  · intro r kStart bs h1 h8 hmax
    exact ⟨_, by rw [avx2_processBatch_eq r kStart bs h8 h1 hmax, foldlM_some_eq_foldl]⟩
  · intro r k h1
    exact ⟨_, simple_step_eq r k h1⟩
  · intro r k h1 hmax
    exact ⟨_, avx512_batch_eq 9999 le_rfl r k h1 hmax⟩

/-! ## Monotonicity of the concatenation and absence of overflow -/

theorem catK_strictMono (k1 k2 : Nat) (h12 : k1 < k2) : catK k1 < catK k2 := by
  unfold catK
  have hlen : (Nat.digits 10 (k1 * 2)).length ≤ (Nat.digits 10 (k2 * 2)).length :=
    Nat.le_digits_len_le 10 _ _ (by omega)
  have hp : 10 ^ (Nat.digits 10 (k1 * 2)).length ≤ 10 ^ (Nat.digits 10 (k2 * 2)).length :=
    Nat.pow_le_pow_right (by norm_num) hlen
  calc k1 * 10 ^ (Nat.digits 10 (k1 * 2)).length + k1 * 2
      ≤ k2 * 10 ^ (Nat.digits 10 (k2 * 2)).length + k1 * 2 :=
        Nat.add_le_add_right (Nat.mul_le_mul (Nat.le_of_lt h12) hp) _
    _ < k2 * 10 ^ (Nat.digits 10 (k2 * 2)).length + k2 * 2 := by omega

theorem concatProducts_double (k : Nat) (h1 : 1 ≤ k) (hmax : k ≤ 9999) :
    avx2.concatProducts k (2 * k) = some (catK k) := by
  have hr := catK_range k hmax
  have hv : catK k < 2 ^ 31 := lt_of_le_of_lt hr.2 (by norm_num)
  rw [Nat.mul_comm 2 k]
  exact concatProducts_eq k (k * 2) (by omega) hv (by omega)

theorem refSearch_bestK_largest (n k : Nat) (h1 : 1 ≤ k) (hn : k ≤ n) (hg : GoodK k) :
    k ≤ (refSearch n).bestK ∧ GoodK (refSearch n).bestK ∧
      (refSearch n).maxVal = catK (refSearch n).bestK := by
  have hle := (refSearch_spec n).2.1 k h1 hn hg
  have hb := hg.bounds
  obtain ⟨_, _, h3, h4⟩ := refSearch_maxVal_ne_zero (n := n) (by omega)
  refine ⟨?_, h3, h4⟩
  by_contra hc
  have := catK_strictMono (refSearch n).bestK k (by omega)
  omega

/-- C21: the concatenation is strictly increasing in `k`: for `1 ≤ k1 < k2 ≤ 9999`,
`avx2::concatProducts(k1, 2*k1)` and `avx2::concatProducts(k2, 2*k2)` return values `v1 < v2`;
hence two `k` in the range with the same concatenation are equal, the concatenation of the
largest valid `k` bounds that of every valid `k`, and the `bestK` that `avx2::calc` returns is
the largest valid `k`, at which `maxVal` is attained. -/
theorem concat_strictly_increasing :
    (∀ k1 k2 : Nat, 1 ≤ k1 → k1 < k2 → k2 ≤ 9999 →
      ∃ v1 v2, avx2.concatProducts k1 (2 * k1) = some v1 ∧
        avx2.concatProducts k2 (2 * k2) = some v2 ∧ v1 < v2) ∧
    (∀ k1 k2 : Nat, 1 ≤ k1 → k1 ≤ 9999 → 1 ≤ k2 → k2 ≤ 9999 →
      avx2.concatProducts k1 (2 * k1) = avx2.concatProducts k2 (2 * k2) → k1 = k2) ∧
    (∀ kmax : Nat, ValidK kmax → (∀ k, ValidK k → k ≤ kmax) →
      ∀ k, ValidK k → decimalConcat k (2 * k) ≤ decimalConcat kmax (2 * kmax)) ∧
    (∀ r : CalcResult, avx2.calc_ = some r →
      ValidK r.bestK ∧ (∀ k, ValidK k → k ≤ r.bestK) ∧
        avx2.concatProducts r.bestK (2 * r.bestK) = some r.maxVal) := by
  refine ⟨?_, ?_, ?_, ?_⟩
  · intro k1 k2 h1 h12 h2
    exact ⟨catK k1, catK k2, concatProducts_double k1 h1 (by omega),
      concatProducts_double k2 (by omega) h2, catK_strictMono k1 k2 h12⟩
  · intro k1 k2 h1 hm1 h2 hm2 heq
    rw [concatProducts_double k1 h1 hm1, concatProducts_double k2 h2 hm2] at heq
    have hc := Option.some.inj heq
    rcases Nat.lt_trichotomy k1 k2 with h | h | h
    · have := catK_strictMono k1 k2 h; omega
    · exact h
    · have := catK_strictMono k2 k1 h; omega
  · intro kmax _ hlargest k hk
    rw [decimalConcat_double, decimalConcat_double]
    rcases Nat.eq_or_lt_of_le (hlargest k hk) with h | h
    · rw [h]
    · exact Nat.le_of_lt (catK_strictMono k kmax h)
  · intro r hr
    rw [avx2_calc_eq] at hr
    rw [← Option.some.inj hr]
    have hk0 := (validK_iff 9327).1 validK_9327
    obtain ⟨_, hg, hmv⟩ := refSearch_bestK_largest 9999 9327 hk0.1 hk0.2.1 hk0.2.2
    have hb := hg.bounds
    obtain ⟨b1, b2, _, _⟩ := refSearch_maxVal_ne_zero (n := 9999) (by rw [hmv]; omega)
    refine ⟨(validK_iff _).2 ⟨b1, b2, hg⟩, ?_, ?_⟩
    · intro k hk
      rw [validK_iff] at hk
      exact (refSearch_bestK_largest 9999 k hk.1 hk.2.1 hk.2.2).1
    · rw [concatProducts_double _ b1 b2, hmv]

/-- C22: no overflow and no out-of-bounds table index inside the search range: for every `k` in
`[1, 9999]`, `digitCount(2k) ≤ 5`, the index into the 10-entry table `POW10` is in bounds and
the entry is `10 ^ digitCount(2k)`, `k * POW10[digitCount(2k)] + 2k ≤ 999919998 < 2 ^ 31`,
`avx2::concatProducts(k, 2k)` returns exactly that number, and in a lane of `avx512::calc`
holding `k` the wrapping products and the wrapping sum are the exact values `2k`,
`k * 10 ^ digitCount(2k)` and `k * 10 ^ digitCount(2k) + 2k`. -/
theorem no_overflow_in_search_range (k : Nat) (h1 : 1 ≤ k) (hmax : k ≤ 9999) :
    avx2.digitCount (2 * k) ≤ 5 ∧
    avx2.POW10.length = 10 ∧
    avx2.POW10[avx2.digitCount (2 * k)]? = some (10 ^ avx2.digitCount (2 * k)) ∧
    k * 10 ^ avx2.digitCount (2 * k) + 2 * k ≤ 999919998 ∧ 999919998 < 2 ^ 31 ∧
    avx2.concatProducts k (2 * k) = some (k * 10 ^ avx2.digitCount (2 * k) + 2 * k) ∧
    (∀ (kArr : List Nat) (i : Nat), kArr[i]? = some k → i < 16 →
      (mullo_epi32 kArr (List.replicate 16 2))[i]? = some (2 * k) ∧
      (mullo_epi32 kArr (avx512.shiftLanes (mullo_epi32 kArr (List.replicate 16 2))))[i]? =
        some (k * 10 ^ avx2.digitCount (2 * k)) ∧
      (avx512.concatLanes kArr)[i]? = some (k * 10 ^ avx2.digitCount (2 * k) + 2 * k)) := by
  have hr := catK_range k hmax
  have hcat : catK k = k * 10 ^ avx2.digitCount (2 * k) + 2 * k := by
    rw [Nat.mul_comm 2 k, digitCount_eq (k * 2) (by omega)]
    rfl
  have hdc : avx2.digitCount (2 * k) ≤ 5 := by
    rw [Nat.mul_comm 2 k, digitCount_eq (k * 2) (by omega)]
    exact hr.1
  have hbound : k * 10 ^ avx2.digitCount (2 * k) + 2 * k ≤ 999919998 := by
    rw [← hcat]; exact hr.2
  refine ⟨hdc, rfl, POW10_get _ (by omega), hbound, by norm_num, ?_, ?_⟩
  · rw [concatProducts_double k h1 hmax, hcat]
  · intro kArr i hk hi
    have hp2 : (mullo_epi32 kArr (List.replicate 16 2))[i]? = some (2 * k) := by
      rw [mullo_get kArr 16 2 i k hk hi, Nat.mod_eq_of_lt (by omega), Nat.mul_comm]
    have hshift : (avx512.shiftLanes (mullo_epi32 kArr (List.replicate 16 2)))[i]? =
        some (10 ^ avx2.digitCount (2 * k)) := by
      rw [avx512_shiftLanes_get _ i (2 * k) hp2 hi, avx512_laneShift_eq _ (by omega) (by omega),
        digitCount_eq (2 * k) (by omega)]
    generalize avx2.digitCount (2 * k) = d at hbound hshift hdc ⊢
    have hprod := mullo_get2 kArr _ i k (10 ^ d) hk hshift
    rw [Nat.mod_eq_of_lt (by omega)] at hprod
    refine ⟨hp2, hprod, ?_⟩
    rw [avx512_concatLanes_eq_shiftLanes, add_get _ _ i _ _ hprod hp2, Nat.mod_eq_of_lt (by omega)]

theorem no_overflow_in_search_range_witness :
    (1 ≤ 9999 ∧ 9999 ≤ 9999) ∧
    (avx2.digitCount (2 * 9999) ≤ 5 ∧
    avx2.POW10.length = 10 ∧
    avx2.POW10[avx2.digitCount (2 * 9999)]? = some (10 ^ avx2.digitCount (2 * 9999)) ∧
    9999 * 10 ^ avx2.digitCount (2 * 9999) + 2 * 9999 ≤ 999919998 ∧ 999919998 < 2 ^ 31 ∧
    avx2.concatProducts 9999 (2 * 9999) =
      some (9999 * 10 ^ avx2.digitCount (2 * 9999) + 2 * 9999) ∧
    (∀ (kArr : List Nat) (i : Nat), kArr[i]? = some 9999 → i < 16 →
      (mullo_epi32 kArr (List.replicate 16 2))[i]? = some (2 * 9999) ∧
      (mullo_epi32 kArr (avx512.shiftLanes (mullo_epi32 kArr (List.replicate 16 2))))[i]? =
        some (9999 * 10 ^ avx2.digitCount (2 * 9999)) ∧
      (avx512.concatLanes kArr)[i]? =
        some (9999 * 10 ^ avx2.digitCount (2 * 9999) + 2 * 9999))) :=
  ⟨⟨by decide, by decide⟩, no_overflow_in_search_range 9999 (by decide) (by decide)⟩

end impl
